import Mathlib

/-!
AVL tree with duplicate counting (`src/AVLTree.hpp`)

A shallow embedding of the free functions `height`, `balance`, `min_value`,
`rotate_right`, `rotate_left`, `insert_key`, `delete_key` of `AVLTree.hpp` and of the
class `AVLTree` that threads its root pointer through them.

Modelling conventions.

* A `Node<KeyType> *` is a value of `Node α`: `nullptr` or a node with its five fields.
  The source mutates nodes in place and returns the new subtree root; the embedding
  returns the new subtree.  Every pointer of the tree is owned by exactly one parent,
  so no aliasing is lost.
* `std::size_t` (fields `height`, `count`) is `Nat`; `int` (result of `balance`) is `Int`.
  The width of `std::size_t` is not fixed by the source; wrap-around of `count` or
  `height` needs more nodes or calls than the width can address and is not modelled.
* Dereferencing a null pointer (`x->right` in a rotation whose pivot child is absent,
  `i_root->left->key`) is the result `none`.
* `KeyType` is a type with a decidable linear order, `==`, `<`, `>` being its
  equality and strict order.
-/

namespace AVLTree

/-- A `Node<KeyType> *`: either `nullptr` or a node with fields
`key`, `left`, `right`, `height`, `count` (in the order used here). -/
inductive Node (α : Type) where
  | nullptr : Node α
  | node (key : α) (left right : Node α) (height count : Nat) : Node α
  deriving DecidableEq, Repr

open Node

variable {α : Type}

/-- The constructor `Node(i_key)`: no children, `height = 1`, `count = 1`. -/
def Node.new (i_key : α) : Node α := node i_key nullptr nullptr 1 1

/-- The test `p == nullptr`. -/
def Node.isNull : Node α → Bool
  | nullptr => true
  | node _ _ _ _ _ => false

/-- The access `p->key`, undefined on a null pointer. -/
def Node.key? : Node α → Option α
  | nullptr => none
  | node k _ _ _ _ => some k

/-- `height(i_root)`: `0` for the empty tree, else the cached field. -/
def height : Node α → Nat
  | nullptr => 0
  | node _ _ _ h _ => h

/-- `balance(i_root)`: `0` for the empty tree, else
`height(left) - height(right)` as a signed integer. -/
def balance : Node α → Int
  | nullptr => 0
  | node _ l r _ _ => (height l : Int) - (height r : Int)

/-- `min_value(i_root)`: follow `left` pointers while there is one; returns the
node reached (the whole subtree hanging from it), `nullptr` on the empty tree. -/
def min_value : Node α → Node α
  | nullptr => nullptr
  | node k nullptr r h c => node k nullptr r h c
  | node _ (node lk ll lr lh lc) _ _ _ => min_value (node lk ll lr lh lc)

/-- `rotate_right(y)`: `x = y->left`, `t2 = x->right`; `x->right = y`, `y->left = t2`;
then the height of `y` and after it the height of `x` are recomputed.
`none` when `y` or `y->left` is null. -/
def rotate_right : Node α → Option (Node α)
  | node yk (node xk t1 t2 _ xc) t3 _ yc =>
    let y := node yk t2 t3 (max (height t2) (height t3) + 1) yc
    some (node xk t1 y (max (height t1) (height y) + 1) xc)
  | _ => none

/-- `rotate_left(x)`: `y = x->right`, `t2 = y->left`; `y->left = x`, `x->right = t2`;
then the height of `x` and after it the height of `y` are recomputed.
`none` when `x` or `x->right` is null. -/
def rotate_left : Node α → Option (Node α)
  | node xk t1 (node yk t2 t3 _ yc) _ xc =>
    let x := node xk t1 t2 (max (height t1) (height t2) + 1) xc
    some (node yk x t3 (max (height x) (height t3) + 1) yc)
  | _ => none

/-- `pre_order(i_root)`: on a node print `key(count)`, then traverse the left subtree,
then the right one; nothing on the empty tree.  `std::cout` is the list `cout` of the
`(key, count)` pairs printed so far, returned with the new pairs at its end. -/
def pre_order : Node α → List (α × Nat) → List (α × Nat)
  | nullptr, cout => cout
  | node key left right _ count, cout =>
    pre_order right (pre_order left (cout ++ [(key, count)]))

/-- The method `AVLTree::preorder() const`: it calls `::pre_order(m_root)` and does
not assign `m_root`; the result is the root after the call and the output. -/
def preorder (m_root : Node α) (cout : List (α × Nat)) : Node α × List (α × Nat) :=
  (m_root, pre_order m_root cout)

section Ops

variable [LinearOrder α]

/-- Lines 182-214 of `insert_key`, run on `i_root` after the recursive call has
replaced one child: update the height, compute `b = balance(i_root)` and go through
the four rotation cases.  `b > 1` and `b < -1` exclude each other, so the source's
sequence `LL, RR, LR, RL` of `if`s is written as the test of `b` followed by the two
cases of that side, in the source's order; `i_root->left->key` is read only under
`b > 1` and `i_root->right->key` only under `b < -1`. -/
def insert_rebalance (i_key : α) : Node α → Option (Node α)
  | nullptr => none
  | node key left right _ count =>
    let i_root := node key left right (max (height left) (height right) + 1) count
    let b := balance i_root
    if b > 1 then
      match left with
      | nullptr => none
      | node lk _ _ _ _ =>
        -- left-left case
        if i_key < lk then rotate_right i_root
        -- left-right case
        else if i_key > lk then
          (rotate_left left).bind fun l =>
            rotate_right (node key l right (max (height left) (height right) + 1) count)
        else some i_root
    else if b < -1 then
      match right with
      | nullptr => none
      | node rk _ _ _ _ =>
        -- right-right case
        if i_key > rk then rotate_left i_root
        -- right-left case
        else if i_key < rk then
          (rotate_right right).bind fun r =>
            rotate_left (node key left r (max (height left) (height right) + 1) count)
        else some i_root
    else some i_root

/-- `insert_key(i_root, i_key)`. -/
def insert_key : Node α → α → Option (Node α)
  | nullptr, i_key => some (Node.new i_key)
  | node key left right h count, i_key =>
    -- found duplicate
    if key = i_key then some (node key left right h (count + 1))
    -- insert into left subtree
    else if key > i_key then
      (insert_key left i_key).bind fun l =>
        insert_rebalance i_key (node key l right h count)
    -- insert into right subtree
    else
      (insert_key right i_key).bind fun r =>
        insert_rebalance i_key (node key left r h count)

/-- Lines 287-325 of `delete_key`, run on `i_root` after the part that removes the
key: return at once on the null pointer, else update the height, compute
`b = balance(i_root)` and go through the four rotation cases in the source's order. -/
def delete_rebalance : Node α → Option (Node α)
  | nullptr => some nullptr
  | node key left right _ count =>
    let i_root := node key left right (max (height left) (height right) + 1) count
    let b := balance i_root
    -- left-left case
    if b > 1 ∧ balance left ≥ 0 then rotate_right i_root
    -- left-right case
    else if b > 1 ∧ balance left < 0 then
      (rotate_left left).bind fun l =>
        rotate_right (node key l right (max (height left) (height right) + 1) count)
    -- right-right case
    else if b < -1 ∧ balance right ≤ 0 then rotate_left i_root
    -- right-left case
    else if b < -1 ∧ balance right > 0 then
      (rotate_right right).bind fun r =>
        rotate_left (node key left r (max (height left) (height right) + 1) count)
    else some i_root

/-- `delete_key(i_root, i_key)`.  In the one-child case `*i_root = *node` makes
`i_root` a copy of its only child; in the two-children case only the `key` of the
in-order successor is copied (line 280) and `delete_key` is called on the right
subtree with that key (line 283). -/
def delete_key : Node α → α → Option (Node α)
  | nullptr, _ => some nullptr
  | node key left right h count, i_key =>
    -- move to left subtree
    if i_key < key then
      (delete_key left i_key).bind fun l =>
        delete_rebalance (node key l right h count)
    -- move to right subtree
    else if i_key > key then
      (delete_key right i_key).bind fun r =>
        delete_rebalance (node key left r h count)
    -- found key
    else if count > 1 then some (node key left right h (count - 1))
    else if left.isNull || right.isNull then
      let child := if !left.isNull then left else right
      if child.isNull then delete_rebalance nullptr
      else delete_rebalance child
    else
      (min_value right).key?.bind fun succ_key =>
        (delete_key right succ_key).bind fun r =>
          delete_rebalance (node succ_key left r h count)

/-- A call of one of the two mutating methods of `class AVLTree`. -/
inductive Op (α : Type) where
  | insert (i_key : α) : Op α
  | delete (i_key : α) : Op α
  deriving DecidableEq, Repr

/-- One method call on the tree whose `m_root` is `t`:
`m_root = ::insert_key(m_root, i_key)` or `m_root = ::delete_key(m_root, i_key)`. -/
def Op.apply (t : Node α) : Op α → Option (Node α)
  | Op.insert k => insert_key t k
  | Op.delete k => delete_key t k

/-- The root after a sequence of method calls on a tree with root `t`. -/
def runFrom (t : Node α) : List (Op α) → Option (Node α)
  | [] => some t
  | op :: ops => (op.apply t).bind fun t' => runFrom t' ops

/-- The root after a sequence of method calls on the tree made by the default
constructor `AVLTree()` (`m_root = nullptr`). -/
def run (ops : List (Op α)) : Option (Node α) := runFrom nullptr ops

/-- The trees obtained from the empty tree by a finite sequence of `insert_key` and
`delete_key` calls. -/
def Reachable (t : Node α) : Prop := ∃ ops : List (Op α), run ops = some t

end Ops

/-! ### Observations on trees used to state the properties -/

/-- The true height of a tree: `0` for the empty tree, else one more than the larger
of the true heights of the children. -/
def realHeight : Node α → Nat
  | nullptr => 0
  | node _ l r _ _ => max (realHeight l) (realHeight r) + 1

/-- Every node has children whose true heights differ by at most one. -/
def Balanced : Node α → Prop
  | nullptr => True
  | node _ l r _ _ =>
    Balanced l ∧ Balanced r ∧ realHeight l ≤ realHeight r + 1 ∧ realHeight r ≤ realHeight l + 1

/-- Every node caches `1 + max(height(left), height(right))`. -/
def HeightOK : Node α → Prop
  | nullptr => True
  | node _ l r h _ => HeightOK l ∧ HeightOK r ∧ h = max (height l) (height r) + 1

/-- Every node caches the true height of its subtree. -/
def HeightTrue : Node α → Prop
  | nullptr => True
  | node k l r h c => HeightTrue l ∧ HeightTrue r ∧ h = realHeight (node k l r h c)

/-- Every node has `count ≥ 1`. -/
def CountPos : Node α → Prop
  | nullptr => True
  | node _ l r _ c => CountPos l ∧ CountPos r ∧ 1 ≤ c

/-- The in-order sequence (left subtree, node, right subtree) of `(key, count)` pairs. -/
def inorder : Node α → List (α × Nat)
  | nullptr => []
  | node k l r _ c => inorder l ++ (k, c) :: inorder r

/-- The in-order sequence of keys. -/
def keys (t : Node α) : List α := (inorder t).map Prod.fst

/-- The `count` fields, in in-order, of the nodes whose key is `k`. -/
def countsOf [DecidableEq α] (t : Node α) (k : α) : List Nat :=
  ((inorder t).filter fun p => decide (p.1 = k)).map Prod.snd

/-- The strict search-tree order: at every node the keys of the left subtree are
less than the node's key and the keys of the right subtree are greater. -/
def StrictBST [LT α] : Node α → Prop
  | nullptr => True
  | node k l r _ _ =>
    StrictBST l ∧ StrictBST r ∧ (∀ x ∈ keys l, x < k) ∧ (∀ x ∈ keys r, k < x)

/-- The in-order sequence of keys is sorted in non-decreasing order. -/
def InorderSorted [LE α] (t : Node α) : Prop := List.Pairwise (fun x y => x ≤ y) (keys t)

/-- The sum of the `count` fields of the nodes whose key is `k`. -/
def totalCount [DecidableEq α] (t : Node α) (k : α) : Nat := (countsOf t k).sum

/-- The effect of one call on the logical multiplicity `m` of the key `k`:
`insert_key(k)` adds one, `delete_key(k)` takes one away while `m > 0`. -/
def Op.multStep [DecidableEq α] (k : α) (m : Nat) : Op α → Nat
  | Op.insert x => if x = k then m + 1 else m
  | Op.delete x => if x = k then m - 1 else m

/-- The logical multiplicity of `k` after a sequence of calls, starting at `0`. -/
def mult [DecidableEq α] (ops : List (Op α)) (k : α) : Nat :=
  ops.foldl (Op.multStep k) 0

/-- The invariant behind the balance proofs, on cached heights: every node caches
`1 + max(height(left), height(right))` and the cached heights of its children differ
by at most one. -/
def AVL : Node α → Prop
  | nullptr => True
  | node _ l r h _ =>
    AVL l ∧ AVL r ∧ h = max (height l) (height r) + 1 ∧
      height l ≤ height r + 1 ∧ height r ≤ height l + 1

/-- The root `t` is a node other than one with key `k`, and it leans to the side on
which `k` lies: what `insert_key` leaves behind when it made a non-empty subtree
taller. -/
def Leans [LT α] (k : α) : Node α → Prop
  | nullptr => False
  | node a l r _ _ =>
    k ≠ a ∧ (k < a → height l = height r + 1) ∧ (a < k → height r = height l + 1)

/-- The number of nodes of a tree. -/
def size : Node α → Nat
  | nullptr => 0
  | node _ l r _ _ => size l + size r + 1

/-- The number of `insert_key` calls in a sequence of calls. -/
def insertCalls : List (Op α) → Nat
  | [] => 0
  | Op.insert _ :: ops => insertCalls ops + 1
  | Op.delete _ :: ops => insertCalls ops

/-- `CountChangedAt k f t t'`: the tree `t'` is the tree `t` with the count `c` of
exactly one node, a node holding `k`, replaced by `f c`; the shape, every key, every
cached height and every other count are the same. -/
def CountChangedAt (k : α) (f : Nat → Nat) : Node α → Node α → Prop
  | node a l r h c, node a' l' r' h' c' =>
    a' = a ∧ h' = h ∧
      ((a = k ∧ c' = f c ∧ l' = l ∧ r' = r) ∨
       (c' = c ∧ CountChangedAt k f l l' ∧ r' = r) ∨
       (c' = c ∧ l' = l ∧ CountChangedAt k f r r'))
  | nullptr, _ => False
  | node _ _ _ _ _, nullptr => False

/-- The node has a left child. -/
def hasLeft : Node α → Bool
  | node _ (node _ _ _ _ _) _ _ _ => true
  | _ => false

/-- The node has a right child. -/
def hasRight : Node α → Bool
  | node _ _ (node _ _ _ _ _) _ _ => true
  | _ => false

/-- The pre-order sequence (node, left subtree, right subtree) of `(key, count)`
pairs. -/
def preorderSeq : Node α → List (α × Nat)
  | nullptr => []
  | node k l r _ c => (k, c) :: (preorderSeq l ++ preorderSeq r)

/-- The post-order sequence (left subtree, right subtree, node) of `(key, count)`
pairs. -/
def postorderSeq : Node α → List (α × Nat)
  | nullptr => []
  | node k l r _ c => postorderSeq l ++ (postorderSeq r ++ [(k, c)])

/-! ### Concrete trees and call sequences used as test inputs -/

/-- The tree built by `insert_key` of `2`, `1`, `3`. -/
def tree213 : Node Nat :=
  node 2 (node 1 nullptr nullptr 1 1) (node 3 nullptr nullptr 1 1) 2 1

/-- The calls `insert_key` of `2`, `1`, `3`, `3`: they build `tree2133`. -/
def ops2133 : List (Op Nat) := [Op.insert 2, Op.insert 1, Op.insert 3, Op.insert 3]

/-- The tree built by `ops2133`: the root `2` has count `1` and two children, its
in-order successor `3` has count `2`. -/
def tree2133 : Node Nat :=
  node 2 (node 1 nullptr nullptr 1 1) (node 3 nullptr nullptr 1 2) 2 1

/-- The tree `delete_key` returns on `tree2133` and the key `2`. -/
def tree2133del2 : Node Nat :=
  node 3 (node 1 nullptr nullptr 1 1) (node 3 nullptr nullptr 1 1) 2 1

/-- The calls `insert_key` of `2`, `1`, `3`, `3`, `3`, then `delete_key` of `2` and
of `1`: they build `treeDup3`. -/
def opsDup3 : List (Op Nat) :=
  [Op.insert 2, Op.insert 1, Op.insert 3, Op.insert 3, Op.insert 3, Op.delete 2, Op.delete 1]

/-- The tree built by `opsDup3`: the root holds `3` with count `1`, its only child,
on the right, holds `3` with count `2`. -/
def treeDup3 : Node Nat :=
  node 3 nullptr (node 3 nullptr nullptr 1 2) 2 1

/-- The calls `insert_key` of `1` to `7` in ascending order, then `delete_key` of `4`. -/
def ops1to7del4 : List (Op Nat) :=
  [Op.insert 1, Op.insert 2, Op.insert 3, Op.insert 4, Op.insert 5, Op.insert 6,
    Op.insert 7, Op.delete 4]

/-- The tree built by `ops1to7del4`. -/
def tree1to7del4 : Node Nat :=
  node 5 (node 2 (node 1 nullptr nullptr 1 1) (node 3 nullptr nullptr 1 1) 2 1)
    (node 6 nullptr (node 7 nullptr nullptr 1 1) 2 1) 3 1

/-- The subtrees hanging from the nodes of a tree, at any depth, the tree itself
first. -/
def subtreeList : Node α → List (Node α)
  | nullptr => []
  | node k l r h c => node k l r h c :: (subtreeList l ++ subtreeList r)

/-- The calls `insert_key` of `20`, `10`, `30`, `5`, `15`: they build `tree20`. -/
def ops20 : List (Op Nat) :=
  [Op.insert 20, Op.insert 10, Op.insert 30, Op.insert 5, Op.insert 15]

/-- The tree built by `ops20`: root `20`, left child `10` with the leaves `5` and
`15`, right child the leaf `30`. -/
def tree20 : Node Nat :=
  node 20 (node 10 (node 5 nullptr nullptr 1 1) (node 15 nullptr nullptr 1 1) 2 1)
    (node 30 nullptr nullptr 1 1) 3 1

/-- The tree with root `10`, left child the leaf `5`, right child `20` whose left
child is the leaf `15`. -/
def tree20del30 : Node Nat :=
  node 10 (node 5 nullptr nullptr 1 1)
    (node 20 (node 15 nullptr nullptr 1 1) nullptr 2 1) 3 1

end AVLTree

/-!
Binary trees (`src/BinaryTree.hpp`, `src/BinarySearchTree.hpp`)

Both headers declare the same `TNode` and the same functions `areSame` and
`isSubtree`; `kthSmallest` is in `BinarySearchTree.hpp`.
-/

namespace BinaryTree

/-- A `TNode<KeyType> *`: `nullptr` or a node with fields `key`, `left`, `right`. -/
inductive TNode (α : Type) where
  | nullptr : TNode α
  | node (key : α) (left right : TNode α) : TNode α
  deriving DecidableEq, Repr

open TNode

variable {α : Type}

/-- `areSame(i_root1, i_root2)`: both empty, or both nodes with equal keys, the same
left subtrees and the same right subtrees. -/
def areSame [DecidableEq α] : TNode α → TNode α → Bool
  | nullptr, nullptr => true
  | nullptr, node _ _ _ => false
  | node _ _ _, nullptr => false
  | node k1 l1 r1, node k2 l2 r2 => decide (k1 = k2) && areSame l1 l2 && areSame r1 r2

/-- `isSubtree(i_tree, i_subtree)`: `true` on an empty `i_subtree`, `false` on an empty
`i_tree`, `true` when `areSame(i_tree, i_subtree)`, else
`areSame(i_tree->left, i_subtree) || areSame(i_tree->right, i_subtree)`. -/
def isSubtree [DecidableEq α] : TNode α → TNode α → Bool
  | _, nullptr => true
  | nullptr, node _ _ _ => false
  | node k l r, node k' l' r' =>
    if areSame (node k l r) (node k' l' r') then true
    else areSame l (node k' l' r') || areSame r (node k' l' r')

/-- The loop `while (node) { st.push(node); node = node->left; }`; the top of the
stack is the head of the list. -/
def pushLeftSpine : TNode α → List (TNode α) → List (TNode α)
  | nullptr, st => st
  | node k l r, st => pushLeftSpine l (node k l r :: st)

/-- The loop `while (!st.empty())` of `kthSmallest`, with the stack `st`, the variable
`node` and the counter `i_k` (a `std::size_t`, decremented modulo `2 ^ 64`).  One unit
of `fuel` is one iteration; the result is the pair of `node` and the stack at the end
of the loop, `none` when the fuel is used up or a null pointer is on the stack. -/
def kthLoop : Nat → List (TNode α) → TNode α → Nat → Option (TNode α × List (TNode α))
  | _, [], nd, _ => some (nd, [])
  | 0, _ :: _, _, _ => none
  | fuel + 1, top :: st, _, i_k =>
    -- pop top item, decrement counter
    let k := (i_k + 2 ^ 64 - 1) % 2 ^ 64
    if k = 0 then some (top, st)
    else
      match top with
      | nullptr => none
      | node key left nullptr => kthLoop fuel st (node key left nullptr) k
      | node _ _ (node rk rl rr) =>
        -- move right, then always left: `node` is null after the inner loop
        kthLoop fuel (pushLeftSpine (node rk rl rr) st) nullptr k

/-- `kthSmallest(i_root, i_k)`: fill the stack with the left spine of the root, run
the loop, and return `nullptr` when the stack is empty after the loop, else `node`. -/
def kthSmallest (fuel : Nat) (i_root : TNode α) (i_k : Nat) : Option (TNode α) :=
  (kthLoop fuel (pushLeftSpine i_root []) nullptr i_k).map fun res =>
    if res.2.isEmpty then nullptr else res.1

/-- The in-order sequence of the nodes (each with its subtree) of a tree. -/
def inorderNodes : TNode α → List (TNode α)
  | nullptr => []
  | node k l r => inorderNodes l ++ node k l r :: inorderNodes r

/-- The subtrees hanging from the nodes of a tree, at any depth. -/
def subtrees : TNode α → List (TNode α)
  | nullptr => []
  | node k l r => node k l r :: (subtrees l ++ subtrees r)

/-- The one-node tree with key `5`. -/
def single5 : TNode Nat := node 5 nullptr nullptr

/-- The tree with root `2`, left child `1` and right child `3`. -/
def bst213 : TNode Nat := node 2 (node 1 nullptr nullptr) (node 3 nullptr nullptr)

/-- The tree `1 - 2 - 3` going down to the left twice. -/
def chain123 : TNode Nat := node 1 (node 2 (node 3 nullptr nullptr) nullptr) nullptr

/-- The one-node tree with key `3`. -/
def single3 : TNode Nat := node 3 nullptr nullptr

/-- `height(i_root)` of `BinaryTree.hpp`: `0` on the empty tree, else
`1U + std::max(height(left), height(right))`, in `std::size_t` arithmetic (modulo
`2 ^ 64`). -/
def height : TNode α → Nat
  | nullptr => 0
  | node _ left right => (1 + max (height left) (height right)) % 2 ^ 64

/-- `diameter(i_root)`: `0` on the empty tree, else the largest of `1U + lh + rh`,
`ld` and `rd`, where `lh`, `rh` are the heights and `ld`, `rd` the diameters of the
two subtrees. -/
def diameter : TNode α → Nat
  | nullptr => 0
  | node _ left right =>
    let lh := height left
    let rh := height right
    let ld := diameter left
    let rd := diameter right
    max ((1 + lh + rh) % 2 ^ 64) (max ld rd)

/-- `diameter_optimized(i_root, io_height)`: the pair of the returned value and the
value stored in `*io_height`.  On the empty tree both are `0`; else the two recursive
calls give `ld`, `rd` and fill `lh`, `rh`, the height stored is `std::max(lh, rh) + 1`
and the value returned is the largest of `1U + lh + rh`, `ld` and `rd`. -/
def diameter_optimized : TNode α → Nat × Nat
  | nullptr => (0, 0)
  | node _ left right =>
    let l := diameter_optimized left
    let r := diameter_optimized right
    (max ((1 + l.2 + r.2) % 2 ^ 64) (max l.1 r.1), (max l.2 r.2 + 1) % 2 ^ 64)

end BinaryTree

/-!
Next greater element (`findNextGreater` of `src/StackUsage.cpp`, with `Stack` of
`src/Stack.hpp`)

The stack of `(value, position)` pairs is a list, its top the head.
-/

namespace StackUsage

/-- The inner loop `while (curr.first < curr_ng)`: store `curr_ng` at `curr.second`,
stop on the empty stack, else pop the next `curr`.  Returns `curr`, the stack and
`res` at the end of the loop. -/
def popSmaller (curr_ng : Int) :
    List (Int × Nat) → Int × Nat → List Int → (Int × Nat) × List (Int × Nat) × List Int
  | [], curr, res =>
    if curr.1 < curr_ng then (curr, [], res.set curr.2 curr_ng) else (curr, [], res)
  | top :: stack, curr, res =>
    if curr.1 < curr_ng then popSmaller curr_ng stack top (res.set curr.2 curr_ng)
    else (curr, top :: stack, res)

/-- The body of the `for` loop for the elements from position `pos` on. -/
def scanFrom : List Int → Nat → List (Int × Nat) → List Int → List (Int × Nat) × List Int
  | [], _, stack, res => (stack, res)
  | curr_ng :: rest, pos, stack, res =>
    match stack with
    | [] => scanFrom rest (pos + 1) [(curr_ng, pos)] res
    | top :: stack' =>
      -- extract top element from stack, pop elements less than the current one
      let out := popSmaller curr_ng stack' top res
      -- push back element greater than the current one
      let stack2 := if out.1.1 > curr_ng then out.1 :: out.2.1 else out.2.1
      -- push current element
      scanFrom rest (pos + 1) ((curr_ng, pos) :: stack2) out.2.2

/-- The last loop: `-1` for the positions left on the stack. -/
def flushStack : List (Int × Nat) → List Int → List Int
  | [], res => res
  | elem :: stack, res => flushStack stack (res.set elem.2 (-1))

/-- `findNextGreater(i_buf)`; `none` on the empty array, where `i_buf[0]` is read. -/
def findNextGreater : List Int → Option (List Int)
  | [] => none
  | x :: rest =>
    let res := List.replicate (rest.length + 1) (0 : Int)
    let out := scanFrom rest 1 [(x, 0)] res
    some (flushStack out.1 out.2)

/-- The next greater element of position `i` as the claim words it: the first element
to the right of `i` greater than `a[i]`, `-1` when there is none. -/
def nextGreaterSpec (a : List Int) (i : Nat) : Int :=
  ((a.drop (i + 1)).find? fun y => decide (a.getD i 0 < y)).getD (-1)

end StackUsage

/-!
Trie (`src/Trie.hpp`, `src/Trie.cpp`)

A `TrieNode *` is `nullptr` or a node with its `value` and its vector `child`, the
vector being the function from positions to child pointers; its length is the
alphabet size `m_size` of the trie.  Keys are lists of characters.
-/

namespace Trie

/-- A `TrieNode *`. -/
inductive TrieNode where
  | nullptr : TrieNode
  | node (value : Int) (child : Nat → TrieNode) : TrieNode

open TrieNode

/-- The test `p == nullptr`. -/
def TrieNode.isNull : TrieNode → Bool
  | nullptr => true
  | node _ _ => false

/-- The constructor `TrieNode(i_size)`: value `0`, all children null. -/
def TrieNode.new : TrieNode := node 0 fun _ => nullptr

/-- The assignment `child[idx] = p`. -/
def setChild (child : Nat → TrieNode) (idx : Nat) (p : TrieNode) : Nat → TrieNode :=
  fun i => if i = idx then p else child i

/-- `key_to_idx(i_chr)`: `i_chr - 'a'`. -/
def key_to_idx (i_chr : Char) : Int := (i_chr.toNat : Int) - ('a'.toNat : Int)

/-- `is_leaf(i_node)`: `value > 0`. -/
def is_leaf : TrieNode → Bool
  | nullptr => false
  | node value _ => decide (value > 0)

/-- `is_free_node(i_node)`: `true` as soon as one of the `m_size` children is not
null, `false` when all are null. -/
def is_free_node (m_size : Nat) : TrieNode → Bool
  | nullptr => false
  | node _ child => (List.range m_size).any fun pos => !(child pos).isNull

/-- `delete_key_util(i_node, i_key, i_level, i_len)` with the rest of the key from
`i_level` on; returns the result and the node after the call. -/
def delete_key_util (m_size : Nat) : TrieNode → List Char → Bool × TrieNode
  | nullptr, _ => (false, nullptr)
  | node value child, [] =>
    if value > 0 then
      -- unmark leaf node
      (is_free_node m_size (node 0 child), node 0 child)
    else (false, node value child)
  | node value child, c :: key =>
    let idx := (key_to_idx c).toNat
    let out := delete_key_util m_size (child idx) key
    if out.1 then
      -- delete last node
      let nd := node value (setChild child idx nullptr)
      (!is_leaf nd && is_free_node m_size nd, nd)
    else (false, node value (setChild child idx out.2))

/-- The loop of `insert` from the node `node` on, with the rest of the key; at the end
of the key the node gets the value `m_count`. -/
def insertFrom (m_count : Nat) : TrieNode → List Char → TrieNode
  | nullptr, _ => nullptr
  | node _ child, [] => node (m_count : Int) child
  | node value child, c :: key =>
    let idx := (key_to_idx c).toNat
    let next := if (child idx).isNull then TrieNode.new else child idx
    node value (setChild child idx (insertFrom m_count next key))

/-- The loop of `search` from the node `node` on, with the rest of the key. -/
def searchFrom : TrieNode → List Char → Bool
  | nullptr, _ => false
  | node value _, [] => decide (value > 0)
  | node _ child, c :: key =>
    let idx := (key_to_idx c).toNat
    if (child idx).isNull then false else searchFrom (child idx) key

end Trie

/-- The class `Trie`: root, number of keys inserted, alphabet size. -/
structure Trie where
  m_root : Trie.TrieNode
  m_count : Nat
  m_size : Nat

namespace Trie

/-- The constructor `Trie(i_size)`. -/
def new (i_size : Nat) : Trie := ⟨TrieNode.new, 0, i_size⟩

/-- `Trie::insert(i_key)`. -/
def insert (t : Trie) (i_key : List Char) : Trie :=
  { t with m_count := t.m_count + 1,
           m_root := insertFrom (t.m_count + 1) t.m_root i_key }

/-- `Trie::search(i_key)`. -/
def search (t : Trie) (i_key : List Char) : Bool := searchFrom t.m_root i_key

/-- `Trie::delete_key(i_key)`: nothing on the empty key. -/
def delete_key (t : Trie) (i_key : List Char) : Trie :=
  if i_key.length > 0 then
    { t with m_root := (delete_key_util t.m_size t.m_root i_key).2 }
  else t

/-- The trie holding the keys `ab` and `abc`. -/
def trieAbAbc : Trie := ((Trie.new 26).insert ['a', 'b']).insert ['a', 'b', 'c']

end Trie

/-!
Union-find (`src/UnionFind.hpp`, `src/UnionFind.cpp`)

The vector `m_parents` is a list of integers, `-1` marking a representative.  `find`
is recursive without a bound in the source: in the embedding one unit of `fuel` is one
call, and `none` is the result when the fuel is used up or an index is outside the
vector.
-/

namespace UnionFind

/-- The constructor `UnionFind(i_num_vert)`: every parent is `-1`. -/
def new (i_num_vert : Nat) : List Int := List.replicate i_num_vert (-1)

/-- `UnionFind::find(i_vertex)`. -/
def find : Nat → List Int → Int → Option Int
  | 0, _, _ => none
  | fuel + 1, m_parents, i_vertex =>
    if i_vertex < 0 then none
    else
      match m_parents[i_vertex.toNat]? with
      | none => none
      | some p => if p = -1 then some i_vertex else find fuel m_parents p

/-- `UnionFind::make_union(i_first, i_second)`: the parents after the call. -/
def make_union (fuel : Nat) (m_parents : List Int) (i_first i_second : Int) :
    Option (List Int) :=
  (find fuel m_parents i_first).bind fun p1 =>
    (find fuel m_parents i_second).bind fun p2 =>
      if p1 < 0 ∨ m_parents.length ≤ p1.toNat then none
      else some (m_parents.set p1.toNat p2)

/-- The states of a `UnionFind` of `n` vertices reached from the constructor by
`make_union(a, b)` calls made as the callers in the repository make them: `a` and `b`
are vertices and `find(a) != find(b)` before the call. -/
inductive GuardedReachable (n : Nat) : List Int → Prop where
  | init : GuardedReachable n (new n)
  | union (fuel : Nat) (m_parents m_parents' : List Int) (a b : Nat) (p1 p2 : Int) :
      GuardedReachable n m_parents → a < n → b < n →
      find fuel m_parents a = some p1 → find fuel m_parents b = some p2 → p1 ≠ p2 →
      make_union fuel m_parents a b = some m_parents' → GuardedReachable n m_parents'

/-- The invariant of the guarded states after `u` unions: `n` entries, `n - u` of them
`-1`, and from every vertex `find` reaches, in at most `u + 1` calls, a vertex whose
entry is `-1`. -/
def Forest (n u : Nat) (m_parents : List Int) : Prop :=
  m_parents.length = n ∧ u + m_parents.count (-1) = n ∧
    ∀ v, v < n → ∃ r : Nat, r < n ∧ find (u + 1) m_parents v = some (r : Int) ∧
      m_parents[r]? = some (-1)

end UnionFind

/-!
Heap sort (`src/HeapSort.hpp`)

A `std::vector<ValueType> &` is its size together with the function from positions to
elements; all reads and writes of the source are at positions below the size.
-/

namespace HeapSort

variable {α : Type}

/-- `std::swap(io_buf[i], io_buf[j])`. -/
def swap (io_buf : Nat → α) (i j : Nat) : Nat → α :=
  fun k => if k = i then io_buf j else if k = j then io_buf i else io_buf k

/-- Lines 15-26 of `maxHeapify`: the value of `largest` before the test
`largest != i_idx`. -/
def largestOf [LinearOrder α] (io_buf : Nat → α) (i_idx i_size : Nat) : Nat :=
  let l_idx := 2 * i_idx + 1
  let r_idx := 2 * i_idx + 2
  let largest := if l_idx < i_size ∧ io_buf l_idx > io_buf i_idx then l_idx else i_idx
  if r_idx < i_size ∧ io_buf r_idx > io_buf largest then r_idx else largest

/-- `maxHeapify(io_buf, i_idx, i_size)`: the buffer after the call.  The recursive
call is on a child of `i_idx` below `i_size`. -/
def maxHeapify [LinearOrder α] (io_buf : Nat → α) (i_idx i_size : Nat) : Nat → α :=
  if h : largestOf io_buf i_idx i_size ≠ i_idx then
    maxHeapify (swap io_buf (largestOf io_buf i_idx i_size) i_idx)
      (largestOf io_buf i_idx i_size) i_size
  else io_buf
termination_by i_size - i_idx
decreasing_by
  simp only [largestOf] at h ⊢
  split_ifs at h ⊢ <;> omega

/-- The loop of `buildHeap` from `pos` down to `0`, on a buffer of size `n`. -/
def buildHeapFrom [LinearOrder α] (n : Nat) : Nat → (Nat → α) → (Nat → α)
  | 0, io_buf => maxHeapify io_buf 0 n
  | pos + 1, io_buf => buildHeapFrom n pos (maxHeapify io_buf (pos + 1) n)

/-- `buildHeap(io_buf)` with `n = io_buf.size()`: the loop starts at `n / 2`. -/
def buildHeap [LinearOrder α] (io_buf : Nat → α) (n : Nat) : Nat → α :=
  buildHeapFrom n (n / 2) io_buf

/-- The loop `while (i_size > 1)` of `heapSort`. -/
def sortLoop [LinearOrder α] : Nat → (Nat → α) → (Nat → α)
  | 0, io_buf => io_buf
  | 1, io_buf => io_buf
  | m + 2, io_buf => sortLoop (m + 1) (maxHeapify (swap io_buf 0 (m + 1)) 0 (m + 1))

/-- `heapSort(io_buf, i_size)` on a buffer of size `n`. -/
def heapSort [LinearOrder α] (io_buf : Nat → α) (n i_size : Nat) : Nat → α :=
  sortLoop i_size (buildHeap io_buf n)

/-- The contents of a vector as a function of the position. -/
def ofList [Inhabited α] (v : List α) : Nat → α := fun i => v.getD i default

/-- The first `n` places of a buffer as a list. -/
def toList (n : Nat) (buf : Nat → α) : List α := (List.range n).map buf

/-- The call `heapSort(v, v.size())` on the vector `v`: the vector after the call. -/
def heapSortVector [Inhabited α] [LinearOrder α] (v : List α) : List α :=
  toList v.length (heapSort (ofList v) v.length v.length)

/-- The max-heap order at the node `j` of a heap of size `n`: no child is greater. -/
def MaxAt [LE α] (buf : Nat → α) (n j : Nat) : Prop :=
  (2 * j + 1 < n → buf (2 * j + 1) ≤ buf j) ∧ (2 * j + 2 < n → buf (2 * j + 2) ≤ buf j)

/-- The buffer `buf'` is `buf` with the places below `m` permuted: the same elements
with the same multiplicities below `m`, and nothing changed from `m` on. -/
def PermBelow (m : Nat) (buf' buf : Nat → α) : Prop :=
  ∃ σ : Equiv.Perm Nat, (∀ k, m ≤ k → σ k = k) ∧ ∀ k, buf' k = buf (σ k)

end HeapSort

/-!
Binary min-heap (`src/BinaryMinHeap.hpp`)

The array `m_heap` is the function from positions to keys; `std::swap` is
`HeapSort.swap`.
-/

/-- The class `MinHeap<KeyType>`: the array `m_heap` as the function from positions
to keys, its capacity and the number of keys stored. -/
structure MinHeap (α : Type) where
  m_heap : Nat → α
  m_capacity : Nat
  m_size : Nat

namespace MinHeap

variable {α : Type}

/-- The constructor `MinHeap(i_capacity)`; `init` is the contents of the fresh array
`new KeyType[i_capacity]`, which the source does not set. -/
def new (init : Nat → α) (i_capacity : Nat) : MinHeap α := ⟨init, i_capacity, 0⟩

/-- `parent(i_child)`. -/
def parent (i_child : Nat) : Nat := if i_child > 0 then (i_child - 1) / 2 else 0

/-- `left(i_parent)`. -/
def left (i_parent : Nat) : Nat := 2 * i_parent + 1

/-- `right(i_parent)`. -/
def right (i_parent : Nat) : Nat := 2 * i_parent + 2

/-- The assignment `m_heap[i] = x`. -/
def assign (m_heap : Nat → α) (i : Nat) (x : α) : Nat → α :=
  fun k => if k = i then x else m_heap k

/-- Lines 67-82 of `heapify`: the value of `smallest` before the test
`smallest != i_idx`. -/
def smallestOf [LinearOrder α] (m_heap : Nat → α) (m_size i_idx : Nat) : Nat :=
  let l_idx := left i_idx
  let r_idx := right i_idx
  let smallest := if l_idx < m_size ∧ m_heap l_idx < m_heap i_idx then l_idx else i_idx
  if r_idx < m_size ∧ m_heap r_idx < m_heap smallest then r_idx else smallest

/-- `heapify(i_idx)` on the array `m_heap` with `m_size` keys: the array after the
call. -/
def heapifyArray [LinearOrder α] (m_heap : Nat → α) (m_size i_idx : Nat) : Nat → α :=
  if h : smallestOf m_heap m_size i_idx ≠ i_idx then
    heapifyArray (HeapSort.swap m_heap i_idx (smallestOf m_heap m_size i_idx)) m_size
      (smallestOf m_heap m_size i_idx)
  else m_heap
termination_by m_size - i_idx
decreasing_by
  simp only [smallestOf, left, right] at h ⊢
  split_ifs at h ⊢ <;> omega

/-- The method `heapify(i_idx)`. -/
def heapify [LinearOrder α] (h : MinHeap α) (i_idx : Nat) : MinHeap α :=
  { h with m_heap := heapifyArray h.m_heap h.m_size i_idx }

/-- The loop `while (idx > 0U && m_heap[parent(idx)] > m_heap[idx])` of `insert_key`:
the array after the loop. -/
def siftUp [LinearOrder α] (m_heap : Nat → α) (idx : Nat) : Nat → α :=
  if h : idx > 0 ∧ m_heap (parent idx) > m_heap idx then
    siftUp (HeapSort.swap m_heap idx (parent idx)) (parent idx)
  else m_heap
termination_by idx
decreasing_by
  simp only [parent]
  split_ifs <;> omega

/-- `insert_key(i_key)`: nothing when the heap is full. -/
def insert_key [LinearOrder α] (h : MinHeap α) (i_key : α) : MinHeap α :=
  if h.m_size < h.m_capacity then
    { h with m_heap := siftUp (assign h.m_heap h.m_size i_key) h.m_size,
             m_size := h.m_size + 1 }
  else h

/-- `extract_min()`: the key returned and the heap after the call; `none` on the empty
heap, where the source reads `m_heap[m_size - 1]` with `m_size = 0`. -/
def extract_min [LinearOrder α] (h : MinHeap α) : Option (α × MinHeap α) :=
  if h.m_size = 0 then none
  else if h.m_size = 1 then some (h.m_heap 0, { h with m_size := 0 })
  else
    some (h.m_heap 0,
      heapify { h with m_heap := assign h.m_heap 0 (h.m_heap (h.m_size - 1)),
                       m_size := h.m_size - 1 } 0)

/-- A call of `insert_key` or of `extract_min`. -/
inductive Call (α : Type) where
  | insert (i_key : α) : Call α
  | extract : Call α

/-- The heap after a sequence of calls; `none` when `extract_min` is called on the
empty heap. -/
def run [LinearOrder α] (h : MinHeap α) : List (Call α) → Option (MinHeap α)
  | [] => some h
  | Call.insert k :: cs => run (insert_key h k) cs
  | Call.extract :: cs => (extract_min h).bind fun out => run out.2 cs

/-- The keys stored, in the order of the array. -/
def contents (h : MinHeap α) : List α := (List.range h.m_size).map h.m_heap

/-- The min-heap property: every stored key other than the root is at least the key
of its parent. -/
def IsHeap [LE α] (h : MinHeap α) : Prop :=
  ∀ c, 0 < c → c < h.m_size → h.m_heap (parent c) ≤ h.m_heap c

/-- The min-heap order at the node `j` of a heap of size `n`: no child is less. -/
def MinAt [LE α] (buf : Nat → α) (n j : Nat) : Prop :=
  (2 * j + 1 < n → buf j ≤ buf (2 * j + 1)) ∧ (2 * j + 2 < n → buf j ≤ buf (2 * j + 2))

end MinHeap

/-- The heap used as test input: capacity `4`, after `insert_key(3)` and
`insert_key(1)`. -/
def MinHeap.heap31 : MinHeap Nat :=
  MinHeap.insert_key (MinHeap.insert_key (MinHeap.new (fun _ => 0) 4) 3) 1

/-!
Binary indexed tree (`src/BIT.hpp`, `src/BIT.cpp`)

Positions (`int` in the source) are natural numbers: a negative position is outside
every vector, and a position that does not fit an `int` needs a vector of more than
`2 ^ 30` elements.  Values are of type `int`, 32 bits in two's complement: the result
of every addition and subtraction of values is reduced modulo `2 ^ 32` to the range
from `-2147483648` to `2147483647`, as the compiled code does (the language leaves
the overflow of `int` undefined).  The two loops of the source whose end depends on
the bit pattern of the position take fuel.
-/

namespace BIT

/-- The value an `int` holds after a computation whose exact result is `x`: the
integer from `-2147483648` to `2147483647` that differs from `x` by a multiple of
`4294967296`. -/
def int32 (x : Int) : Int := (x + 2147483648) % 4294967296 - 2147483648

/-- `i_idx & (-i_idx)` for a non-negative `i_idx`. -/
def lowbit (i_idx : Nat) : Nat := (Int.land (i_idx : Int) (-(i_idx : Int))).toNat

/-- The statement `io_tree[i] += v` on `int` values. -/
def addAt (io_tree : Nat → Int) (i : Nat) (v : Int) : Nat → Int :=
  fun k => if k = i then int32 (io_tree k + v) else io_tree k

/-- The loop `while (i_idx <= i_n)` of `update_util`; one unit of `fuel` is one
iteration, `none` the result when the fuel is used up. -/
def updateLoop : Nat → (Nat → Int) → Nat → Nat → Int → Option (Nat → Int)
  | 0, io_tree, i_n, i_idx, _ => if i_idx ≤ i_n then none else some io_tree
  | fuel + 1, io_tree, i_n, i_idx, i_val =>
    if i_idx ≤ i_n then
      updateLoop fuel (addAt io_tree i_idx i_val) i_n (i_idx + lowbit i_idx) i_val
    else some io_tree

/-- `update_util(io_tree, i_n, i_idx, i_val)`: `i_idx++`, then the loop. -/
def update_util (fuel : Nat) (io_tree : Nat → Int) (i_n i_idx : Nat) (i_val : Int) :
    Option (Nat → Int) :=
  updateLoop fuel io_tree i_n (i_idx + 1) i_val

/-- The loop of the constructor over the elements of `i_arr` from position `pos` on. -/
def buildLoop (fuel n : Nat) : List Int → Nat → (Nat → Int) → Option (Nat → Int)
  | [], _, m_tree => some m_tree
  | x :: rest, pos, m_tree =>
    (update_util fuel m_tree n pos x).bind fun t => buildLoop fuel n rest (pos + 1) t

end BIT

/-- The class `BinaryIndexedTree`: the vector `m_tree` (of size `n + 1`) as the
function from positions to values, and the vector `m_orig` of size `n`. -/
structure BinaryIndexedTree where
  m_tree : Nat → Int
  m_orig : List Int

namespace BIT

/-- The constructor `BinaryIndexedTree(i_arr)`. -/
def new (fuel : Nat) (i_arr : List Int) : Option BinaryIndexedTree :=
  (buildLoop fuel i_arr.length i_arr 0 fun _ => 0).map fun t => ⟨t, i_arr⟩

end BIT

namespace AVLTree

open Node

variable {α : Type}

/-! ### Cached heights and balance -/

@[simp] theorem height_nullptr : height (nullptr : Node α) = 0 := rfl

@[simp] theorem height_node (k : α) (l r : Node α) (h c : Nat) :
    height (node k l r h c) = h := rfl

theorem AVL.height_eq : ∀ {t : Node α}, AVL t → height t = realHeight t
  | nullptr, _ => rfl
  | node _ l r h _, ⟨hl, hr, hh, _, _⟩ => by
    show h = max (realHeight l) (realHeight r) + 1
    rw [hh, hl.height_eq, hr.height_eq]

theorem AVL.balanced : ∀ {t : Node α}, AVL t → Balanced t
  | nullptr, _ => trivial
  | node _ l r h _, ⟨hl, hr, _, h1, h2⟩ => by
    refine ⟨hl.balanced, hr.balanced, ?_, ?_⟩
    · rw [← hl.height_eq, ← hr.height_eq]; exact h1
    · rw [← hl.height_eq, ← hr.height_eq]; exact h2

theorem AVL.heightOK : ∀ {t : Node α}, AVL t → HeightOK t
  | nullptr, _ => trivial
  | node _ _ _ _ _, ⟨hl, hr, hh, _, _⟩ => ⟨hl.heightOK, hr.heightOK, hh⟩

theorem AVL.heightTrue : ∀ {t : Node α}, AVL t → HeightTrue t
  | nullptr, _ => trivial
  | node k l r h c, ⟨hl, hr, hh, h1, h2⟩ => by
    refine ⟨hl.heightTrue, hr.heightTrue, ?_⟩
    exact AVL.height_eq (t := node k l r h c) ⟨hl, hr, hh, h1, h2⟩

theorem AVL.pos_of_node {k : α} {l r : Node α} {h c : Nat} (ht : AVL (node k l r h c)) :
    1 ≤ h := by
  obtain ⟨_, _, hh, _, _⟩ := ht
  omega

section InsertBalance

variable [LinearOrder α]

/-- The rebalancing step of `insert_key` after an insertion into the left subtree. -/
theorem insert_rebalance_left (k a : α) (l r : Node α) (h c : Nat)
    (hl : AVL l) (hr : AVL r)
    (hlo : height r ≤ height l + 1)
    (hhi : height l ≤ height r + 1 ∨ (height l = height r + 2 ∧ Leans k l)) :
    ∃ t, insert_rebalance k (node a l r h c) = some t ∧ AVL t ∧
      ((height l ≤ height r + 1 ∧ t = node a l r (max (height l) (height r) + 1) c) ∨
       (height l = height r + 2 ∧ height t = height l)) := by
  rcases hhi with hhi | ⟨hhi, hlean⟩
  · refine ⟨node a l r (max (height l) (height r) + 1) c, ?_, ⟨hl, hr, rfl, hhi, hlo⟩, Or.inl ⟨hhi, rfl⟩⟩
    have h1 : ¬ ((height l : Int) - (height r : Int) > 1) := by omega
    have h2 : ¬ ((height l : Int) - (height r : Int) < -1) := by omega
    simp only [insert_rebalance, balance, h1, h2, if_false]
  · cases l with
    | nullptr => exact absurd hlean (by simp [Leans])
    | node lk ll lr lh lc =>
      obtain ⟨hll, hlr, hlh, hb1, hb2⟩ := hl
      obtain ⟨hne, hlt, hgt⟩ := hlean
      simp only [height_node] at hhi hlo
      have hb : (lh : Int) - (height r : Int) > 1 := by omega
      rcases lt_or_gt_of_ne hne with hk | hk
      · have h3 := hlt hk
        refine ⟨node lk ll (node a lr r (max (height lr) (height r) + 1) c)
          (max (height ll) (max (height lr) (height r) + 1) + 1) lc, ?_, ?_, Or.inr ⟨hhi, ?_⟩⟩
        · simp only [insert_rebalance, balance, height_node, hb, if_true, hk, rotate_right]
        · refine ⟨hll, ⟨hlr, hr, rfl, ?_, ?_⟩, ?_, ?_, ?_⟩ <;> (try simp only [height_node]) <;> omega
        · simp only [height_node]; omega
      · have h3 := hgt hk
        have hk' : ¬ k < lk := not_lt_of_gt hk
        cases lr with
        | nullptr => simp only [height_nullptr] at h3; omega
        | node mk ml mr mh mc =>
          obtain ⟨hml, hmr, hmh, hm1, hm2⟩ := hlr
          simp only [height_node] at h3 hlh hb1 hb2
          refine ⟨node mk (node lk ll ml (max (height ll) (height ml) + 1) lc)
            (node a mr r (max (height mr) (height r) + 1) c)
            (max (max (height ll) (height ml) + 1) (max (height mr) (height r) + 1) + 1) mc,
            ?_, ?_, Or.inr ⟨hhi, ?_⟩⟩
          · simp only [insert_rebalance, balance, height_node, hb, if_true, hk', if_false,
              gt_iff_lt, hk, rotate_left, rotate_right, Option.bind_some, Option.some_bind]
          · refine ⟨⟨hll, hml, rfl, ?_, ?_⟩, ⟨hmr, hr, rfl, ?_, ?_⟩, ?_, ?_, ?_⟩ <;>
              (try simp only [height_node]) <;> omega
          · simp only [height_node]; omega

/-- The rebalancing step of `insert_key` after an insertion into the right subtree. -/
theorem insert_rebalance_right (k a : α) (l r : Node α) (h c : Nat)
    (hl : AVL l) (hr : AVL r)
    (hlo : height l ≤ height r + 1)
    (hhi : height r ≤ height l + 1 ∨ (height r = height l + 2 ∧ Leans k r)) :
    ∃ t, insert_rebalance k (node a l r h c) = some t ∧ AVL t ∧
      ((height r ≤ height l + 1 ∧ t = node a l r (max (height l) (height r) + 1) c) ∨
       (height r = height l + 2 ∧ height t = height r)) := by
  rcases hhi with hhi | ⟨hhi, hlean⟩
  · refine ⟨node a l r (max (height l) (height r) + 1) c, ?_, ⟨hl, hr, rfl, hlo, hhi⟩, Or.inl ⟨hhi, rfl⟩⟩
    have h1 : ¬ ((height l : Int) - (height r : Int) > 1) := by omega
    have h2 : ¬ ((height l : Int) - (height r : Int) < -1) := by omega
    simp only [insert_rebalance, balance, h1, h2, if_false]
  · cases r with
    | nullptr => exact absurd hlean (by simp [Leans])
    | node rk rl rr rh rc =>
      obtain ⟨hrl, hrr, hrh, hb1, hb2⟩ := hr
      obtain ⟨hne, hlt, hgt⟩ := hlean
      simp only [height_node] at hhi hlo
      have hb : ¬ ((height l : Int) - (rh : Int) > 1) := by omega
      have hb' : (height l : Int) - (rh : Int) < -1 := by omega
      rcases lt_or_gt_of_ne hne with hk | hk
      · have h3 := hlt hk
        have hk' : ¬ k > rk := not_lt_of_gt hk
        cases rl with
        | nullptr => simp only [height_nullptr] at h3; omega
        | node mk ml mr mh mc =>
          obtain ⟨hml, hmr, hmh, hm1, hm2⟩ := hrl
          simp only [height_node] at h3 hrh hb1 hb2
          refine ⟨node mk (node a l ml (max (height l) (height ml) + 1) c)
            (node rk mr rr (max (height mr) (height rr) + 1) rc)
            (max (max (height l) (height ml) + 1) (max (height mr) (height rr) + 1) + 1) mc,
            ?_, ?_, Or.inr ⟨hhi, ?_⟩⟩
          · simp only [insert_rebalance, balance, height_node, hb, hb', if_true, hk', if_false,
              hk, rotate_left, rotate_right, Option.bind_some, Option.some_bind]
          · refine ⟨⟨hl, hml, rfl, ?_, ?_⟩, ⟨hmr, hrr, rfl, ?_, ?_⟩, ?_, ?_, ?_⟩ <;>
              (try simp only [height_node]) <;> omega
          · simp only [height_node]; omega
      · have h3 := hgt hk
        refine ⟨node rk (node a l rl (max (height l) (height rl) + 1) c) rr
          (max (max (height l) (height rl) + 1) (height rr) + 1) rc, ?_, ?_, Or.inr ⟨hhi, ?_⟩⟩
        · simp only [insert_rebalance, balance, height_node, hb, hb', if_true, if_false,
            gt_iff_lt, hk, rotate_left]
        · refine ⟨⟨hl, hrl, rfl, ?_, ?_⟩, hrr, ?_, ?_, ?_⟩ <;> (try simp only [height_node]) <;> omega
        · simp only [height_node]; omega

/-- On a tree satisfying the height invariant `insert_key` returns a tree satisfying
it, of the same height or one more; in the latter case the tree was empty or the
result leans towards the inserted key. -/
theorem insert_key_avl (k : α) : ∀ (t : Node α), AVL t →
    ∃ t', insert_key t k = some t' ∧ AVL t' ∧
      (height t' = height t ∨
        (height t' = height t + 1 ∧ (t = nullptr ∨ Leans k t')))
  | nullptr, _ =>
    ⟨Node.new k, rfl, ⟨trivial, trivial, rfl, Nat.le_succ _, Nat.le_succ _⟩,
      Or.inr ⟨rfl, Or.inl rfl⟩⟩
  | node a l r h c, ⟨hl, hr, hh, h1, h2⟩ => by
    by_cases hak : a = k
    · refine ⟨node a l r h (c + 1), ?_, ⟨hl, hr, hh, h1, h2⟩, Or.inl rfl⟩
      simp only [insert_key, hak, if_true]
    · by_cases hgt : a > k
      · obtain ⟨l', hl', hal', hcase⟩ := insert_key_avl k l hl
        have hhi : height l' ≤ height r + 1 ∨ (height l' = height r + 2 ∧ Leans k l') := by
          rcases hcase with h3 | ⟨h3, h4 | h4⟩
          · left; omega
          · left; subst h4; simp only [height_nullptr] at h3; omega
          · by_cases h5 : height l' ≤ height r + 1
            · exact Or.inl h5
            · exact Or.inr ⟨by omega, h4⟩
        obtain ⟨t', ht', hat', hres⟩ :=
          insert_rebalance_left k a l' r h c hal' hr (by rcases hcase with h3 | ⟨h3, _⟩ <;> omega) hhi
        refine ⟨t', ?_, hat', ?_⟩
        · simp only [insert_key, hak, if_false, hgt, if_true, hl', Option.some_bind, ht']
        · rcases hres with ⟨h5, rfl⟩ | ⟨h5, h6⟩
          · simp only [height_node]
            by_cases h7 : max (height l') (height r) + 1 = h
            · exact Or.inl h7
            · refine Or.inr ⟨by rcases hcase with h3 | ⟨h3, _⟩ <;> omega, Or.inr ⟨Ne.symm hak, ?_, ?_⟩⟩
              · intro _; rcases hcase with h3 | ⟨h3, _⟩ <;> omega
              · intro h8; exact absurd h8 (not_lt_of_gt hgt)
          · left; simp only [height_node]; rcases hcase with h3 | ⟨h3, _⟩ <;> omega
      · have hlt : a < k := lt_of_le_of_ne (not_lt.mp hgt) hak
        obtain ⟨r', hr', har', hcase⟩ := insert_key_avl k r hr
        have hhi : height r' ≤ height l + 1 ∨ (height r' = height l + 2 ∧ Leans k r') := by
          rcases hcase with h3 | ⟨h3, h4 | h4⟩
          · left; omega
          · left; subst h4; simp only [height_nullptr] at h3; omega
          · by_cases h5 : height r' ≤ height l + 1
            · exact Or.inl h5
            · exact Or.inr ⟨by omega, h4⟩
        obtain ⟨t', ht', hat', hres⟩ :=
          insert_rebalance_right k a l r' h c hl har' (by rcases hcase with h3 | ⟨h3, _⟩ <;> omega) hhi
        refine ⟨t', ?_, hat', ?_⟩
        · simp only [insert_key, hak, if_false, hgt, hr', Option.some_bind, ht']
        · rcases hres with ⟨h5, rfl⟩ | ⟨h5, h6⟩
          · simp only [height_node]
            by_cases h7 : max (height l) (height r') + 1 = h
            · exact Or.inl h7
            · refine Or.inr ⟨by rcases hcase with h3 | ⟨h3, _⟩ <;> omega, Or.inr ⟨Ne.symm hak, ?_, ?_⟩⟩
              · intro h8; exact absurd h8 (not_lt_of_gt hlt)
              · intro _; rcases hcase with h3 | ⟨h3, _⟩ <;> omega
          · left; simp only [height_node]; rcases hcase with h3 | ⟨h3, _⟩ <;> omega

end InsertBalance

section DeleteRebalance

/-- The rebalancing step of `delete_key` on a node whose children satisfy the height
invariant and differ in height by at most two: nothing but the height update when
they differ by at most one, else a rotation to a tree of the height of the taller
child or one more. -/
theorem delete_rebalance_avl (a : α) (l r : Node α) (h c : Nat)
    (hl : AVL l) (hr : AVL r)
    (h1 : height l ≤ height r + 2) (h2 : height r ≤ height l + 2) :
    ∃ t, delete_rebalance (node a l r h c) = some t ∧ AVL t ∧
      ((height l ≤ height r + 1 ∧ height r ≤ height l + 1 ∧
          t = node a l r (max (height l) (height r) + 1) c) ∨
       ((height l = height r + 2 ∨ height r = height l + 2) ∧
          (height t = max (height l) (height r) ∨
           height t = max (height l) (height r) + 1))) := by
  by_cases hA : height l = height r + 2
  · cases l with
    | nullptr => simp only [height_nullptr] at hA; omega
    | node lk ll lr lh lc =>
      obtain ⟨hll, hlr, hlh, hb1, hb2⟩ := hl
      simp only [height_node] at hA h1 h2 ⊢
      have hb : (lh : Int) - (height r : Int) > 1 := by omega
      by_cases hB : (height ll : Int) - (height lr : Int) ≥ 0
      · refine ⟨node lk ll (node a lr r (max (height lr) (height r) + 1) c)
          (max (height ll) (max (height lr) (height r) + 1) + 1) lc, ?_, ?_, Or.inr ⟨Or.inl hA, ?_⟩⟩
        · simp only [delete_rebalance, balance, height_node, hb, hB, and_self, if_true,
            rotate_right]
        · refine ⟨hll, ⟨hlr, hr, rfl, ?_, ?_⟩, ?_, ?_, ?_⟩ <;> (try simp only [height_node]) <;> omega
        · simp only [height_node]; omega
      · have hB' : (height ll : Int) - (height lr : Int) < 0 := by omega
        cases lr with
        | nullptr => simp only [height_nullptr] at hB'; omega
        | node mk ml mr mh mc =>
          obtain ⟨hml, hmr, hmh, hm1, hm2⟩ := hlr
          simp only [height_node] at hB hB' hlh hb1 hb2
          refine ⟨node mk (node lk ll ml (max (height ll) (height ml) + 1) lc)
            (node a mr r (max (height mr) (height r) + 1) c)
            (max (max (height ll) (height ml) + 1) (max (height mr) (height r) + 1) + 1) mc,
            ?_, ?_, Or.inr ⟨Or.inl hA, ?_⟩⟩
          · simp only [delete_rebalance, balance, height_node, hb, hB, hB', and_false, and_self,
              if_true, if_false, rotate_left, rotate_right, Option.bind_some, Option.some_bind]
          · refine ⟨⟨hll, hml, rfl, ?_, ?_⟩, ⟨hmr, hr, rfl, ?_, ?_⟩, ?_, ?_, ?_⟩ <;>
              (try simp only [height_node]) <;> omega
          · simp only [height_node]; omega
  · by_cases hC : height r = height l + 2
    · cases r with
      | nullptr => simp only [height_nullptr] at hC; omega
      | node rk rl rr rh rc =>
        obtain ⟨hrl, hrr, hrh, hb1, hb2⟩ := hr
        simp only [height_node] at hA hC h1 h2 ⊢
        have hb : ¬ ((height l : Int) - (rh : Int) > 1) := by omega
        have hb' : (height l : Int) - (rh : Int) < -1 := by omega
        by_cases hB : (height rl : Int) - (height rr : Int) ≤ 0
        · refine ⟨node rk (node a l rl (max (height l) (height rl) + 1) c) rr
            (max (max (height l) (height rl) + 1) (height rr) + 1) rc, ?_, ?_,
            Or.inr ⟨Or.inr hC, ?_⟩⟩
          · simp only [delete_rebalance, balance, height_node, hb, hb', hB, false_and, and_self,
              if_true, if_false, rotate_left]
          · refine ⟨⟨hl, hrl, rfl, ?_, ?_⟩, hrr, ?_, ?_, ?_⟩ <;>
              (try simp only [height_node]) <;> omega
          · simp only [height_node]; omega
        · have hB' : (height rl : Int) - (height rr : Int) > 0 := by omega
          cases rl with
          | nullptr => simp only [height_nullptr] at hB'; omega
          | node mk ml mr mh mc =>
            obtain ⟨hml, hmr, hmh, hm1, hm2⟩ := hrl
            simp only [height_node] at hB hB' hrh hb1 hb2
            refine ⟨node mk (node a l ml (max (height l) (height ml) + 1) c)
              (node rk mr rr (max (height mr) (height rr) + 1) rc)
              (max (max (height l) (height ml) + 1) (max (height mr) (height rr) + 1) + 1) mc,
              ?_, ?_, Or.inr ⟨Or.inr hC, ?_⟩⟩
            · simp only [delete_rebalance, balance, height_node, hb, hb', hB, hB', false_and,
                and_false, and_self, if_true, if_false, rotate_left, rotate_right,
                Option.bind_some, Option.some_bind]
            · refine ⟨⟨hl, hml, rfl, ?_, ?_⟩, ⟨hmr, hrr, rfl, ?_, ?_⟩, ?_, ?_, ?_⟩ <;>
                (try simp only [height_node]) <;> omega
            · simp only [height_node]; omega
    · have h3 : height l ≤ height r + 1 := by omega
      have h4 : height r ≤ height l + 1 := by omega
      refine ⟨node a l r (max (height l) (height r) + 1) c, ?_, ⟨hl, hr, rfl, h3, h4⟩,
        Or.inl ⟨h3, h4, rfl⟩⟩
      have hb : ¬ ((height l : Int) - (height r : Int) > 1) := by omega
      have hb' : ¬ ((height l : Int) - (height r : Int) < -1) := by omega
      simp only [delete_rebalance, balance, hb, hb', false_and, if_false]

/-- On a tree satisfying the height invariant the rebalancing step of `delete_key`
changes nothing. -/
theorem delete_rebalance_id : ∀ (t : Node α), AVL t → delete_rebalance t = some t
  | nullptr, _ => rfl
  | node a l r h c, ⟨hl, hr, hh, h1, h2⟩ => by
    obtain ⟨t, ht, _, hres⟩ := delete_rebalance_avl a l r h c hl hr (by omega) (by omega)
    rcases hres with ⟨_, _, rfl⟩ | ⟨h3, _⟩
    · rw [ht, hh]
    · omega

theorem min_value_node (k : α) (l r : Node α) (h c : Nat) :
    ∃ k' r' h' c', min_value (node k l r h c) = node k' nullptr r' h' c' := by
  induction l generalizing k r h c with
  | nullptr => exact ⟨k, r, h, c, rfl⟩
  | node lk ll lr lh lc ihl _ => exact ihl lk lr lh lc

end DeleteRebalance

section DeleteBalance

variable [LinearOrder α]

/-- On a tree satisfying the height invariant `delete_key` returns a tree satisfying
it, of the same height or one less. -/
theorem delete_key_avl : ∀ (t : Node α), AVL t → ∀ k : α,
    ∃ t', delete_key t k = some t' ∧ AVL t' ∧
      (height t' = height t ∨ height t' + 1 = height t)
  | nullptr, _, _ => ⟨nullptr, rfl, trivial, Or.inl rfl⟩
  | node a l r h c, ⟨hl, hr, hh, h1, h2⟩, k => by
    by_cases hlt : k < a
    · obtain ⟨l', hl', hal', hcase⟩ := delete_key_avl l hl k
      obtain ⟨t', ht', hat', hres⟩ :=
        delete_rebalance_avl a l' r h c hal' hr (by omega) (by omega)
      refine ⟨t', ?_, hat', ?_⟩
      · simp only [delete_key, hlt, if_true, hl', Option.some_bind, ht']
      · simp only [height_node]
        rcases hres with ⟨_, _, rfl⟩ | ⟨_, _⟩
        · simp only [height_node]; omega
        · omega
    · by_cases hgt : k > a
      · obtain ⟨r', hr', har', hcase⟩ := delete_key_avl r hr k
        obtain ⟨t', ht', hat', hres⟩ :=
          delete_rebalance_avl a l r' h c hl har' (by omega) (by omega)
        refine ⟨t', ?_, hat', ?_⟩
        · simp only [delete_key, hlt, if_false, hgt, if_true, hr', Option.some_bind, ht']
        · simp only [height_node]
          rcases hres with ⟨_, _, rfl⟩ | ⟨_, _⟩
          · simp only [height_node]; omega
          · omega
      · by_cases hc : c > 1
        · refine ⟨node a l r h (c - 1), ?_, ⟨hl, hr, hh, h1, h2⟩, Or.inl rfl⟩
          simp only [delete_key, hlt, hgt, hc, if_true, if_false]
        · cases l with
          | nullptr =>
            cases r with
            | nullptr =>
              refine ⟨nullptr, ?_, trivial, Or.inr ?_⟩
              · simp [delete_key, hlt, hgt, hc, Node.isNull, delete_rebalance]
              · simp only [height_nullptr, height_node] at hh ⊢; omega
            | node rk rl rr rh rc =>
              refine ⟨node rk rl rr rh rc, ?_, hr, Or.inr ?_⟩
              · simp [delete_key, hlt, hgt, hc, Node.isNull]
                exact delete_rebalance_id _ hr
              · simp only [height_nullptr, height_node] at hh ⊢; omega
          | node lk ll lr lh lc =>
            cases r with
            | nullptr =>
              refine ⟨node lk ll lr lh lc, ?_, hl, Or.inr ?_⟩
              · simp [delete_key, hlt, hgt, hc, Node.isNull]
                exact delete_rebalance_id _ hl
              · simp only [height_nullptr, height_node] at hh ⊢; omega
            | node rk rl rr rh rc =>
              obtain ⟨sk, sr, sh, sc, hmin⟩ := min_value_node rk rl rr rh rc
              obtain ⟨r', hr', har', hcase⟩ := delete_key_avl (node rk rl rr rh rc) hr sk
              obtain ⟨t', ht', hat', hres⟩ :=
                delete_rebalance_avl sk (node lk ll lr lh lc) r' h c hl har' (by omega) (by omega)
              refine ⟨t', ?_, hat', ?_⟩
              · rw [delete_key]
                simp only [hlt, hgt, hc, if_false, Node.isNull, Bool.or_self,
                  Bool.false_eq_true, hmin, Node.key?, Option.some_bind, hr', ht']
              · simp only [height_node] at hh h1 h2 hcase hres ⊢
                rcases hres with ⟨_, _, rfl⟩ | ⟨_, _⟩
                · simp only [height_node]; omega
                · omega

end DeleteBalance

/-! ### Rotations and rebalancing keep the in-order sequence -/

@[simp] theorem inorder_nullptr : inorder (nullptr : Node α) = [] := rfl

@[simp] theorem inorder_node (k : α) (l r : Node α) (h c : Nat) :
    inorder (node k l r h c) = inorder l ++ (k, c) :: inorder r := rfl

@[simp] theorem keys_nullptr : keys (nullptr : Node α) = [] := rfl

@[simp] theorem keys_node (k : α) (l r : Node α) (h c : Nat) :
    keys (node k l r h c) = keys l ++ k :: keys r := by
  simp [keys]

theorem rotate_right_inorder : ∀ (t t' : Node α), rotate_right t = some t' →
    inorder t' = inorder t
  | node yk (node xk t1 t2 _ xc) t3 _ yc, t', h => by
    simp only [rotate_right, Option.some.injEq] at h
    subst h
    simp
  | nullptr, _, h => by simp [rotate_right] at h
  | node _ nullptr _ _ _, _, h => by simp [rotate_right] at h

theorem rotate_left_inorder : ∀ (t t' : Node α), rotate_left t = some t' →
    inorder t' = inorder t
  | node xk t1 (node yk t2 t3 _ yc) _ xc, t', h => by
    simp only [rotate_left, Option.some.injEq] at h
    subst h
    simp
  | nullptr, _, h => by simp [rotate_left] at h
  | node _ _ nullptr _ _, _, h => by simp [rotate_left] at h

theorem delete_rebalance_inorder (t t' : Node α) (h : delete_rebalance t = some t') :
    inorder t' = inorder t := by
  cases t with
  | nullptr => simp only [delete_rebalance, Option.some.injEq] at h; subst h; rfl
  | node a l r hh c =>
    simp only [delete_rebalance] at h
    split_ifs at h
    · rw [rotate_right_inorder _ _ h]; rfl
    · obtain ⟨l', hl', h'⟩ := Option.bind_eq_some.mp h
      rw [rotate_right_inorder _ _ h', inorder_node, rotate_left_inorder _ _ hl', inorder_node]
    · rw [rotate_left_inorder _ _ h]; rfl
    · obtain ⟨r', hr', h'⟩ := Option.bind_eq_some.mp h
      rw [rotate_left_inorder _ _ h', inorder_node, rotate_right_inorder _ _ hr', inorder_node]
    · simp only [Option.some.injEq] at h; subst h; rfl

theorem insert_rebalance_inorder [LinearOrder α] (k : α) (t t' : Node α)
    (h : insert_rebalance k t = some t') : inorder t' = inorder t := by
  cases t with
  | nullptr => simp [insert_rebalance] at h
  | node a l r hh c =>
    simp only [insert_rebalance] at h
    split at h
    · split at h
      · simp at h
      · split_ifs at h
        · rw [rotate_right_inorder _ _ h]; rfl
        · obtain ⟨l', hl', h'⟩ := Option.bind_eq_some.mp h
          have e1 := rotate_right_inorder _ _ h'
          have e2 := rotate_left_inorder _ _ hl'
          simp only [inorder_node] at e1 e2
          simp [e1, e2]
        · simp only [Option.some.injEq] at h; subst h; rfl
    · split at h
      · split at h
        · simp at h
        · split_ifs at h
          · rw [rotate_left_inorder _ _ h]; rfl
          · obtain ⟨r', hr', h'⟩ := Option.bind_eq_some.mp h
            have e1 := rotate_left_inorder _ _ h'
            have e2 := rotate_right_inorder _ _ hr'
            simp only [inorder_node] at e1 e2
            simp [e1, e2]
          · simp only [Option.some.injEq] at h; subst h; rfl
      · simp only [Option.some.injEq] at h; subst h; rfl

/-! ### Order of the in-order sequence -/

theorem mem_keys_iff (t : Node α) (x : α) : x ∈ keys t ↔ ∃ p ∈ inorder t, p.1 = x := by
  simp [keys]

theorem countPos_iff : ∀ (t : Node α), CountPos t ↔ ∀ p ∈ inorder t, 1 ≤ p.2
  | nullptr => by simp [CountPos]
  | node a l r h c => by
    simp only [CountPos, countPos_iff l, countPos_iff r, inorder_node, List.mem_append,
      List.mem_cons]
    constructor
    · rintro ⟨h1, h2, h3⟩ p (hp | rfl | hp)
      · exact h1 p hp
      · exact h3
      · exact h2 p hp
    · intro hp
      exact ⟨fun p h => hp p (Or.inl h), fun p h => hp p (Or.inr (Or.inr h)),
        hp (a, c) (Or.inr (Or.inl rfl))⟩

theorem countPos_of_inorder_eq {t t' : Node α} (e : inorder t' = inorder t)
    (h : CountPos t) : CountPos t' := by
  rw [countPos_iff] at h ⊢
  rw [e]; exact h

theorem inorderSorted_of_inorder_eq [LE α] {t t' : Node α} (e : inorder t' = inorder t)
    (h : InorderSorted t) : InorderSorted t' := by
  unfold InorderSorted keys at h ⊢
  rw [e]; exact h

section Total

variable [DecidableEq α]

theorem totalCount_of_inorder_eq {t t' : Node α} (e : inorder t' = inorder t) (x : α) :
    totalCount t' x = totalCount t x := by
  unfold totalCount countsOf
  rw [e]

@[simp] theorem totalCount_nullptr (x : α) : totalCount (nullptr : Node α) x = 0 := rfl

theorem totalCount_node (a : α) (l r : Node α) (h c : Nat) (x : α) :
    totalCount (node a l r h c) x =
      totalCount l x + (if a = x then c else 0) + totalCount r x := by
  unfold totalCount countsOf
  by_cases hax : a = x
  · simp [List.filter_append, List.filter_cons, hax, Nat.add_assoc]
  · simp [List.filter_append, List.filter_cons, hax]

theorem totalCount_eq_zero {t : Node α} {x : α} (h : x ∉ keys t) : totalCount t x = 0 := by
  unfold totalCount countsOf
  have : (inorder t).filter (fun p => decide (p.1 = x)) = [] := by
    rw [List.filter_eq_nil_iff]
    intro p hp hpx
    exact h ((mem_keys_iff t x).mpr ⟨p, hp, by simpa using hpx⟩)
  rw [this]; rfl

theorem totalCount_pos {t : Node α} {x : α} (hc : CountPos t) (h : x ∈ keys t) :
    1 ≤ totalCount t x := by
  induction t with
  | nullptr => simp at h
  | node a l r hh c ihl ihr =>
    obtain ⟨cl, cr, c1⟩ := hc
    rw [totalCount_node]
    rw [keys_node] at h
    rcases List.mem_append.mp h with h | h
    · have := ihl cl h; omega
    · rcases List.mem_cons.mp h with rfl | h
      · simp; omega
      · have := ihr cr h; omega

theorem mem_keys_of_totalCount_pos {t : Node α} {x : α} (h : 1 ≤ totalCount t x) :
    x ∈ keys t := by
  by_contra hx
  rw [totalCount_eq_zero hx] at h
  omega

end Total

section Order

variable [LinearOrder α]

theorem inorderSorted_node (a : α) (l r : Node α) (h c : Nat) :
    InorderSorted (node a l r h c) ↔
      InorderSorted l ∧ InorderSorted r ∧ (∀ x ∈ keys l, x ≤ a) ∧ (∀ x ∈ keys r, a ≤ x) := by
  unfold InorderSorted
  rw [keys_node, List.pairwise_append, List.pairwise_cons]
  constructor
  · rintro ⟨h1, ⟨h2, h3⟩, h4⟩
    exact ⟨h1, h3, fun x hx => h4 x hx a (List.mem_cons_self _ _), h2⟩
  · rintro ⟨h1, h2, h3, h4⟩
    refine ⟨h1, ⟨h4, h2⟩, ?_⟩
    intro x hx y hy
    rcases List.mem_cons.mp hy with rfl | hy
    · exact h3 x hx
    · exact le_trans (h3 x hx) (h4 y hy)

/-- What `insert_key` does to the in-order sequence of a tree whose keys are sorted:
either the count of a node holding the key goes up by one, or the pair `(k, 1)` is
put between the keys below `k` and the keys above `k`. -/
theorem insert_key_inorder (k : α) : ∀ (t t' : Node α), insert_key t k = some t' →
    InorderSorted t →
    (∃ L c R, inorder t = L ++ (k, c) :: R ∧ inorder t' = L ++ (k, c + 1) :: R) ∨
    (∃ L R, inorder t = L ++ R ∧ inorder t' = L ++ (k, 1) :: R ∧
      (∀ p ∈ L, p.1 < k) ∧ (∀ p ∈ R, k < p.1))
  | nullptr, t', h, _ => by
    simp only [insert_key, Option.some.injEq] at h
    subst h
    exact Or.inr ⟨[], [], rfl, rfl, by simp, by simp⟩
  | node a l r hh c, t', h, hs => by
    obtain ⟨hsl, hsr, hla, har⟩ := (inorderSorted_node a l r hh c).mp hs
    rw [insert_key] at h
    by_cases hak : a = k
    · simp only [hak, if_true, Option.some.injEq] at h
      subst h
      exact Or.inl ⟨inorder l, c, inorder r, by simp [hak], by simp⟩
    · by_cases hgt : a > k
      · simp only [hak, if_false, hgt, if_true] at h
        obtain ⟨l', hl', h'⟩ := Option.bind_eq_some.mp h
        have e := insert_rebalance_inorder k _ _ h'
        rcases insert_key_inorder k l l' hl' hsl with ⟨L, c0, R, e1, e2⟩ | ⟨L, R, e1, e2, o1, o2⟩
        · refine Or.inl ⟨L, c0, R ++ (a, c) :: inorder r, ?_, ?_⟩
          · simp [e1]
          · simp [e, e2]
        · refine Or.inr ⟨L, R ++ (a, c) :: inorder r, ?_, ?_, o1, ?_⟩
          · simp [e1]
          · simp [e, e2]
          · intro p hp
            rcases List.mem_append.mp hp with hp | hp
            · exact o2 p hp
            · rcases List.mem_cons.mp hp with rfl | hp
              · exact hgt
              · exact lt_of_lt_of_le hgt (har _ ((mem_keys_iff r _).mpr ⟨p, hp, rfl⟩))
      · have hlt : a < k := lt_of_le_of_ne (not_lt.mp hgt) hak
        simp only [hak, if_false, hgt] at h
        obtain ⟨r', hr', h'⟩ := Option.bind_eq_some.mp h
        have e := insert_rebalance_inorder k _ _ h'
        rcases insert_key_inorder k r r' hr' hsr with ⟨L, c0, R, e1, e2⟩ | ⟨L, R, e1, e2, o1, o2⟩
        · refine Or.inl ⟨inorder l ++ (a, c) :: L, c0, R, ?_, ?_⟩
          · simp [e1]
          · simp [e, e2]
        · refine Or.inr ⟨inorder l ++ (a, c) :: L, R, ?_, ?_, ?_, o2⟩
          · simp [e1]
          · simp [e, e2]
          · intro p hp
            rcases List.mem_append.mp hp with hp | hp
            · exact lt_of_le_of_lt (hla _ ((mem_keys_iff l _).mpr ⟨p, hp, rfl⟩)) hlt
            · rcases List.mem_cons.mp hp with rfl | hp
              · exact hlt
              · exact o1 p hp

/-- After `insert_key` on a tree with sorted keys and positive counts: the keys are
sorted, the counts positive, and the total count of `k` is one more, that of every
other key unchanged. -/
theorem insert_key_spec (k : α) (t t' : Node α) (h : insert_key t k = some t')
    (hs : InorderSorted t) (hc : CountPos t) :
    InorderSorted t' ∧ CountPos t' ∧
      ∀ x, totalCount t' x = totalCount t x + (if x = k then 1 else 0) := by
  rw [countPos_iff] at hc
  rw [countPos_iff]
  unfold InorderSorted keys at hs ⊢
  unfold totalCount countsOf
  rcases insert_key_inorder k t t' h hs with ⟨L, c0, R, e1, e2⟩ | ⟨L, R, e1, e2, o1, o2⟩
  · rw [e1] at hs hc
    rw [e1, e2]
    refine ⟨by simpa using hs, ?_, ?_⟩
    · intro p hp
      rcases List.mem_append.mp hp with hp | hp
      · exact hc p (List.mem_append_left _ hp)
      · rcases List.mem_cons.mp hp with rfl | hp
        · exact Nat.le_add_left 1 c0
        · exact hc p (List.mem_append_right _ (List.mem_cons_of_mem _ hp))
    · intro x
      by_cases hx : x = k
      · subst hx
        simp [List.filter_append, List.filter_cons]
        omega
      · have hx' : ¬ k = x := fun e => hx e.symm
        simp [List.filter_append, List.filter_cons, hx, hx']
  · rw [e1] at hs hc
    rw [e1, e2]
    refine ⟨?_, ?_, ?_⟩
    · rw [List.map_append, List.pairwise_append] at hs
      rw [List.map_append, List.map_cons, List.pairwise_append, List.pairwise_cons]
      obtain ⟨h1, h2, h3⟩ := hs
      refine ⟨h1, ⟨?_, h2⟩, ?_⟩
      · intro y hy
        obtain ⟨p, hp, rfl⟩ := List.mem_map.mp hy
        exact le_of_lt (o2 p hp)
      · intro x hx y hy
        rcases List.mem_cons.mp hy with rfl | hy
        · obtain ⟨p, hp, rfl⟩ := List.mem_map.mp hx
          exact le_of_lt (o1 p hp)
        · exact h3 x hx y hy
    · intro p hp
      rcases List.mem_append.mp hp with hp | hp
      · exact hc p (List.mem_append_left _ hp)
      · rcases List.mem_cons.mp hp with rfl | hp
        · exact le_refl 1
        · exact hc p (List.mem_append_right _ hp)
    · intro x
      by_cases hx : x = k
      · subst hx
        simp [List.filter_append, List.filter_cons]
        omega
      · have hx' : ¬ k = x := fun e => hx e.symm
        simp [List.filter_append, List.filter_cons, hx, hx']

omit [LinearOrder α] in
theorem min_value_inorder (k : α) (l r : Node α) (h c : Nat) :
    ∃ sk sr sh sc rest, min_value (node k l r h c) = node sk nullptr sr sh sc ∧
      inorder (node k l r h c) = (sk, sc) :: rest := by
  induction l generalizing k r h c with
  | nullptr => exact ⟨k, r, h, c, inorder r, rfl, rfl⟩
  | node lk ll lr lh lc ihl _ =>
    obtain ⟨sk, sr, sh, sc, rest, e1, e2⟩ := ihl lk lr lh lc
    refine ⟨sk, sr, sh, sc, rest ++ (k, c) :: inorder r, e1, ?_⟩
    rw [inorder_node, e2]; rfl

/-- After `delete_key` on a tree with sorted keys and positive counts: the keys are
sorted, the counts positive, and the total count of `k` is one less (if it was
positive), that of every other key unchanged. -/
theorem delete_key_spec : ∀ (t : Node α) (k : α) (t' : Node α), delete_key t k = some t' →
    InorderSorted t → CountPos t →
    InorderSorted t' ∧ CountPos t' ∧
      ∀ x, totalCount t' x = totalCount t x - (if x = k then 1 else 0)
  | nullptr, k, t', h, hs, hc => by
    simp only [delete_key, Option.some.injEq] at h
    subst h
    exact ⟨hs, hc, fun x => by simp⟩
  | node a l r hh c, k, t', h, hs, hc => by
    obtain ⟨hsl, hsr, hla, har⟩ := (inorderSorted_node a l r hh c).mp hs
    obtain ⟨cl, cr, c1⟩ := hc
    rw [delete_key] at h
    by_cases hlt : k < a
    · simp only [hlt, if_true] at h
      obtain ⟨l', hl', h'⟩ := Option.bind_eq_some.mp h
      have e := delete_rebalance_inorder _ _ h'
      obtain ⟨sl', cl', tl'⟩ := delete_key_spec l k l' hl' hsl cl
      have hsub : ∀ x ∈ keys l', x ∈ keys l := by
        intro x hx
        have h1 := totalCount_pos cl' hx
        rw [tl'] at h1
        exact mem_keys_of_totalCount_pos (by omega)
      refine ⟨inorderSorted_of_inorder_eq e ?_, countPos_of_inorder_eq e ⟨cl', cr, c1⟩, ?_⟩
      · exact (inorderSorted_node a l' r hh c).mpr ⟨sl', hsr, fun x hx => hla x (hsub x hx), har⟩
      · intro x
        rw [totalCount_of_inorder_eq e, totalCount_node, totalCount_node, tl']
        by_cases hx : x = k
        · subst hx
          have h1 : ¬ a = x := fun e => absurd hlt (by rw [e]; exact lt_irrefl _)
          have h2 : totalCount r x = 0 :=
            totalCount_eq_zero fun hm => absurd (har x hm) (not_le_of_lt hlt)
          simp only [h1, if_false, h2, if_true]
          omega
        · simp only [hx, if_false]; omega
    · by_cases hgt : k > a
      · simp only [hlt, if_false, hgt, if_true] at h
        obtain ⟨r', hr', h'⟩ := Option.bind_eq_some.mp h
        have e := delete_rebalance_inorder _ _ h'
        obtain ⟨sr', cr', tr'⟩ := delete_key_spec r k r' hr' hsr cr
        have hsub : ∀ x ∈ keys r', x ∈ keys r := by
          intro x hx
          have h1 := totalCount_pos cr' hx
          rw [tr'] at h1
          exact mem_keys_of_totalCount_pos (by omega)
        refine ⟨inorderSorted_of_inorder_eq e ?_, countPos_of_inorder_eq e ⟨cl, cr', c1⟩, ?_⟩
        · exact (inorderSorted_node a l r' hh c).mpr ⟨hsl, sr', hla, fun x hx => har x (hsub x hx)⟩
        · intro x
          rw [totalCount_of_inorder_eq e, totalCount_node, totalCount_node, tr']
          by_cases hx : x = k
          · subst hx
            have h1 : ¬ a = x := fun e => absurd hgt (by rw [e]; exact lt_irrefl _)
            have h2 : totalCount l x = 0 :=
              totalCount_eq_zero fun hm => absurd (hla x hm) (not_le_of_lt hgt)
            simp only [h1, if_false, h2, if_true]
            omega
          · simp only [hx, if_false]; omega
      · have hka : k = a := le_antisymm (not_lt.mp hgt) (not_lt.mp hlt)
        subst hka
        by_cases hc1 : c > 1
        · simp only [hlt, hgt, hc1, if_true, if_false, Option.some.injEq] at h
          subst h
          refine ⟨(inorderSorted_node k l r hh (c - 1)).mpr ⟨hsl, hsr, hla, har⟩,
            ⟨cl, cr, by omega⟩, ?_⟩
          intro x
          rw [totalCount_node, totalCount_node]
          by_cases hx : x = k
          · subst hx; simp only [if_true]; omega
          · have hx' : ¬ k = x := fun e => hx e.symm
            simp only [hx, hx', if_false]; omega
        · have hc1' : c = 1 := by omega
          subst hc1'
          simp only [hlt, hgt, hc1, if_false] at h
          cases l with
          | nullptr =>
            cases r with
            | nullptr =>
              simp [Node.isNull, delete_rebalance] at h
              subst h
              refine ⟨by simp [InorderSorted], trivial, ?_⟩
              intro x
              rw [totalCount_node]
              by_cases hx : x = k
              · subst hx; simp
              · have hx' : ¬ k = x := fun e => hx e.symm
                simp [hx, hx']
            | node rk rl rr rh rc =>
              simp [Node.isNull] at h
              have e := delete_rebalance_inorder _ _ h
              refine ⟨inorderSorted_of_inorder_eq e hsr, countPos_of_inorder_eq e cr, ?_⟩
              intro x
              rw [totalCount_of_inorder_eq e, totalCount_node (l := nullptr)]
              by_cases hx : x = k
              · subst hx; simp
              · have hx' : ¬ k = x := fun e => hx e.symm
                simp [hx, hx']
          | node lk ll lr lh lc =>
            cases r with
            | nullptr =>
              simp [Node.isNull] at h
              have e := delete_rebalance_inorder _ _ h
              refine ⟨inorderSorted_of_inorder_eq e hsl, countPos_of_inorder_eq e cl, ?_⟩
              intro x
              rw [totalCount_of_inorder_eq e, totalCount_node (r := nullptr)]
              by_cases hx : x = k
              · subst hx; simp
              · have hx' : ¬ k = x := fun e => hx e.symm
                simp [hx, hx']
            | node rk rl rr rh rc =>
              obtain ⟨sk, sr, sh, sc, rest, hmin, hin⟩ := min_value_inorder rk rl rr rh rc
              simp only [Node.isNull, Bool.or_self, Bool.false_eq_true, if_false, hmin,
                Node.key?, Option.some_bind] at h
              obtain ⟨r', hr', h'⟩ := Option.bind_eq_some.mp h
              have e := delete_rebalance_inorder _ _ h'
              obtain ⟨sr', cr', tr'⟩ := delete_key_spec _ sk r' hr' hsr cr
              have hkeys : keys (node rk rl rr rh rc) = sk :: rest.map Prod.fst := by
                unfold keys; rw [hin]; rfl
              have hmem : sk ∈ keys (node rk rl rr rh rc) := by
                rw [hkeys]; exact List.mem_cons_self _ _
              have hminle : ∀ x ∈ keys (node rk rl rr rh rc), sk ≤ x := by
                intro x hx
                have hp : List.Pairwise (fun x y => x ≤ y) (sk :: rest.map Prod.fst) := by
                  rw [← hkeys]; exact hsr
                rw [hkeys] at hx
                rcases List.mem_cons.mp hx with rfl | hx
                · exact le_refl _
                · exact (List.pairwise_cons.mp hp).1 x hx
              have hsub : ∀ x ∈ keys r', x ∈ keys (node rk rl rr rh rc) := by
                intro x hx
                have h1 := totalCount_pos cr' hx
                rw [tr'] at h1
                exact mem_keys_of_totalCount_pos (by omega)
              have hpos := totalCount_pos cr hmem
              refine ⟨inorderSorted_of_inorder_eq e ?_, countPos_of_inorder_eq e ⟨cl, cr', c1⟩, ?_⟩
              · exact (inorderSorted_node sk _ r' hh 1).mpr
                  ⟨hsl, sr', fun x hx => le_trans (hla x hx) (har sk hmem),
                    fun x hx => hminle x (hsub x hx)⟩
              · intro x
                rw [totalCount_of_inorder_eq e, totalCount_node sk _ r' hh 1 x,
                  totalCount_node k _ (node rk rl rr rh rc) hh 1 x, tr']
                by_cases hx : x = k
                · subst hx
                  by_cases hs : sk = x
                  · subst hs; simp only [if_true]; omega
                  · have hs' : ¬ x = sk := fun e => hs e.symm
                    simp only [hs, hs', if_true, if_false]; omega
                · have hx' : ¬ k = x := fun e => hx e.symm
                  by_cases hs : sk = x
                  · subst hs; simp only [hx, hx', if_true, if_false]; omega
                  · have hs' : ¬ x = sk := fun e => hs e.symm
                    simp only [hs, hs', hx, hx', if_false]; omega

end Order

/-! ### The invariant of the reachable trees -/

section Reach

variable [LinearOrder α]

/-- The invariant kept by `insert_key` and `delete_key`: cached heights and balance,
sorted in-order keys, positive counts. -/
theorem step_inv (t : Node α) (ha : AVL t) (hs : InorderSorted t) (hc : CountPos t)
    (op : Op α) :
    ∃ t', op.apply t = some t' ∧ AVL t' ∧ InorderSorted t' ∧ CountPos t' ∧
      ∀ x, totalCount t' x = Op.multStep x (totalCount t x) op := by
  cases op with
  | insert k =>
    obtain ⟨t', ht', hat', _⟩ := insert_key_avl k t ha
    obtain ⟨h1, h2, h3⟩ := insert_key_spec k t t' ht' hs hc
    refine ⟨t', ht', hat', h1, h2, ?_⟩
    intro x
    rw [h3 x]
    by_cases hx : x = k
    · subst hx; simp [Op.multStep]
    · have hx' : ¬ k = x := fun e => hx e.symm
      simp [Op.multStep, hx, hx']
  | delete k =>
    obtain ⟨t', ht', hat', _⟩ := delete_key_avl t ha k
    obtain ⟨h1, h2, h3⟩ := delete_key_spec t k t' ht' hs hc
    refine ⟨t', ht', hat', h1, h2, ?_⟩
    intro x
    rw [h3 x]
    by_cases hx : x = k
    · subst hx; simp [Op.multStep]
    · have hx' : ¬ k = x := fun e => hx e.symm
      simp [Op.multStep, hx, hx']

/-- Every sequence of calls runs to the end from a tree satisfying the invariant, and
the tree it ends in satisfies the invariant; the total count of every key follows its
logical multiplicity. -/
theorem runFrom_inv : ∀ (ops : List (Op α)) (t : Node α), AVL t → InorderSorted t →
    CountPos t →
    ∃ t', runFrom t ops = some t' ∧ AVL t' ∧ InorderSorted t' ∧ CountPos t' ∧
      ∀ x, totalCount t' x = ops.foldl (Op.multStep x) (totalCount t x)
  | [], t, ha, hs, hc => ⟨t, rfl, ha, hs, hc, fun _ => rfl⟩
  | op :: ops, t, ha, hs, hc => by
    obtain ⟨t1, h1, ha1, hs1, hc1, ht1⟩ := step_inv t ha hs hc op
    obtain ⟨t2, h2, ha2, hs2, hc2, ht2⟩ := runFrom_inv ops t1 ha1 hs1 hc1
    refine ⟨t2, ?_, ha2, hs2, hc2, ?_⟩
    · simp only [runFrom, h1, Option.some_bind, h2]
    · intro x
      rw [ht2 x, ht1 x]; rfl

theorem run_inv (ops : List (Op α)) :
    ∃ t, run ops = some t ∧ AVL t ∧ InorderSorted t ∧ CountPos t ∧
      ∀ x, totalCount t x = mult ops x := by
  obtain ⟨t, h, ha, hs, hc, ht⟩ :=
    runFrom_inv ops nullptr trivial List.Pairwise.nil trivial
  exact ⟨t, h, ha, hs, hc, fun x => by rw [ht x]; rfl⟩

theorem Reachable.inv {t : Node α} (h : Reachable t) :
    AVL t ∧ InorderSorted t ∧ CountPos t := by
  obtain ⟨ops, hops⟩ := h
  obtain ⟨t', h', ha, hs, hc, _⟩ := run_inv ops
  rw [hops, Option.some.injEq] at h'
  subst h'
  exact ⟨ha, hs, hc⟩

/-- On a tree satisfying the height invariant, `delete_key` of a key that no node
holds returns the tree as it is. -/
theorem delete_key_absent : ∀ (t : Node α), AVL t → ∀ k : α, k ∉ keys t →
    delete_key t k = some t
  | nullptr, _, _, _ => rfl
  | node a l r h c, ⟨hl, hr, hh, h1, h2⟩, k, hk => by
    rw [keys_node, List.mem_append, List.mem_cons] at hk
    have hkl : k ∉ keys l := fun h => hk (Or.inl h)
    have hkr : k ∉ keys r := fun h => hk (Or.inr (Or.inr h))
    have hka : k ≠ a := fun h => hk (Or.inr (Or.inl h))
    have hid := delete_rebalance_id (node a l r h c) ⟨hl, hr, hh, h1, h2⟩
    rw [delete_key]
    by_cases hlt : k < a
    · simp only [hlt, if_true, delete_key_absent l hl k hkl, Option.some_bind, hid]
    · have hgt : k > a := lt_of_le_of_ne (not_lt.mp hlt) (Ne.symm hka)
      simp only [hlt, if_false, hgt, if_true, delete_key_absent r hr k hkr, Option.some_bind, hid]

theorem foldl_multStep_insert (k : α) (m n : Nat) :
    (List.replicate m (Op.insert k)).foldl (Op.multStep k) n = n + m := by
  induction m generalizing n with
  | zero => rfl
  | succ m ih =>
    rw [List.replicate_succ, List.foldl_cons, ih]
    simp only [Op.multStep, if_true]
    omega

theorem foldl_multStep_delete (k : α) (m n : Nat) :
    (List.replicate m (Op.delete k)).foldl (Op.multStep k) n = n - m := by
  induction m generalizing n with
  | zero => rfl
  | succ m ih =>
    rw [List.replicate_succ, List.foldl_cons, ih]
    simp only [Op.multStep, if_true]
    omega

theorem countsOf_pos {t : Node α} (hc : CountPos t) (k : α) : ∀ c ∈ countsOf t k, 1 ≤ c := by
  intro c hcm
  unfold countsOf at hcm
  obtain ⟨p, hp, rfl⟩ := List.mem_map.mp hcm
  exact (countPos_iff t).mp hc p (List.mem_filter.mp hp).1

theorem list_eq_one_of_sum : ∀ (L : List Nat), (∀ c ∈ L, 1 ≤ c) → L.sum = 1 → L = [1]
  | [], _, h => by simp at h
  | [c], _, h => by simp at h; rw [h]
  | c :: d :: L, hp, h => by
    have h1 := hp c (List.mem_cons_self _ _)
    have h2 := hp d (List.mem_cons_of_mem _ (List.mem_cons_self _ _))
    simp only [List.sum_cons] at h
    omega

/-- `insert_key` of a key that no node holds, on a tree with strictly increasing
in-order keys and all counts `1`. -/
theorem insert_key_fresh (t : Node α) (k : α) (ha : AVL t)
    (hs : List.Pairwise (fun x y => x < y) (keys t))
    (hone : ∀ p ∈ inorder t, p.2 = 1) (hk : k ∉ keys t) :
    ∃ t', insert_key t k = some t' ∧ AVL t' ∧
      List.Pairwise (fun x y => x < y) (keys t') ∧ (∀ p ∈ inorder t', p.2 = 1) ∧
      (keys t').Perm (k :: keys t) := by
  obtain ⟨t', ht', hat', _⟩ := insert_key_avl k t ha
  refine ⟨t', ht', hat', ?_⟩
  have hsle : InorderSorted t := hs.imp le_of_lt
  rcases insert_key_inorder k t t' ht' hsle with ⟨L, c0, R, e1, _⟩ | ⟨L, R, e1, e2, o1, o2⟩
  · exfalso
    apply hk
    rw [mem_keys_iff, e1]
    exact ⟨(k, c0), by simp, rfl⟩
  · unfold keys at hs ⊢
    rw [e1] at hs hone
    rw [e2]
    refine ⟨?_, ?_, ?_⟩
    · rw [List.map_append, List.pairwise_append] at hs
      rw [List.map_append, List.map_cons, List.pairwise_append, List.pairwise_cons]
      obtain ⟨h1, h2, h3⟩ := hs
      refine ⟨h1, ⟨?_, h2⟩, ?_⟩
      · intro y hy
        obtain ⟨p, hp, rfl⟩ := List.mem_map.mp hy
        exact o2 p hp
      · intro x hx y hy
        rcases List.mem_cons.mp hy with rfl | hy
        · obtain ⟨p, hp, rfl⟩ := List.mem_map.mp hx
          exact o1 p hp
        · exact h3 x hx y hy
    · intro p hp
      rcases List.mem_append.mp hp with hp | hp
      · exact hone p (List.mem_append_left _ hp)
      · rcases List.mem_cons.mp hp with rfl | hp
        · rfl
        · exact hone p (List.mem_append_right _ hp)
    · simp only [e1, List.map_append, List.map_cons]
      exact List.perm_middle

/-- Inserting pairwise distinct keys that the tree does not hold, one by one. -/
theorem runFrom_insert_fresh : ∀ (ks : List α) (t : Node α), AVL t →
    List.Pairwise (fun x y => x < y) (keys t) → (∀ p ∈ inorder t, p.2 = 1) →
    ks.Nodup → (∀ x ∈ ks, x ∉ keys t) →
    ∃ t', runFrom t (ks.map Op.insert) = some t' ∧ AVL t' ∧
      List.Pairwise (fun x y => x < y) (keys t') ∧ (∀ p ∈ inorder t', p.2 = 1) ∧
      (keys t').Perm (ks ++ keys t)
  | [], t, ha, hs, hone, _, _ => ⟨t, rfl, ha, hs, hone, List.Perm.refl _⟩
  | k :: ks, t, ha, hs, hone, hnd, hfresh => by
    obtain ⟨hkks, hnd'⟩ := List.nodup_cons.mp hnd
    obtain ⟨t1, h1, ha1, hs1, hone1, hp1⟩ :=
      insert_key_fresh t k ha hs hone (hfresh k (List.mem_cons_self _ _))
    have hfresh1 : ∀ x ∈ ks, x ∉ keys t1 := by
      intro x hx hm
      rcases List.mem_cons.mp (hp1.subset hm) with rfl | hm
      · exact hkks hx
      · exact hfresh x (List.mem_cons_of_mem _ hx) hm
    obtain ⟨t2, h2, ha2, hs2, hone2, hp2⟩ :=
      runFrom_insert_fresh ks t1 ha1 hs1 hone1 hnd' hfresh1
    refine ⟨t2, ?_, ha2, hs2, hone2, ?_⟩
    · simp only [List.map_cons, runFrom, Op.apply, h1, Option.some_bind, h2]
    · refine hp2.trans ?_
      refine ((List.Perm.refl ks).append hp1).trans ?_
      exact List.perm_middle

omit [LinearOrder α] in
theorem inorder_of_counts_one : ∀ (L : List (α × Nat)), (∀ p ∈ L, p.2 = 1) →
    L = (L.map Prod.fst).map fun k => (k, 1)
  | [], _ => rfl
  | (a, c) :: L, h => by
    have h1 : c = 1 := h (a, c) (List.mem_cons_self _ _)
    have h2 := inorder_of_counts_one L fun p hp => h p (List.mem_cons_of_mem _ hp)
    rw [List.map_cons, List.map_cons, ← h2, h1]

/-- The in-order sequence after inserting pairwise distinct keys into the empty tree. -/
theorem run_insert_distinct (ks : List α) (hnd : ks.Nodup) :
    ∃ t, run (ks.map Op.insert) = some t ∧
      inorder t = (ks.insertionSort (· ≤ ·)).map (fun k => (k, 1)) ∧
      List.Sorted (· < ·) (keys t) := by
  obtain ⟨t, h, _, hs, hone, hp⟩ :=
    runFrom_insert_fresh ks nullptr trivial List.Pairwise.nil (by simp) hnd (by simp)
  refine ⟨t, h, ?_, hs⟩
  have hk : keys t = ks.insertionSort (· ≤ ·) := by
    apply List.eq_of_perm_of_sorted (r := (· ≤ ·))
    · rw [keys_nullptr, List.append_nil] at hp
      exact hp.trans (List.perm_insertionSort _ _).symm
    · exact hs.imp le_of_lt
    · exact List.sorted_insertionSort _ _
  rw [← hk]
  exact inorder_of_counts_one (inorder t) hone

end Reach

/-! ### Number of nodes and height -/

theorem size_eq_length : ∀ (t : Node α), size t = (inorder t).length
  | nullptr => rfl
  | node _ l r _ _ => by
    simp only [size, inorder_node, List.length_append, List.length_cons,
      size_eq_length l, size_eq_length r]
    omega

/-- A tree satisfying the height invariant of height `h` has at least
`fib (h + 2) - 1` nodes. -/
theorem AVL.fib_le_size : ∀ {t : Node α}, AVL t → Nat.fib (height t + 2) ≤ size t + 1
  | nullptr, _ => by simp [size]
  | node _ l r h _, ⟨hl, hr, hh, h1, h2⟩ => by
    have il := hl.fib_le_size
    have ir := hr.fib_le_size
    simp only [height_node, size]
    by_cases hc : height r ≤ height l
    · have e : h = height l + 1 := by omega
      have hm : Nat.fib (height l + 1) ≤ Nat.fib (height r + 2) := Nat.fib_mono (by omega)
      have e3 : Nat.fib (height l + 1 + 2) = Nat.fib (height l + 1) + Nat.fib (height l + 2) :=
        Nat.fib_add_two
      rw [e, e3]
      omega
    · have e : h = height r + 1 := by omega
      have hm : Nat.fib (height r + 1) ≤ Nat.fib (height l + 2) := Nat.fib_mono (by omega)
      have e3 : Nat.fib (height r + 1 + 2) = Nat.fib (height r + 1) + Nat.fib (height r + 2) :=
        Nat.fib_add_two
      rw [e, e3]
      omega

section SizeOps

variable [LinearOrder α]

theorem insert_key_length (k : α) (t t' : Node α) (h : insert_key t k = some t')
    (hs : InorderSorted t) : (inorder t').length ≤ (inorder t).length + 1 := by
  rcases insert_key_inorder k t t' h hs with ⟨L, c, R, e1, e2⟩ | ⟨L, R, e1, e2, _, _⟩
  · rw [e1, e2]; simp
  · rw [e1, e2]; simp only [List.length_append, List.length_cons]; omega

theorem delete_key_length : ∀ (t : Node α) (k : α) (t' : Node α), delete_key t k = some t' →
    (inorder t').length ≤ (inorder t).length
  | nullptr, k, t', h => by
    simp only [delete_key, Option.some.injEq] at h
    subst h; exact Nat.le_refl _
  | node a l r hh c, k, t', h => by
    rw [delete_key] at h
    by_cases hlt : k < a
    · simp only [hlt, if_true] at h
      obtain ⟨l', hl', h'⟩ := Option.bind_eq_some.mp h
      have e := delete_rebalance_inorder _ _ h'
      have ih := delete_key_length l k l' hl'
      rw [e]; simp only [inorder_node, List.length_append, List.length_cons]; omega
    · by_cases hgt : k > a
      · simp only [hlt, if_false, hgt, if_true] at h
        obtain ⟨r', hr', h'⟩ := Option.bind_eq_some.mp h
        have e := delete_rebalance_inorder _ _ h'
        have ih := delete_key_length r k r' hr'
        rw [e]; simp only [inorder_node, List.length_append, List.length_cons]; omega
      · by_cases hc1 : c > 1
        · simp only [hlt, hgt, hc1, if_true, if_false, Option.some.injEq] at h
          subst h; simp only [inorder_node, List.length_append, List.length_cons]; omega
        · simp only [hlt, hgt, hc1, if_false] at h
          by_cases hn : (l.isNull || r.isNull) = true
          · simp only [hn, if_true] at h
            split_ifs at h with h1 h2
            · simp only [delete_rebalance, Option.some.injEq] at h
              subst h; simp
            · rw [delete_rebalance_inorder _ _ h]
              simp only [inorder_node, List.length_append, List.length_cons]; omega
            · simp only [delete_rebalance, Option.some.injEq] at h
              subst h; simp
            · rw [delete_rebalance_inorder _ _ h]
              simp only [inorder_node, List.length_append, List.length_cons]; omega
          · simp only [hn, if_false] at h
            obtain ⟨sk, _, h1⟩ := Option.bind_eq_some.mp h
            obtain ⟨r', hr', h'⟩ := Option.bind_eq_some.mp h1
            have e := delete_rebalance_inorder _ _ h'
            have ih := delete_key_length r sk r' hr'
            rw [e]; simp only [inorder_node, List.length_append, List.length_cons]; omega

/-- The number of nodes after a sequence of calls is at most the number of nodes
before it plus the number of `insert_key` calls. -/
theorem runFrom_size : ∀ (ops : List (Op α)) (t : Node α), AVL t → InorderSorted t →
    CountPos t → ∀ t', runFrom t ops = some t' → size t' ≤ size t + insertCalls ops
  | [], t, _, _, _, t', h => by
    simp only [runFrom, Option.some.injEq] at h
    subst h; exact Nat.le_add_right _ _
  | op :: ops, t, ha, hs, hc, t', h => by
    obtain ⟨t1, h1, ha1, hs1, hc1, _⟩ := step_inv t ha hs hc op
    simp only [runFrom, h1, Option.some_bind] at h
    have ih := runFrom_size ops t1 ha1 hs1 hc1 t' h
    cases op with
    | insert k =>
      have := insert_key_length k t t1 h1 hs
      rw [← size_eq_length, ← size_eq_length] at this
      simp only [insertCalls]; omega
    | delete k =>
      have := delete_key_length t k t1 h1
      rw [← size_eq_length, ← size_eq_length] at this
      simp only [insertCalls]; omega

end SizeOps

/-! ### Calls that change one count only -/

theorem CountChangedAt.root_height_eq {k : α} {f : Nat → Nat} :
    ∀ {t t' : Node α}, CountChangedAt k f t t' → height t' = height t
  | node _ _ _ _ _, node _ _ _ _ _, h => h.2.1
  | nullptr, _, h => absurd h (by simp [CountChangedAt])
  | node _ _ _ _ _, nullptr, h => absurd h (by simp [CountChangedAt])

section CountsOf

variable [DecidableEq α]

theorem countsOf_node (a : α) (l r : Node α) (h c : Nat) (k : α) :
    countsOf (node a l r h c) k =
      countsOf l k ++ ((if a = k then [c] else []) ++ countsOf r k) := by
  unfold countsOf
  by_cases hak : a = k
  · simp [List.filter_append, List.filter_cons, hak]
  · simp [List.filter_append, List.filter_cons, hak]

theorem countsOf_eq_nil {t : Node α} {k : α} (h : k ∉ keys t) : countsOf t k = [] := by
  unfold countsOf
  rw [List.map_eq_nil_iff, List.filter_eq_nil_iff]
  intro p hp hpk
  exact h ((mem_keys_iff t k).mpr ⟨p, hp, by simpa using hpk⟩)

end CountsOf

section OneCount

variable [LinearOrder α]

/-- The rebalancing step of `insert_key` on a node whose children differ in cached
height by at most one: the height update and no rotation. -/
theorem insert_rebalance_balanced (k a : α) (l r : Node α) (h c : Nat)
    (h1 : height l ≤ height r + 1) (h2 : height r ≤ height l + 1) :
    insert_rebalance k (node a l r h c) =
      some (node a l r (max (height l) (height r) + 1) c) := by
  have hb1 : ¬ ((height l : Int) - (height r : Int) > 1) := by omega
  have hb2 : ¬ ((height l : Int) - (height r : Int) < -1) := by omega
  simp only [insert_rebalance, balance, hb1, hb2, if_false]

omit [LinearOrder α] in
/-- The rebalancing step of `delete_key` on a node whose children differ in cached
height by at most one: the height update and no rotation. -/
theorem delete_rebalance_balanced (a : α) (l r : Node α) (h c : Nat)
    (h1 : height l ≤ height r + 1) (h2 : height r ≤ height l + 1) :
    delete_rebalance (node a l r h c) =
      some (node a l r (max (height l) (height r) + 1) c) := by
  have hb1 : ¬ ((height l : Int) - (height r : Int) > 1) := by omega
  have hb2 : ¬ ((height l : Int) - (height r : Int) < -1) := by omega
  simp only [delete_rebalance, balance, hb1, hb2, false_and, if_false]

/-- On a tree with the height invariant and sorted keys, `insert_key` of a key that
some node holds adds one to the count of one node holding it and changes nothing
else. -/
theorem insert_key_held (k : α) : ∀ (t : Node α), AVL t → InorderSorted t → k ∈ keys t →
    ∃ t', insert_key t k = some t' ∧ CountChangedAt k (fun c => c + 1) t t'
  | nullptr, _, _, hk => absurd hk (by simp)
  | node a l r h c, ⟨hl, hr, hh, h1, h2⟩, hs, hk => by
    obtain ⟨hsl, hsr, hla, har⟩ := (inorderSorted_node a l r h c).mp hs
    rw [keys_node, List.mem_append, List.mem_cons] at hk
    rw [insert_key]
    by_cases hak : a = k
    · refine ⟨node a l r h (c + 1), by simp only [hak, if_true], rfl, rfl, Or.inl ⟨hak, rfl, rfl, rfl⟩⟩
    · by_cases hgt : a > k
      · have hkl : k ∈ keys l := by
          rcases hk with hk | hk | hk
          · exact hk
          · exact absurd hk.symm hak
          · exact absurd (har k hk) (not_le_of_lt hgt)
        obtain ⟨l', hl', hch⟩ := insert_key_held k l hl hsl hkl
        have hh' := hch.root_height_eq
        refine ⟨node a l' r h c, ?_, rfl, rfl, Or.inr (Or.inl ⟨rfl, hch, rfl⟩)⟩
        simp only [hak, if_false, hgt, if_true, hl', Option.some_bind]
        rw [insert_rebalance_balanced k a l' r h c (by omega) (by omega), hh', hh]
      · have hlt : a < k := lt_of_le_of_ne (not_lt.mp hgt) hak
        have hkr : k ∈ keys r := by
          rcases hk with hk | hk | hk
          · exact absurd (hla k hk) (not_le_of_lt hlt)
          · exact absurd hk.symm hak
          · exact hk
        obtain ⟨r', hr', hch⟩ := insert_key_held k r hr hsr hkr
        have hh' := hch.root_height_eq
        refine ⟨node a l r' h c, ?_, rfl, rfl, Or.inr (Or.inr ⟨rfl, rfl, hch⟩)⟩
        simp only [hak, if_false, hgt, hr', Option.some_bind]
        rw [insert_rebalance_balanced k a l r' h c (by omega) (by omega), hh', hh]

/-- On a tree with the height invariant and sorted keys, `delete_key` of a key held
by exactly one node, of count above one, takes one from the count of that node and
changes nothing else. -/
theorem delete_key_decrement (k : α) (n : Nat) (hn : 1 < n) : ∀ (t : Node α), AVL t →
    InorderSorted t → countsOf t k = [n] →
    ∃ t', delete_key t k = some t' ∧ CountChangedAt k (fun c => c - 1) t t'
  | nullptr, _, _, hk => absurd hk (by simp [countsOf])
  | node a l r h c, ⟨hl, hr, hh, h1, h2⟩, hs, hk => by
    obtain ⟨hsl, hsr, hla, har⟩ := (inorderSorted_node a l r h c).mp hs
    rw [countsOf_node] at hk
    rw [delete_key]
    by_cases hlt : k < a
    · have hak : ¬ a = k := fun e => absurd hlt (by rw [e]; exact lt_irrefl _)
      have hkr : countsOf r k = [] :=
        countsOf_eq_nil fun hm => absurd (har k hm) (not_le_of_lt hlt)
      simp only [hak, if_false, hkr, List.append_nil] at hk
      obtain ⟨l', hl', hch⟩ := delete_key_decrement k n hn l hl hsl hk
      have hh' := hch.root_height_eq
      refine ⟨node a l' r h c, ?_, rfl, rfl, Or.inr (Or.inl ⟨rfl, hch, rfl⟩)⟩
      simp only [hlt, if_true, hl', Option.some_bind]
      rw [delete_rebalance_balanced a l' r h c (by omega) (by omega), hh', hh]
    · by_cases hgt : k > a
      · have hak : ¬ a = k := fun e => absurd hgt (by rw [e]; exact lt_irrefl _)
        have hkl : countsOf l k = [] :=
          countsOf_eq_nil fun hm => absurd (hla k hm) (not_le_of_lt hgt)
        simp only [hak, if_false, hkl, List.nil_append] at hk
        obtain ⟨r', hr', hch⟩ := delete_key_decrement k n hn r hr hsr hk
        have hh' := hch.root_height_eq
        refine ⟨node a l r' h c, ?_, rfl, rfl, Or.inr (Or.inr ⟨rfl, rfl, hch⟩)⟩
        simp only [hlt, if_false, hgt, if_true, hr', Option.some_bind]
        rw [delete_rebalance_balanced a l r' h c (by omega) (by omega), hh', hh]
      · have hka : a = k := (le_antisymm (not_lt.mp hgt) (not_lt.mp hlt)).symm
        simp only [hka, if_true] at hk
        have hlen := congrArg List.length hk
        simp only [List.length_append, List.length_cons, List.length_nil] at hlen
        have e1 : countsOf l k = [] := List.length_eq_zero.mp (by omega)
        rw [e1, List.nil_append, List.cons_append, List.nil_append] at hk
        have hcn : c = n := (List.cons.inj hk).1
        have hc1 : c > 1 := by omega
        refine ⟨node a l r h (c - 1), ?_, rfl, rfl, Or.inl ⟨hka, rfl, rfl, rfl⟩⟩
        simp only [hlt, hgt, hc1, if_true, if_false]

end OneCount

/-! ### Traversal -/

theorem pre_order_eq : ∀ (t : Node α) (cout : List (α × Nat)),
    pre_order t cout = cout ++ preorderSeq t
  | nullptr, cout => by simp [pre_order, preorderSeq]
  | node k l r _ c, cout => by
    simp [pre_order, preorderSeq, pre_order_eq r, pre_order_eq l]

theorem preorderSeq_perm : ∀ (t : Node α), (preorderSeq t).Perm (inorder t)
  | nullptr => List.Perm.refl _
  | node k l r _ c => by
    simp only [preorderSeq, inorder_node]
    exact (List.perm_middle.symm).trans
      (((preorderSeq_perm l).append ((preorderSeq_perm r).cons (k, c))))

/-! ### Three keys and one key -/

section Small

variable [LinearOrder α]

/-- Inserting `a < b < c` in ascending order: the right-right case at the root. -/
theorem run_insert_abc (a b c : α) (hab : a < b) (hbc : b < c) :
    run [Op.insert a, Op.insert b, Op.insert c] =
      some (node b (node a nullptr nullptr 1 1) (node c nullptr nullptr 1 1) 2 1) := by
  have hac : a < c := lt_trans hab hbc
  simp [run, runFrom, Op.apply, insert_key, insert_rebalance, balance, rotate_left,
    Node.new, hab, hbc, hac, hab.ne, hbc.ne, hac.ne, not_lt_of_gt hab, not_lt_of_gt hbc,
    not_lt_of_gt hac]

/-- Inserting `a < b < c` in descending order: the left-left case at the root. -/
theorem run_insert_cba (a b c : α) (hab : a < b) (hbc : b < c) :
    run [Op.insert c, Op.insert b, Op.insert a] =
      some (node b (node a nullptr nullptr 1 1) (node c nullptr nullptr 1 1) 2 1) := by
  have hac : a < c := lt_trans hab hbc
  simp [run, runFrom, Op.apply, insert_key, insert_rebalance, balance, rotate_right,
    Node.new, hab, hbc, hac, hab.ne', hbc.ne', hac.ne', not_lt_of_gt hab, not_lt_of_gt hbc,
    not_lt_of_gt hac]

/-- Inserting `c`, `a`, `b` with `a < b < c`: the left-right case at the root. -/
theorem run_insert_cab (a b c : α) (hab : a < b) (hbc : b < c) :
    run [Op.insert c, Op.insert a, Op.insert b] =
      some (node b (node a nullptr nullptr 1 1) (node c nullptr nullptr 1 1) 2 1) := by
  have hac : a < c := lt_trans hab hbc
  simp [run, runFrom, Op.apply, insert_key, insert_rebalance, balance, rotate_right,
    rotate_left, Node.new, hab, hbc, hac, hab.ne, hab.ne', hbc.ne', hac.ne',
    not_lt_of_gt hab, not_lt_of_gt hbc, not_lt_of_gt hac]

theorem runFrom_insert_same (k : α) : ∀ (m c : Nat),
    runFrom (node k nullptr nullptr 1 c) (List.replicate m (Op.insert k))
      = some (node k nullptr nullptr 1 (c + m))
  | 0, _ => rfl
  | m + 1, c => by
    rw [List.replicate_succ, runFrom]
    simp only [Op.apply, insert_key, if_true, Option.some_bind]
    rw [runFrom_insert_same k m (c + 1)]
    congr 2
    omega

/-- Inserting the same key `m` times, `m ≥ 1`, into the empty tree. -/
theorem run_insert_same (k : α) (m : Nat) (hm : 1 ≤ m) :
    run (List.replicate m (Op.insert k)) = some (node k nullptr nullptr 1 m) := by
  obtain ⟨n, rfl⟩ : ∃ n, m = n + 1 := ⟨m - 1, by omega⟩
  rw [List.replicate_succ, run, runFrom]
  simp only [Op.apply, insert_key, Node.new, Option.some_bind]
  rw [runFrom_insert_same k n 1]
  congr 2
  omega

end Small

/-! ### The claims -/

section Claims

variable [LinearOrder α]

/-- Claim C1. Every tree obtained from the empty tree by a finite sequence of
`insert_key` and `delete_key` calls exists (no call fails) and at every node the true
heights of the two subtrees differ by at most one, the height of an absent child
being `0`. -/
theorem C1_balance_invariant (ops : List (Op α)) :
    ∃ t, run ops = some t ∧ Balanced t := by
  obtain ⟨t, h, ha, _⟩ := run_inv ops
  exact ⟨t, h, ha.balanced⟩

/-- Claim C3. For every tree obtained from the empty tree by a finite sequence of
`insert_key` and `delete_key` calls, the in-order sequence of keys is sorted in
non-decreasing order. -/
theorem C3_inorder_sorted (ops : List (Op α)) :
    ∃ t, run ops = some t ∧ List.Sorted (fun x y => x ≤ y) (keys t) := by
  obtain ⟨t, h, _, hs, _⟩ := run_inv ops
  exact ⟨t, h, hs⟩

/-- Claim C4. For every tree obtained from the empty tree by a finite sequence of
`insert_key` and `delete_key` calls, the cached height of every node is
`1 + max(height(left), height(right))`, with `0` for an absent child, and it is the
true height of the subtree of that node. -/
theorem C4_height_consistency (ops : List (Op α)) :
    ∃ t, run ops = some t ∧ HeightOK t ∧ HeightTrue t := by
  obtain ⟨t, h, ha, _⟩ := run_inv ops
  exact ⟨t, h, ha.heightOK, ha.heightTrue⟩

/-- Claim C5. For every tree obtained from the empty tree by a finite sequence of
`insert_key` and `delete_key` calls, every node has `count ≥ 1`. -/
theorem C5_count_positive (ops : List (Op α)) :
    ∃ t, run ops = some t ∧ CountPos t := by
  obtain ⟨t, h, _, _, hc, _⟩ := run_inv ops
  exact ⟨t, h, hc⟩

/-- Claim C8. For every tree `t` reachable from the empty tree and every key `k` that
no node of `t` holds, `delete_key(t, k)` returns `t` itself: the same shape, keys,
counts and cached heights. -/
theorem C8_delete_absent_noop (t : Node α) (ht : Reachable t) (k : α) (hk : k ∉ keys t) :
    delete_key t k = some t :=
  delete_key_absent t ht.inv.1 k hk

/-- Claim C9. For every tree `t` reachable from the empty tree, every key `k` that no
node of `t` holds and every `m ≥ 1`: after `m` calls `insert_key(k)` and `m` calls
`delete_key(k)` no node holds `k`; after `m` calls `insert_key(k)` and `m - 1` calls
`delete_key(k)` exactly one node holds `k` and its count is `1`. -/
theorem C9_count_consistency (t : Node α) (ht : Reachable t) (k : α) (hk : k ∉ keys t)
    (m : Nat) (hm : 1 ≤ m) :
    (∃ t1, runFrom t (List.replicate m (Op.insert k) ++ List.replicate m (Op.delete k))
        = some t1 ∧ k ∉ keys t1) ∧
    (∃ t2, runFrom t (List.replicate m (Op.insert k) ++ List.replicate (m - 1) (Op.delete k))
        = some t2 ∧ countsOf t2 k = [1]) := by
  obtain ⟨ha, hs, hc⟩ := ht.inv
  have h0 : totalCount t k = 0 := totalCount_eq_zero hk
  constructor
  · obtain ⟨t1, h1, _, _, hc1, htot⟩ := runFrom_inv
      (List.replicate m (Op.insert k) ++ List.replicate m (Op.delete k)) t ha hs hc
    refine ⟨t1, h1, ?_⟩
    intro hmem
    have hpos := totalCount_pos hc1 hmem
    rw [htot k, List.foldl_append, foldl_multStep_insert, foldl_multStep_delete, h0] at hpos
    omega
  · obtain ⟨t2, h2, _, _, hc2, htot⟩ := runFrom_inv
      (List.replicate m (Op.insert k) ++ List.replicate (m - 1) (Op.delete k)) t ha hs hc
    refine ⟨t2, h2, ?_⟩
    apply list_eq_one_of_sum _ (countsOf_pos hc2 k)
    have h3 := htot k
    rw [List.foldl_append, foldl_multStep_insert, foldl_multStep_delete, h0] at h3
    unfold totalCount at h3
    omega

/-- Claim C10. For every list of pairwise distinct keys, in whatever order, inserting
them one by one into the empty tree gives a tree whose in-order sequence is the keys
in strictly ascending order, each with count `1`; a list with the same keys in
another order gives the same in-order sequence. -/
theorem C10_insert_distinct_roundtrip (ks : List α) (hnd : ks.Nodup) :
    ∃ t, run (ks.map Op.insert) = some t ∧
      inorder t = (ks.insertionSort (· ≤ ·)).map (fun k => (k, 1)) ∧
      List.Sorted (· < ·) (keys t) ∧
      ∀ ks' : List α, ks'.Perm ks →
        ∃ t', run (ks'.map Op.insert) = some t' ∧ inorder t' = inorder t := by
  obtain ⟨t, h, hin, hs⟩ := run_insert_distinct ks hnd
  refine ⟨t, h, hin, hs, ?_⟩
  intro ks' hp
  obtain ⟨t', h', hin', _⟩ := run_insert_distinct ks' (hp.nodup_iff.mpr hnd)
  refine ⟨t', h', ?_⟩
  rw [hin, hin']
  congr 1
  apply List.eq_of_perm_of_sorted (r := (· ≤ ·))
  · exact ((List.perm_insertionSort _ _).trans hp).trans (List.perm_insertionSort _ _).symm
  · exact List.sorted_insertionSort _ _
  · exact List.sorted_insertionSort _ _

/-- Claim C11. For every tree obtained from the empty tree by a finite sequence of
`insert_key` and `delete_key` calls, with `n` nodes and true height `h`:
`n ≥ fib (h + 2) - 1`, where `fib 1 = fib 2 = 1`; and `n` is at most the number of
`insert_key` calls made. -/
theorem C11_height_bound (ops : List (Op α)) :
    ∃ t, run ops = some t ∧ Nat.fib (realHeight t + 2) - 1 ≤ size t ∧
      size t ≤ insertCalls ops := by
  obtain ⟨t, h, ha, _⟩ := run_inv ops
  refine ⟨t, h, ?_, ?_⟩
  · have := ha.fib_le_size
    rw [ha.height_eq] at this
    omega
  · have := runFrom_size ops nullptr trivial List.Pairwise.nil trivial t h
    simpa [size] using this

/-- Claim C12. For every tree `t` reachable from the empty tree and every key `k` held
by a node of `t`, `insert_key(t, k)` returns `t` with the count of one node holding `k`
increased by one: the shape, every key, every cached height and every other count
are unchanged. -/
theorem C12_insert_held_frame (t : Node α) (ht : Reachable t) (k : α) (hk : k ∈ keys t) :
    ∃ t', insert_key t k = some t' ∧ CountChangedAt k (fun c => c + 1) t t' :=
  insert_key_held k t ht.inv.1 ht.inv.2.1 hk

/-- Claim C14. For every tree `t` reachable from the empty tree and every key `k` held
by no node of `t`, the in-order sequence of `insert_key(t, k)` is that of `t` with the
pair `(k, 1)` put between the pairs with keys below `k` and the pairs with keys above
`k`; the node made by the constructor has no children, height `1` and count `1`. -/
theorem C14_insert_absent_inorder (t : Node α) (ht : Reachable t) (k : α)
    (hk : k ∉ keys t) :
    (∃ t', insert_key t k = some t' ∧
      ∃ L R, inorder t = L ++ R ∧ inorder t' = L ++ (k, 1) :: R ∧
        (∀ p ∈ L, p.1 < k) ∧ (∀ p ∈ R, k < p.1)) ∧
    insert_key nullptr k = some (node k nullptr nullptr 1 1) := by
  refine ⟨?_, rfl⟩
  obtain ⟨ha, hs, _⟩ := ht.inv
  obtain ⟨t', ht', _⟩ := insert_key_avl k t ha
  refine ⟨t', ht', ?_⟩
  rcases insert_key_inorder k t t' ht' hs with ⟨L, c0, R, e1, _⟩ | h
  · exfalso
    apply hk
    rw [mem_keys_iff, e1]
    exact ⟨(k, c0), by simp, rfl⟩
  · exact h

/-- Claim C15. On a tree reachable from the empty tree `insert_key` and `delete_key`
return a tree for every key: no rotation is called on a node without the child it
pivots on and no key of an absent child is read, these being the only ways for a
call to fail (`rotate_right` fails exactly without a left child, `rotate_left`
exactly without a right child, the key access exactly on the null pointer). -/
theorem C15_no_failure (t : Node α) (ht : Reachable t) (k : α) :
    (∃ t', insert_key t k = some t') ∧ (∃ t', delete_key t k = some t') ∧
    (∀ n : Node α, (rotate_right n).isSome = hasLeft n) ∧
    (∀ n : Node α, (rotate_left n).isSome = hasRight n) ∧
    (∀ n : Node α, n.key?.isSome = !n.isNull) := by
  obtain ⟨ha, _, _⟩ := ht.inv
  obtain ⟨t1, h1, _⟩ := insert_key_avl k t ha
  obtain ⟨t2, h2, _⟩ := delete_key_avl t ha k
  refine ⟨⟨t1, h1⟩, ⟨t2, h2⟩, ?_, ?_, ?_⟩
  · intro n
    cases n with
    | nullptr => rfl
    | node a l r h c => cases l <;> rfl
  · intro n
    cases n with
    | nullptr => rfl
    | node a l r h c => cases r <;> rfl
  · intro n
    cases n <;> rfl

/-- Claim C17. For all keys `a < b < c`, inserting `a`, `b`, `c` into the empty tree
gives the root `b` of height `2` with the leaves `a` on the left and `c` on the
right, all counts `1`. -/
theorem C17_insert_ascending (a b c : α) (hab : a < b) (hbc : b < c) :
    run [Op.insert a, Op.insert b, Op.insert c] =
      some (node b (node a nullptr nullptr 1 1) (node c nullptr nullptr 1 1) 2 1) :=
  run_insert_abc a b c hab hbc

/-- Claim C18. For all keys `a < b < c`, inserting `c`, `b`, `a` into the empty tree
gives the root `b` with the leaves `a` on the left and `c` on the right. -/
theorem C18_insert_descending (a b c : α) (hab : a < b) (hbc : b < c) :
    run [Op.insert c, Op.insert b, Op.insert a] =
      some (node b (node a nullptr nullptr 1 1) (node c nullptr nullptr 1 1) 2 1) :=
  run_insert_cba a b c hab hbc

/-- Claim C19. For all keys `a < b < c`, inserting `c`, `a`, `b` into the empty tree
gives the root `b` with the leaves `a` on the left and `c` on the right. -/
theorem C19_insert_left_right (a b c : α) (hab : a < b) (hbc : b < c) :
    run [Op.insert c, Op.insert a, Op.insert b] =
      some (node b (node a nullptr nullptr 1 1) (node c nullptr nullptr 1 1) 2 1) :=
  run_insert_cab a b c hab hbc

/-- Claim C20. For every key `k` and every `m ≥ 1`, `m` calls `insert_key(k)` on the
empty tree give a single node with key `k`, count `m`, height `1` and no children;
its in-order sequence and the output of `pre_order` are `[(k, m)]`. -/
theorem C20_insert_same_key (k : α) (m : Nat) (hm : 1 ≤ m) :
    ∃ t, run (List.replicate m (Op.insert k)) = some t ∧
      t = node k nullptr nullptr 1 m ∧ inorder t = [(k, m)] ∧ pre_order t [] = [(k, m)] :=
  ⟨node k nullptr nullptr 1 m, run_insert_same k m hm, rfl, rfl, rfl⟩

end Claims

/-- Claim C16, as the code has it. The one traversal of the source, `pre_order`
(method `AVLTree::preorder`), adds to the output one `(key, count)` pair per node,
each node before its left subtree and the left subtree before the right one, and
leaves the tree as it is. -/
theorem C16_preorder_traversal (t : Node α) (cout : List (α × Nat)) :
    pre_order t cout = cout ++ preorderSeq t ∧
      (preorderSeq t).Perm (inorder t) ∧ (preorderSeq t).length = size t ∧
      (preorder t cout).1 = t := by
  refine ⟨pre_order_eq t cout, preorderSeq_perm t, ?_, rfl⟩
  rw [size_eq_length]
  exact (preorderSeq_perm t).length_eq

theorem C8_delete_absent_noop_witness :
    Reachable tree213 ∧ 5 ∉ keys tree213 ∧ delete_key tree213 5 = some tree213 :=
  ⟨⟨[Op.insert 2, Op.insert 1, Op.insert 3], by decide⟩, by decide,
    C8_delete_absent_noop tree213 ⟨[Op.insert 2, Op.insert 1, Op.insert 3], by decide⟩ 5
      (by decide)⟩

theorem C9_count_consistency_witness :
    Reachable tree213 ∧ 5 ∉ keys tree213 ∧ 1 ≤ 2 ∧
    (∃ t1, runFrom tree213 (List.replicate 2 (Op.insert 5) ++ List.replicate 2 (Op.delete 5))
        = some t1 ∧ 5 ∉ keys t1) ∧
    (∃ t2, runFrom tree213
        (List.replicate 2 (Op.insert 5) ++ List.replicate (2 - 1) (Op.delete 5))
        = some t2 ∧ countsOf t2 5 = [1]) :=
  ⟨⟨[Op.insert 2, Op.insert 1, Op.insert 3], by decide⟩, by decide, by decide,
    C9_count_consistency tree213 ⟨[Op.insert 2, Op.insert 1, Op.insert 3], by decide⟩ 5
      (by decide) 2 (by decide)⟩

theorem C10_insert_distinct_roundtrip_witness :
    ([3, 1, 2] : List Nat).Nodup ∧ ∃ t, run ([3, 1, 2].map Op.insert) = some t ∧
      inorder t = (([3, 1, 2] : List Nat).insertionSort (· ≤ ·)).map (fun k => (k, 1)) ∧
      List.Sorted (· < ·) (keys t) ∧
      ∀ ks' : List Nat, ks'.Perm [3, 1, 2] →
        ∃ t', run (ks'.map Op.insert) = some t' ∧ inorder t' = inorder t :=
  ⟨by decide, C10_insert_distinct_roundtrip [3, 1, 2] (by decide)⟩

theorem C12_insert_held_frame_witness :
    Reachable tree213 ∧ 3 ∈ keys tree213 ∧
      ∃ t', insert_key tree213 3 = some t' ∧ CountChangedAt 3 (fun c => c + 1) tree213 t' :=
  ⟨⟨[Op.insert 2, Op.insert 1, Op.insert 3], by decide⟩, by decide,
    C12_insert_held_frame tree213 ⟨[Op.insert 2, Op.insert 1, Op.insert 3], by decide⟩ 3
      (by decide)⟩

theorem C14_insert_absent_inorder_witness :
    Reachable tree213 ∧ 5 ∉ keys tree213 ∧
    ((∃ t', insert_key tree213 5 = some t' ∧
      ∃ L R, inorder tree213 = L ++ R ∧ inorder t' = L ++ (5, 1) :: R ∧
        (∀ p ∈ L, p.1 < 5) ∧ (∀ p ∈ R, 5 < p.1)) ∧
    insert_key (nullptr : Node Nat) 5 = some (node 5 nullptr nullptr 1 1)) :=
  ⟨⟨[Op.insert 2, Op.insert 1, Op.insert 3], by decide⟩, by decide,
    C14_insert_absent_inorder tree213 ⟨[Op.insert 2, Op.insert 1, Op.insert 3], by decide⟩ 5
      (by decide)⟩

theorem C15_no_failure_witness :
    Reachable tree213 ∧
    ((∃ t', insert_key tree213 0 = some t') ∧ (∃ t', delete_key tree213 0 = some t') ∧
    (∀ n : Node Nat, (rotate_right n).isSome = hasLeft n) ∧
    (∀ n : Node Nat, (rotate_left n).isSome = hasRight n) ∧
    (∀ n : Node Nat, n.key?.isSome = !n.isNull)) :=
  ⟨⟨[Op.insert 2, Op.insert 1, Op.insert 3], by decide⟩,
    C15_no_failure tree213 ⟨[Op.insert 2, Op.insert 1, Op.insert 3], by decide⟩ 0⟩

theorem C17_insert_ascending_witness :
    (10 : Nat) < 20 ∧ (20 : Nat) < 30 ∧
    run [Op.insert 10, Op.insert 20, Op.insert 30] =
      some (node 20 (node 10 nullptr nullptr 1 1) (node 30 nullptr nullptr 1 1) 2 1) :=
  ⟨by decide, by decide, C17_insert_ascending 10 20 30 (by decide) (by decide)⟩

theorem C18_insert_descending_witness :
    (10 : Nat) < 20 ∧ (20 : Nat) < 30 ∧
    run [Op.insert 30, Op.insert 20, Op.insert 10] =
      some (node 20 (node 10 nullptr nullptr 1 1) (node 30 nullptr nullptr 1 1) 2 1) :=
  ⟨by decide, by decide, C18_insert_descending 10 20 30 (by decide) (by decide)⟩

theorem C19_insert_left_right_witness :
    (10 : Nat) < 20 ∧ (20 : Nat) < 30 ∧
    run [Op.insert 30, Op.insert 10, Op.insert 20] =
      some (node 20 (node 10 nullptr nullptr 1 1) (node 30 nullptr nullptr 1 1) 2 1) :=
  ⟨by decide, by decide, C19_insert_left_right 10 20 30 (by decide) (by decide)⟩

theorem C20_insert_same_key_witness :
    1 ≤ 3 ∧ ∃ t, run (List.replicate 3 (Op.insert (5 : Nat))) = some t ∧
      t = node 5 nullptr nullptr 1 3 ∧ inorder t = [(5, 3)] ∧ pre_order t [] = [(5, 3)] :=
  ⟨by decide, C20_insert_same_key 5 3 (by decide)⟩

/-! ### The two-children case of `delete_key` and a successor with count above one -/

/-- Claim C2 fails on the code. After `insert_key` of `2`, `1`, `3`, `3` the call
`delete_key(2)` returns a tree whose root holds `3` and whose right child holds `3`
too: the right subtree has a key that is not greater than the key of the root. -/
theorem C2_strict_order_violated :
    run (ops2133 ++ [Op.delete 2]) = some tree2133del2 ∧ ¬ StrictBST tree2133del2 ∧
      countsOf tree2133del2 3 = [1, 1] := by
  refine ⟨by decide, ?_, by decide⟩
  intro h
  exact absurd (h.2.2.2 3 (by decide)) (by decide)

/-- Claim C6 fails on the code. After `insert_key` of `2`, `1`, `3`, `3` and
`delete_key(2)` the logical multiplicity of `3` is `2`, and the tree holds two nodes
with key `3`, each of count `1`, not one node of count `2`. -/
theorem C6_multiplicity_split_over_two_nodes :
    run (ops2133 ++ [Op.delete 2]) = some tree2133del2 ∧
      mult (ops2133 ++ [Op.delete 2]) 3 = 2 ∧ countsOf tree2133del2 3 = [1, 1] := by
  decide

/-- Claim C7 fails on the code. On the reachable tree `tree2133` the root `2` has
count `1` and two children and its in-order successor is the node `3` of count `2`;
`delete_key(2)` gives the root the key `3` but leaves its count at `1`, and the
right subtree still holds the key `3`. -/
theorem C7_successor_not_deleted :
    run ops2133 = some tree2133 ∧
      min_value (node 3 nullptr nullptr 1 2) = node 3 nullptr nullptr 1 2 ∧
      delete_key tree2133 2
        = some (node 3 (node 1 nullptr nullptr 1 1) (node 3 nullptr nullptr 1 1) 2 1) ∧
      3 ∈ keys (node 3 (nullptr : Node Nat) nullptr 1 1) := by
  decide

/-- Claim C13 fails on the code. The reachable tree `treeDup3` holds the key `3` in
two nodes, the root of count `1` and its right child of count `2`; `delete_key(3)`
meets the root first, finds count `1` and one child, and replaces the root by that
child: the result is a single node of count `2` and height `1`, not `treeDup3` with
one count decreased. -/
theorem C13_decrement_frame_violated :
    run opsDup3 = some treeDup3 ∧ countsOf treeDup3 3 = [1, 2] ∧
      delete_key treeDup3 3 = some (node 3 nullptr nullptr 1 2) ∧
      ¬ CountChangedAt 3 (fun c => c - 1) treeDup3 (node 3 nullptr nullptr 1 2) := by
  refine ⟨by decide, by decide, by decide, ?_⟩
  simp [CountChangedAt, treeDup3]

/-! ### Traversal orders -/

/-- Claim C16 fails on the code. The source has one traversal, `pre_order`; on the
tree with root `2` and leaves `1`, `3` it yields `(2,1), (1,1), (3,1)`, which is
neither the in-order nor the post-order sequence of that tree. -/
theorem C16_only_preorder_offered :
    pre_order tree213 [] = [(2, 1), (1, 1), (3, 1)] ∧
      pre_order tree213 [] ≠ inorder tree213 ∧
      pre_order tree213 [] ≠ postorderSeq tree213 := by
  decide

/-! ### Seven keys, one deletion; deletion on the empty tree -/

/-- Claim C21. Inserting `1` to `7` in ascending order into the empty tree and then
calling `delete_key(4)` gives a tree that is balanced at every node, has true height
at most `3`, and whose in-order sequence is `(1,1), (2,1), (3,1), (5,1), (6,1), (7,1)`. -/
theorem C21_insert_seven_delete_four :
    ∃ t, run ops1to7del4 = some t ∧ Balanced t ∧ realHeight t ≤ 3 ∧
      inorder t = [(1, 1), (2, 1), (3, 1), (5, 1), (6, 1), (7, 1)] := by
  have h : run ops1to7del4 = some tree1to7del4 := by decide
  obtain ⟨t, ht, ha, _⟩ := run_inv ops1to7del4
  rw [h, Option.some.injEq] at ht
  subst ht
  exact ⟨tree1to7del4, h, ha.balanced, by decide, by decide⟩

/-- Claim C22. For every key `k`, `delete_key` on the empty tree returns the empty
tree; the call does not fail. -/
theorem C22_delete_on_empty [LinearOrder α] (k : α) :
    delete_key (nullptr : Node α) k = some nullptr ∧
      run [Op.delete k] = some (nullptr : Node α) :=
  ⟨rfl, rfl⟩

/-! ### Rotations -/

section Rotations

variable [LinearOrder α]

theorem rotate_right_strictBST : ∀ (t t' : Node α), rotate_right t = some t' →
    StrictBST t → StrictBST t'
  | node yk (node xk t1 t2 xh xc) t3 yh yc, t', h, hs => by
    simp only [rotate_right, Option.some.injEq] at h
    subst h
    obtain ⟨⟨h1, h2, h3, h4⟩, h5, h6, h7⟩ := hs
    simp only [keys, inorder, List.map_append, List.map_cons, List.mem_append,
      List.mem_cons] at h6
    refine ⟨h1, ⟨h2, h5, fun x hx => h6 x (Or.inr (Or.inr hx)), h7⟩, h3, ?_⟩
    intro x hx
    simp only [keys, inorder, List.map_append, List.map_cons, List.mem_append,
      List.mem_cons] at hx
    rcases hx with hx | hx | hx
    · exact h4 x hx
    · rw [hx]; exact h6 xk (Or.inr (Or.inl rfl))
    · exact lt_trans (h6 xk (Or.inr (Or.inl rfl))) (h7 x hx)
  | nullptr, _, h, _ => by simp [rotate_right] at h
  | node _ nullptr _ _ _, _, h, _ => by simp [rotate_right] at h

theorem rotate_left_strictBST : ∀ (t t' : Node α), rotate_left t = some t' →
    StrictBST t → StrictBST t'
  | node xk t1 (node yk t2 t3 yh yc) xh xc, t', h, hs => by
    simp only [rotate_left, Option.some.injEq] at h
    subst h
    obtain ⟨h1, ⟨h2, h3, h4, h5⟩, h6, h7⟩ := hs
    simp only [keys, inorder, List.map_append, List.map_cons, List.mem_append,
      List.mem_cons] at h7
    refine ⟨⟨h1, h2, h6, fun x hx => h7 x (Or.inl hx)⟩, h3, ?_, h5⟩
    intro x hx
    simp only [keys, inorder, List.map_append, List.map_cons, List.mem_append,
      List.mem_cons] at hx
    rcases hx with hx | hx | hx
    · exact lt_trans (h6 x hx) (h7 yk (Or.inr (Or.inl rfl)))
    · rw [hx]; exact h7 yk (Or.inr (Or.inl rfl))
    · exact h4 x hx
  | nullptr, _, h, _ => by simp [rotate_left] at h
  | node _ _ nullptr _ _, _, h, _ => by simp [rotate_left] at h

end Rotations

/-! ### Deletion: the node left at balance two with a left child of balance zero -/

theorem AVL.of_subtree : ∀ {t s : Node α}, AVL t → s ∈ subtreeList t → AVL s
  | nullptr, _, _, hs => by simp [subtreeList] at hs
  | node k l r h c, s, ht, hs => by
    simp only [subtreeList, List.mem_cons, List.mem_append] at hs
    rcases hs with hs | hs | hs
    · rw [hs]; exact ht
    · exact AVL.of_subtree ht.1 hs
    · exact AVL.of_subtree ht.2.1 hs

theorem delete_rebalance_left_zero (a : α) (l r : Node α) (h c : Nat)
    (hl : AVL l) (hr : AVL r) (h2 : height l = height r + 2) (h0 : balance l = 0) :
    ∃ t, delete_rebalance (node a l r h c) = some t ∧
      rotate_right (node a l r (max (height l) (height r) + 1) c) = some t ∧
      AVL t ∧ height t = height l + 1 := by
  cases l with
  | nullptr => simp at h2
  | node xk t1 t2 xh xc =>
    obtain ⟨a1, a2, a3, a4, a5⟩ := hl
    simp only [height_node] at h2
    simp only [balance] at h0
    have e : height t1 = height t2 := by omega
    have hc1 : balance (node a (node xk t1 t2 xh xc) r
        (max (height (node xk t1 t2 xh xc)) (height r) + 1) c) > 1 := by
      simp only [balance, height_node]; omega
    have hc2 : balance (node xk t1 t2 xh xc) ≥ 0 := by
      simp only [balance]; omega
    refine ⟨_, ?_, rfl, ?_, ?_⟩
    · rw [delete_rebalance]
      simp only [hc1, hc2, and_self, if_true]
      rfl
    · refine ⟨a1, ⟨a2, hr, rfl, ?_, ?_⟩, rfl, ?_, ?_⟩
      all_goals try simp only [height_node]
      all_goals omega
    · simp only [height_node]; omega

section DeleteZero

variable [LinearOrder α]

theorem delete_key_left_zero (key : α) (left right : Node α) (h count : Nat)
    (hs : AVL (node key left right h count)) (k a : α) (r' : Node α)
    (hdel : (key < k ∧ a = key ∧ delete_key right k = some r') ∨
      (k = key ∧ count ≤ 1 ∧ (min_value right).key? = some a ∧
        delete_key right a = some r'))
    (hb : balance (node a left r' h count) = 2) (hl : balance left = 0) :
    ∃ s', delete_key (node key left right h count) k = some s' ∧
      rotate_right (node a left r' (max (height left) (height r') + 1) count) = some s' ∧
      AVL s' ∧ height s' = h := by
  obtain ⟨al, ar, ah, a1, a2⟩ := hs
  have hr' : delete_key right a = some r' ∨ delete_key right k = some r' := by
    rcases hdel with ⟨_, _, e⟩ | ⟨_, _, _, e⟩
    · exact Or.inr e
    · exact Or.inl e
  have hh : height left = height r' + 2 := by
    simp only [balance] at hb; omega
  have har' : AVL r' ∧ (height r' = height right ∨ height r' + 1 = height right) := by
    rcases hr' with e | e
    · obtain ⟨t', h1, h2, h3⟩ := delete_key_avl right ar a
      rw [e, Option.some.injEq] at h1; subst h1; exact ⟨h2, h3⟩
    · obtain ⟨t', h1, h2, h3⟩ := delete_key_avl right ar k
      rw [e, Option.some.injEq] at h1; subst h1; exact ⟨h2, h3⟩
  obtain ⟨s', e1, e2, e3, e4⟩ := delete_rebalance_left_zero a left r' h count al har'.1 hh hl
  refine ⟨s', ?_, e2, e3, by omega⟩
  rcases hdel with ⟨c1, c2, c3⟩ | ⟨c1, c2, c3, c4⟩
  · subst c2
    rw [delete_key]
    simp only [not_lt_of_gt c1, if_false, gt_iff_lt, c1, if_true, c3, Option.some_bind]
    exact e1
  · subst c1
    have hln : left.isNull = false := by
      cases left with
      | nullptr => simp at hh
      | node _ _ _ _ _ => rfl
    have hrn : right.isNull = false := by
      cases right with
      | nullptr => simp [min_value, Node.key?] at c3
      | node _ _ _ _ _ => rfl
    rw [delete_key]
    simp only [lt_irrefl, if_false, gt_iff_lt, not_lt_of_ge c2, hln, hrn, Bool.or_self,
      Bool.false_eq_true, c3, Option.some_bind, c4]
    exact e1

end DeleteZero

/-! ### Trees built by `insert_key` calls only -/

section InsertOnly

variable [LinearOrder α]

omit [LinearOrder α] in
theorem count_snoc [DecidableEq α] (done : List α) (k x : α) :
    (done ++ [k]).count x = done.count x + (if x = k then 1 else 0) := by
  by_cases h : x = k
  · subst h; simp
  · have h' : ¬ k = x := fun e => h e.symm
    simp [List.count_cons, h, h']

/-- One `insert_key` call on a tree that holds the keys of the list `done`, each in
one node whose count is the number of occurrences in `done`. -/
theorem insert_key_counted (t : Node α) (k : α) (done : List α) (ha : AVL t)
    (hs : List.Pairwise (fun x y => x < y) (keys t)) (hm : ∀ x, x ∈ keys t ↔ x ∈ done)
    (hc : ∀ p ∈ inorder t, p.2 = done.count p.1) :
    ∃ t', insert_key t k = some t' ∧ AVL t' ∧
      List.Pairwise (fun x y => x < y) (keys t') ∧ (∀ x, x ∈ keys t' ↔ x ∈ done ++ [k]) ∧
      ∀ p ∈ inorder t', p.2 = (done ++ [k]).count p.1 := by
  obtain ⟨t', ht', hat', _⟩ := insert_key_avl k t ha
  have hso : InorderSorted t := hs.imp le_of_lt
  refine ⟨t', ht', hat', ?_⟩
  rcases insert_key_inorder k t t' ht' hso with ⟨L, c, R, e1, e2⟩ | ⟨L, R, e1, e2, hL, hR⟩
  · have ek : keys t' = keys t := by simp [keys, e1, e2]
    have hk : k ∈ keys t := by simp [keys, e1]
    have hs' := hs
    simp only [keys, e1, List.map_append, List.map_cons, List.pairwise_append,
      List.pairwise_cons, List.mem_cons, List.mem_map] at hs'
    obtain ⟨_, ⟨hkR, _⟩, hLk⟩ := hs'
    refine ⟨by rw [ek]; exact hs, ?_, ?_⟩
    · intro x
      rw [ek, hm x, List.mem_append, List.mem_singleton]
      constructor
      · exact Or.inl
      · rintro (h | h)
        · exact h
        · rw [h]; exact (hm k).1 hk
    · intro p hp
      rw [count_snoc]
      rw [e2, List.mem_append, List.mem_cons] at hp
      rcases hp with hp | hp | hp
      · have h1 : p.1 < k := hLk p.1 ⟨p, hp, rfl⟩ k (Or.inl rfl)
        rw [if_neg h1.ne, Nat.add_zero]
        exact hc p (by rw [e1]; exact List.mem_append_left _ hp)
      · subst hp
        have := hc (k, c) (by rw [e1]; simp)
        simp only [if_true] at this ⊢
        omega
      · have h1 : k < p.1 := hkR p.1 ⟨p, hp, rfl⟩
        rw [if_neg h1.ne', Nat.add_zero]
        exact hc p (by rw [e1]; exact List.mem_append_right _ (List.mem_cons_of_mem _ hp))
  · have hk : k ∉ keys t := by
      simp only [keys, e1, List.map_append, List.mem_append, List.mem_map, not_or]
      constructor
      · rintro ⟨p, hp, e⟩; exact absurd e (hL p hp).ne
      · rintro ⟨p, hp, e⟩; exact absurd e (hR p hp).ne'
    have hs' := hs
    simp only [keys, e1, List.map_append, List.pairwise_append, List.mem_map] at hs'
    obtain ⟨p1, p2, p3⟩ := hs'
    refine ⟨?_, ?_, ?_⟩
    · simp only [keys, e2, List.map_append, List.map_cons, List.pairwise_append,
        List.pairwise_cons, List.mem_cons, List.mem_map]
      refine ⟨p1, ⟨?_, p2⟩, ?_⟩
      · rintro y ⟨p, hp, rfl⟩; exact hR p hp
      · rintro x ⟨p, hp, rfl⟩ y (rfl | hy)
        · exact hL p hp
        · exact p3 _ ⟨p, hp, rfl⟩ y hy
    · intro x
      have := hm x
      simp only [keys, e1, e2, List.map_append, List.map_cons, List.mem_append,
        List.mem_cons, List.mem_singleton, List.mem_nil_iff, or_false] at this ⊢
      rw [← this]
      tauto
    · intro p hp
      rw [count_snoc]
      rw [e2, List.mem_append, List.mem_cons] at hp
      rcases hp with hp | hp | hp
      · rw [if_neg (hL p hp).ne, Nat.add_zero]
        exact hc p (by rw [e1]; exact List.mem_append_left _ hp)
      · subst hp
        have h0 : done.count k = 0 := List.count_eq_zero.2 fun h => hk ((hm k).2 h)
        simp only [if_true]
        omega
      · rw [if_neg (hR p hp).ne', Nat.add_zero]
        exact hc p (by rw [e1]; exact List.mem_append_right _ hp)

theorem runFrom_insert_counted : ∀ (ks : List α) (t : Node α) (done : List α), AVL t →
    List.Pairwise (fun x y => x < y) (keys t) → (∀ x, x ∈ keys t ↔ x ∈ done) →
    (∀ p ∈ inorder t, p.2 = done.count p.1) →
    ∃ t', runFrom t (ks.map Op.insert) = some t' ∧ AVL t' ∧
      List.Pairwise (fun x y => x < y) (keys t') ∧ (∀ x, x ∈ keys t' ↔ x ∈ done ++ ks) ∧
      ∀ p ∈ inorder t', p.2 = (done ++ ks).count p.1
  | [], t, done, ha, hs, hm, hc => by
    refine ⟨t, rfl, ha, hs, ?_, ?_⟩
    · simpa using hm
    · simpa using hc
  | k :: ks, t, done, ha, hs, hm, hc => by
    obtain ⟨t1, h1, ha1, hs1, hm1, hc1⟩ := insert_key_counted t k done ha hs hm hc
    obtain ⟨t2, h2, ha2, hs2, hm2, hc2⟩ :=
      runFrom_insert_counted ks t1 (done ++ [k]) ha1 hs1 hm1 hc1
    refine ⟨t2, ?_, ha2, hs2, ?_, ?_⟩
    · simp only [List.map_cons, runFrom, Op.apply, h1, Option.some_bind, h2]
    · simpa using hm2
    · simpa using hc2

theorem run_insert_counted (ks : List α) :
    ∃ t, run (ks.map Op.insert) = some t ∧ AVL t ∧
      List.Pairwise (fun x y => x < y) (keys t) ∧ (∀ x, x ∈ keys t ↔ x ∈ ks) ∧
      ∀ p ∈ inorder t, p.2 = ks.count p.1 := by
  obtain ⟨t, h1, h2, h3, h4, h5⟩ := runFrom_insert_counted ks nullptr [] trivial
    List.Pairwise.nil (fun x => by simp [keys, inorder]) (fun p hp => by simp [inorder] at hp)
  exact ⟨t, h1, h2, h3, by simpa using h4, by simpa using h5⟩

end InsertOnly

/-! ### The claims on rotations, deletion and insert-only trees -/

/-- Claim C32. For every node `y` (key `yk`, count `yc`) whose left child is a node
`x` (key `xk`, count `xc`), with `t1 = x.left`, `t2 = x.right`, `t3 = y.right`,
`rotate_right(y)` returns `x` as the subtree root with `x.left = t1`, `x.right = y`,
`y.left = t2`, `y.right = t3`; keys and counts are as before; the cached height of `y`
is `1 + max(height(t2), height(t3))` and the cached height of `x` is one more than the
larger of `height(t1)` and that new height of `y`, whatever the two cached heights
were before the call. -/
theorem C32_rotate_right (yk xk : α) (t1 t2 t3 : Node α) (yh xh yc xc : Nat) :
    ∃ y' x', y' = node yk t2 t3 (1 + max (height t2) (height t3)) yc ∧
      x' = node xk t1 y' (1 + max (height t1) (height y')) xc ∧
      rotate_right (node yk (node xk t1 t2 xh xc) t3 yh yc) = some x' ∧
      height x' = 1 + max (height t1) (1 + max (height t2) (height t3)) := by
  refine ⟨_, _, rfl, rfl, ?_, rfl⟩
  simp only [rotate_right, height_node, Nat.add_comm 1]

/-- Claim C33. For every node `x` (key `xk`, count `xc`) whose right child is a node
`y` (key `yk`, count `yc`), with `t1 = x.left`, `t2 = y.left`, `t3 = y.right`,
`rotate_left(x)` returns `y` as the subtree root with `y.left = x`, `y.right = t3`,
`x.left = t1`, `x.right = t2`; keys and counts are as before; the cached height of `x`
is `1 + max(height(t1), height(t2))` and the cached height of `y` is one more than the
larger of that new height of `x` and `height(t3)`, whatever the two cached heights
were before the call. -/
theorem C33_rotate_left (xk yk : α) (t1 t2 t3 : Node α) (xh yh xc yc : Nat) :
    ∃ x' y', x' = node xk t1 t2 (1 + max (height t1) (height t2)) xc ∧
      y' = node yk x' t3 (1 + max (height x') (height t3)) yc ∧
      rotate_left (node xk t1 (node yk t2 t3 yh yc) xh xc) = some y' ∧
      height y' = 1 + max (1 + max (height t1) (height t2)) (height t3) := by
  refine ⟨_, _, rfl, rfl, ?_, rfl⟩
  simp only [rotate_left, height_node, Nat.add_comm 1]

section Claims2

variable [LinearOrder α]

/-- Claim C34. On every tree whose root has a left child `rotate_right` returns a
tree, and on every tree whose root has a right child `rotate_left` returns a tree; the
in-order sequence of `(key, count)` pairs of the returned tree is that of the given
tree, and the returned tree is in strict search-tree order when the given tree is. -/
theorem C34_rotations_preserve_inorder (t : Node α) :
    (hasLeft t = true → ∃ t', rotate_right t = some t' ∧ inorder t' = inorder t ∧
      (StrictBST t → StrictBST t') ∧ (InorderSorted t → InorderSorted t')) ∧
    (hasRight t = true → ∃ t', rotate_left t = some t' ∧ inorder t' = inorder t ∧
      (StrictBST t → StrictBST t') ∧ (InorderSorted t → InorderSorted t')) := by
  constructor
  · intro h
    cases hr : rotate_right t with
    | none =>
      match t, h, hr with
      | node _ (node _ _ _ _ _) _ _ _, _, hr => simp [rotate_right] at hr
    | some t' =>
      exact ⟨t', rfl, rotate_right_inorder t t' hr, rotate_right_strictBST t t' hr,
        inorderSorted_of_inorder_eq (rotate_right_inorder t t' hr)⟩
  · intro h
    cases hr : rotate_left t with
    | none =>
      match t, h, hr with
      | node _ _ (node _ _ _ _ _) _ _, _, hr => simp [rotate_left] at hr
    | some t' =>
      exact ⟨t', rfl, rotate_left_inorder t t' hr, rotate_left_strictBST t t' hr,
        inorderSorted_of_inorder_eq (rotate_left_inorder t t' hr)⟩

/-- Claim C35. For all keys `a < b < c`, inserting `a`, `c`, `b` into the empty tree
gives the root `b` with the leaves `a` and `c` as left and right child and root
height `2`.  On the way the third call leaves the root `a` at balance `-2` with the
new key less than the key of the right child; the right child is rotated to the
right, then the root to the left. -/
theorem C35_insert_right_left (a b c : α) (hab : a < b) (hbc : b < c) :
    run [Op.insert a, Op.insert c, Op.insert b] =
        some (node b (node a nullptr nullptr 1 1) (node c nullptr nullptr 1 1) 2 1) ∧
      run [Op.insert a, Op.insert c] = some (node a nullptr (node c nullptr nullptr 1 1) 2 1) ∧
      insert_key (node c nullptr nullptr 1 1) b =
        some (node c (node b nullptr nullptr 1 1) nullptr 2 1) ∧
      balance (node a nullptr (node c (node b nullptr nullptr 1 1) nullptr 2 1) 3 1) = -2 ∧
      rotate_right (node c (node b nullptr nullptr 1 1) nullptr 2 1) =
        some (node b nullptr (node c nullptr nullptr 1 1) 2 1) ∧
      rotate_left (node a nullptr (node b nullptr (node c nullptr nullptr 1 1) 2 1) 3 1) =
        some (node b (node a nullptr nullptr 1 1) (node c nullptr nullptr 1 1) 2 1) := by
  have hac : a < c := lt_trans hab hbc
  refine ⟨?_, ?_, ?_, ?_, ?_, ?_⟩
  · simp [run, runFrom, Op.apply, insert_key, insert_rebalance, balance, rotate_right,
      rotate_left, Node.new, hab, hbc, hac, hab.ne, hab.ne', hbc.ne, hbc.ne', hac.ne,
      hac.ne', not_lt_of_gt hab, not_lt_of_gt hbc, not_lt_of_gt hac]
  · simp [run, runFrom, Op.apply, insert_key, insert_rebalance, balance, Node.new, hac.ne,
      not_lt_of_gt hac]
  · simp [insert_key, insert_rebalance, balance, Node.new, hbc.ne', hbc]
  · simp [balance]
  · simp [rotate_right]
  · simp [rotate_left]

/-- Claim C36. Let `t` be a tree reachable from the empty tree and let the node `s`
with key `key` and children `left`, `right` be one of its nodes.  Let a call
`delete_key(s, k)` go into the right subtree, either because `k > key` or because `k`
is found at `s` with count `1` and two children and the key `a` of the in-order
successor takes its place, and let it come back with the subtree `r'`.  When this
leaves the node at balance `+2` with a left child of balance `0`, the call returns
the result of a single right rotation of the node with its left child left as it
is; the returned subtree satisfies the balance invariant and has the height `s` had
before the call. -/
theorem C36_delete_single_right_rotation (t : Node α) (ht : Reachable t)
    (key : α) (left right : Node α) (h count : Nat)
    (hsub : node key left right h count ∈ subtreeList t) (k a : α) (r' : Node α)
    (hdel : (key < k ∧ a = key ∧ delete_key right k = some r') ∨
      (k = key ∧ count ≤ 1 ∧ (min_value right).key? = some a ∧
        delete_key right a = some r'))
    (hb : balance (node a left r' h count) = 2) (hl : balance left = 0) :
    ∃ s', delete_key (node key left right h count) k = some s' ∧
      rotate_right (node a left r' (max (height left) (height r') + 1) count) = some s' ∧
      AVL s' ∧ Balanced s' ∧ height s' = height (node key left right h count) ∧
      realHeight s' = realHeight (node key left right h count) := by
  have hs : AVL (node key left right h count) := AVL.of_subtree ht.inv.1 hsub
  obtain ⟨s', e1, e2, e3, e4⟩ :=
    delete_key_left_zero key left right h count hs k a r' hdel hb hl
  refine ⟨s', e1, e2, e3, e3.balanced, e4, ?_⟩
  rw [← e3.height_eq, ← hs.height_eq]
  exact e4

/-- Claim C37. After every sequence of `insert_key` and `delete_key` calls on the
empty tree and for every key `k`, the sum of the `count` fields of the nodes holding
`k` is the logical multiplicity of `k` (`0` at the start, one more with each
`insert_key(k)`, one less with each `delete_key(k)` made while it is positive).  One
more `insert_key(k)` adds one to the sum, one more `delete_key(k)` takes one away
unless the sum is `0`, and a call with another key leaves the sum for `k` as it is. -/
theorem C37_count_sum_multiplicity (ops : List (Op α)) (k : α) :
    ∃ t, run ops = some t ∧ totalCount t k = mult ops k ∧
      mult ([] : List (Op α)) k = 0 ∧
      mult (ops ++ [Op.insert k]) k = mult ops k + 1 ∧
      mult (ops ++ [Op.delete k]) k = mult ops k - 1 ∧
      (∃ t', insert_key t k = some t' ∧ totalCount t' k = totalCount t k + 1) ∧
      (∃ t', delete_key t k = some t' ∧ totalCount t' k = totalCount t k - 1) ∧
      ∀ x, x ≠ k →
        mult (ops ++ [Op.insert x]) k = mult ops k ∧
        mult (ops ++ [Op.delete x]) k = mult ops k ∧
        (∃ t', insert_key t x = some t' ∧ totalCount t' k = totalCount t k) ∧
        (∃ t', delete_key t x = some t' ∧ totalCount t' k = totalCount t k) := by
  obtain ⟨t, h, ha, hs, hc, ht⟩ := run_inv ops
  refine ⟨t, h, ht k, rfl, ?_, ?_, ?_, ?_, ?_⟩
  · simp [mult, List.foldl_append, Op.multStep]
  · simp [mult, List.foldl_append, Op.multStep]
  · obtain ⟨t', h1, _, _, _, h5⟩ := step_inv t ha hs hc (Op.insert k)
    exact ⟨t', h1, by rw [h5 k]; simp [Op.multStep]⟩
  · obtain ⟨t', h1, _, _, _, h5⟩ := step_inv t ha hs hc (Op.delete k)
    exact ⟨t', h1, by rw [h5 k]; simp [Op.multStep]⟩
  · intro x hx
    refine ⟨?_, ?_, ?_, ?_⟩
    · simp [mult, List.foldl_append, Op.multStep, hx]
    · simp [mult, List.foldl_append, Op.multStep, hx]
    · obtain ⟨t', h1, _, _, _, h5⟩ := step_inv t ha hs hc (Op.insert x)
      exact ⟨t', h1, by rw [h5 k]; simp [Op.multStep, hx]⟩
    · obtain ⟨t', h1, _, _, _, h5⟩ := step_inv t ha hs hc (Op.delete x)
      exact ⟨t', h1, by rw [h5 k]; simp [Op.multStep, hx]⟩

/-- Claim C38. For every list `ks` of keys, the `insert_key` calls for `ks` on the
empty tree succeed; the in-order key sequence of the tree they build is strictly
increasing, the keys in it are the keys of `ks`, and every node holds as count the
number of occurrences of its key in `ks`. -/
theorem C38_insert_only_inorder (ks : List α) :
    ∃ t, run (ks.map Op.insert) = some t ∧ List.Sorted (· < ·) (keys t) ∧
      (keys t).Nodup ∧ (∀ x, x ∈ keys t ↔ x ∈ ks) ∧
      inorder t = (keys t).map (fun x => (x, ks.count x)) ∧
      keys t = ks.dedup.insertionSort (· ≤ ·) := by
  obtain ⟨t, h1, _, h3, h4, h5⟩ := run_insert_counted ks
  have hnd : (keys t).Nodup := h3.imp ne_of_lt
  refine ⟨t, h1, h3, hnd, h4, ?_, ?_⟩
  · rw [keys, List.map_map]
    conv_lhs => rw [← List.map_id (inorder t)]
    apply List.map_congr_left
    intro p hp
    simp only [id, Function.comp]
    rw [← h5 p hp]
  · apply List.eq_of_perm_of_sorted (r := (· ≤ ·)) _ (h3.imp le_of_lt)
      (List.sorted_insertionSort _ _)
    refine List.Perm.trans ?_ (List.perm_insertionSort _ _).symm
    rw [List.perm_ext_iff_of_nodup hnd (List.nodup_dedup ks)]
    intro x
    rw [h4 x, List.mem_dedup]

/-- Claim C39. For every tree `t` reachable from the empty tree and every key `k`,
`insert_key(t, k)` returns a tree of the height of `t` or one more, and
`delete_key(t, k)` returns a tree of the height of `t` or one less; this holds for
the cached height of the root and for the true height. -/
theorem C39_height_step (t : Node α) (ht : Reachable t) (k : α) :
    (∃ t', insert_key t k = some t' ∧
      (height t' = height t ∨ height t' = height t + 1) ∧
      (realHeight t' = realHeight t ∨ realHeight t' = realHeight t + 1)) ∧
    (∃ t', delete_key t k = some t' ∧
      (height t' = height t ∨ height t' + 1 = height t) ∧
      (realHeight t' = realHeight t ∨ realHeight t' + 1 = realHeight t)) := by
  have ha := ht.inv.1
  constructor
  · obtain ⟨t', h1, h2, h3⟩ := insert_key_avl k t ha
    have h4 : height t' = height t ∨ height t' = height t + 1 := by
      rcases h3 with h3 | ⟨h3, _⟩
      · exact Or.inl h3
      · exact Or.inr h3
    refine ⟨t', h1, h4, ?_⟩
    rw [← h2.height_eq, ← ha.height_eq]
    exact h4
  · obtain ⟨t', h1, h2, h3⟩ := delete_key_avl t ha k
    refine ⟨t', h1, h3, ?_⟩
    rw [← h2.height_eq, ← ha.height_eq]
    exact h3

end Claims2

/-- Claim C34 on the tree with root `2` and leaves `1`, `3`. -/
theorem C34_rotations_preserve_inorder_witness :
    hasLeft tree213 = true ∧ hasRight tree213 = true ∧ StrictBST tree213 ∧
      (∃ t', rotate_right tree213 = some t' ∧ inorder t' = inorder tree213 ∧ StrictBST t') ∧
      (∃ t', rotate_left tree213 = some t' ∧ inorder t' = inorder tree213 ∧ StrictBST t') := by
  have hs : StrictBST tree213 := by simp [StrictBST, tree213, keys, inorder]
  obtain ⟨t1, a1, a2, a3, _⟩ := (C34_rotations_preserve_inorder tree213).1 (by decide)
  obtain ⟨t2, b1, b2, b3, _⟩ := (C34_rotations_preserve_inorder tree213).2 (by decide)
  exact ⟨by decide, by decide, hs, ⟨t1, a1, a2, a3 hs⟩, ⟨t2, b1, b2, b3 hs⟩⟩

/-- Claim C35 on the keys `10 < 20 < 30`. -/
theorem C35_insert_right_left_witness :
    (10 : Nat) < 20 ∧ (20 : Nat) < 30 ∧
    run [Op.insert 10, Op.insert 30, Op.insert 20] =
      some (node 20 (node 10 nullptr nullptr 1 1) (node 30 nullptr nullptr 1 1) 2 1) :=
  ⟨by decide, by decide, (C35_insert_right_left 10 20 30 (by decide) (by decide)).1⟩

/-- Claim C36 on the tree built by inserting `20`, `10`, `30`, `5`, `15`, and
`delete_key(30)`: the result is the root `10` with left child `5` and right child
`20`, whose left child is `15`. -/
theorem C36_delete_single_right_rotation_witness :
    run ops20 = some tree20 ∧ tree20 ∈ subtreeList tree20 ∧
      delete_key (node 30 nullptr nullptr 1 1) 30 = some nullptr ∧
      balance (node 20 (node 10 (node 5 nullptr nullptr 1 1) (node 15 nullptr nullptr 1 1) 2 1)
        nullptr 3 1) = 2 ∧
      balance (node 10 (node 5 nullptr nullptr 1 1) (node 15 nullptr nullptr 1 1) 2 1) = 0 ∧
      delete_key tree20 30 = some tree20del30 ∧
      ∃ s', delete_key tree20 30 = some s' ∧
        rotate_right (node 20 (node 10 (node 5 nullptr nullptr 1 1)
          (node 15 nullptr nullptr 1 1) 2 1) nullptr
          (max (height (node 10 (node 5 nullptr nullptr 1 1)
            (node 15 nullptr nullptr 1 1) 2 1)) (height (nullptr : Node Nat)) + 1) 1) = some s' ∧
        AVL s' ∧ Balanced s' ∧ height s' = height tree20 ∧
        realHeight s' = realHeight tree20 :=
  ⟨by decide, by decide, by decide, by decide, by decide, by decide,
    C36_delete_single_right_rotation tree20 ⟨ops20, by decide⟩ 20
      (node 10 (node 5 nullptr nullptr 1 1) (node 15 nullptr nullptr 1 1) 2 1)
      (node 30 nullptr nullptr 1 1) 3 1 (by decide) 30 20 nullptr
      (Or.inl ⟨by decide, rfl, by decide⟩) (by decide) (by decide)⟩

/-- Claim C37 on the calls `insert_key` of `2`, `1`, `3`, `3` and `delete_key(2)`,
after which two nodes hold the key `3`: the counts for `3` add up to `2`, and
`delete_key(1)` leaves that sum as it is. -/
theorem C37_count_sum_multiplicity_witness :
    ∃ t, run (ops2133 ++ [Op.delete 2]) = some t ∧ totalCount t 3 = 2 ∧
      ∃ t', delete_key t 1 = some t' ∧ totalCount t' 3 = 2 := by
  obtain ⟨t, h1, h2, _, _, _, _, _, h5⟩ := C37_count_sum_multiplicity (ops2133 ++ [Op.delete 2]) 3
  have h2' : totalCount t 3 = 2 := h2.trans (by decide)
  obtain ⟨t', a, b⟩ := (h5 1 (by decide)).2.2.2
  exact ⟨t, h1, h2', t', a, b.trans h2'⟩

/-- Claim C39 on the tree with root `2` and leaves `1`, `3`, and the key `5`. -/
theorem C39_height_step_witness :
    Reachable tree213 ∧
    ((∃ t', insert_key tree213 5 = some t' ∧
      (height t' = height tree213 ∨ height t' = height tree213 + 1) ∧
      (realHeight t' = realHeight tree213 ∨ realHeight t' = realHeight tree213 + 1)) ∧
    (∃ t', delete_key tree213 5 = some t' ∧
      (height t' = height tree213 ∨ height t' + 1 = height tree213) ∧
      (realHeight t' = realHeight tree213 ∨ realHeight t' + 1 = realHeight tree213))) :=
  ⟨⟨[Op.insert 2, Op.insert 1, Op.insert 3], by decide⟩,
    C39_height_step tree213 ⟨[Op.insert 2, Op.insert 1, Op.insert 3], by decide⟩ 5⟩

end AVLTree

/-! ### Binary trees: `kthSmallest` and `isSubtree` -/

namespace BinaryTree

open TNode

/-- Claim C26 fails on the code. On the one-node tree and `k = 1` the loop pops the
root, the counter reaches `0` and the loop is left with the stack empty; the test
`st.empty()` after the loop then makes `kthSmallest` return `nullptr`, not the node
with the smallest key.  The same happens for `k = 2` on the tree with root `2` and
leaves `1`, `3`, and for `k = 3 = n` on it. -/
theorem C26_kth_smallest_null_on_empty_stack :
    (∀ fuel, kthSmallest (fuel + 1) single5 1 = some nullptr) ∧
      (inorderNodes single5)[0]? = some single5 ∧
      (∀ fuel, kthSmallest (fuel + 3) bst213 2 = some nullptr) ∧
      (∀ fuel, kthSmallest (fuel + 3) bst213 3 = some nullptr) ∧
      (∀ fuel, kthSmallest (fuel + 3) bst213 1 = some (node 1 nullptr nullptr)) := by
  refine ⟨fun fuel => ?_, by decide, fun fuel => ?_, fun fuel => ?_, fun fuel => ?_⟩ <;>
    simp [kthSmallest, kthLoop, pushLeftSpine, single5, bst213]

/-- Claim C27 fails on the code. The one-node tree `3` is the subtree of the node at
depth two of the tree `1 - 2 - 3`, and `isSubtree` returns `false`: it tests the root
and its two children with `areSame` and goes no deeper. -/
theorem C27_is_subtree_misses_depth_two :
    isSubtree chain123 single3 = false ∧ single3 ∈ subtrees chain123 ∧
      areSame single3 single3 = true := by
  decide

/-! ### Diameter of a binary tree, in two passes and in one -/

/-- The pair computed by `diameter_optimized` is the pair of `diameter` and `height`. -/
theorem diameter_optimized_eq : ∀ (t : TNode α),
    diameter_optimized t = (diameter t, height t)
  | nullptr => rfl
  | node _ l r => by
    simp only [diameter_optimized, diameter, height, diameter_optimized_eq l,
      diameter_optimized_eq r, Nat.add_comm 1]

/-- Claim C31. For every binary tree, `diameter_optimized(root, &h)` returns the value
`diameter(root)` returns and stores `height(root)` in `h`. -/
theorem C31_diameter_optimized_agrees (t : TNode α) :
    (diameter_optimized t).1 = diameter t ∧ (diameter_optimized t).2 = height t := by
  rw [diameter_optimized_eq]
  exact ⟨rfl, rfl⟩

end BinaryTree

/-! ### Next greater element -/

namespace StackUsage

/-- Claim C28 fails on the code. On `[5, 5]` the result is `[0, -1]`: the first `5` is
popped when the second one is read, it is neither given a next greater element nor
pushed back (the test is `curr.first > curr_ng`), and its entry stays at the initial
`0`; there is no greater element to its right, so the claim wants `-1`.  On
`[5, 5, 7]` the entry of the first `5` is `0` too, where the claim wants `7`. -/
theorem C28_next_greater_equal_elements :
    findNextGreater [5, 5] = some [0, -1] ∧ nextGreaterSpec [5, 5] 0 = -1 ∧
      findNextGreater [5, 5, 7] = some [0, 7, -1] ∧ nextGreaterSpec [5, 5, 7] 0 = 7 := by
  decide

end StackUsage

/-! ### Trie: `delete_key` -/

namespace Trie

/-- Claim C29 fails on the code. In the trie with the keys `ab` and `abc`,
`delete_key("ab")` unmarks the node of `ab`; `is_free_node` returns `true` because
that node has a child, so the caller deletes the node and sets the pointer to it to
null: `search("abc")` was `true` before the call and is `false` after it. -/
theorem C29_delete_key_loses_longer_key :
    trieAbAbc.search ['a', 'b', 'c'] = true ∧
      (trieAbAbc.delete_key ['a', 'b']).search ['a', 'b'] = false ∧
      (trieAbAbc.delete_key ['a', 'b']).search ['a', 'b', 'c'] = false := by
  decide

end Trie

/-! ### Union-find: `make_union` inside one subset -/

namespace UnionFind

/-- Claim C30 fails on the code. With one vertex, `make_union(0, 0)` finds the
representative `0` twice and stores `m_parents[0] = 0`; from then on `find(0)` calls
itself with the same argument for ever: no amount of fuel gives a result.  The same
holds for `make_union(0, 1)` made twice on two vertices. -/
theorem C30_make_union_same_subset_diverges :
    make_union 1 (new 1) 0 0 = some [0] ∧ (∀ fuel, find fuel [0] 0 = none) ∧
      make_union 1 (new 2) 0 1 = some [1, -1] ∧ make_union 2 [1, -1] 0 1 = some [1, 1] ∧
      (∀ fuel, find fuel [1, 1] 0 = none) := by
  refine ⟨by decide, ?_, by decide, by decide, ?_⟩
  · intro fuel
    induction fuel with
    | zero => rfl
    | succ n ih => simpa [find] using ih
  · have h1 : ∀ fuel, find fuel [1, 1] 1 = none := by
      intro fuel
      induction fuel with
      | zero => rfl
      | succ n ih => simpa [find] using ih
    intro fuel
    cases fuel with
    | zero => rfl
    | succ n => simpa [find] using h1 n

/-! ### Union-find: `make_union` on two subsets -/

theorem find_mono (p : List Int) : ∀ (f : Nat) (v r : Int), find f p v = some r →
    ∀ k, find (f + k) p v = some r
  | 0, _, _, h, _ => by simp [find] at h
  | f + 1, v, r, h, k => by
    rw [Nat.add_right_comm]
    rw [find] at h ⊢
    by_cases hv : v < 0
    · simp [hv] at h
    · simp only [hv, if_false] at h ⊢
      cases hq : p[v.toNat]? with
      | none => simp [hq] at h
      | some q =>
        simp only [hq] at h ⊢
        by_cases hq1 : q = -1
        · simp only [hq1, if_true] at h ⊢; exact h
        · simp only [hq1, if_false] at h ⊢
          exact find_mono p f q r h k

theorem find_le (p : List Int) (f g : Nat) (v r : Int) (h : find f p v = some r)
    (hfg : f ≤ g) : find g p v = some r := by
  obtain ⟨k, rfl⟩ := Nat.exists_eq_add_of_le hfg
  exact find_mono p f v r h k

theorem find_det (p : List Int) (f g : Nat) (v r s : Int) (h1 : find f p v = some r)
    (h2 : find g p v = some s) : r = s := by
  have a := find_le p f (max f g) v r h1 (le_max_left _ _)
  have b := find_le p g (max f g) v s h2 (le_max_right _ _)
  rw [a] at b
  exact Option.some.inj b

theorem find_root (p : List Int) (f : Nat) (r : Nat) (h : p[r]? = some (-1)) :
    find (f + 1) p r = some (r : Int) := by
  rw [find]
  simp [h]

/-- After `m_parents[ra] = rb` on two different roots, `find` gives `rb` where it gave
`ra` and is as before elsewhere, with one more call at most. -/
theorem find_set (p : List Int) (ra rb : Nat) (hne : ra ≠ rb)
    (ha : p[ra]? = some (-1)) (hb : p[rb]? = some (-1)) :
    ∀ (f : Nat) (v r : Int), find f p v = some r →
      find (f + 1) (p.set ra rb) v = some (if r = ra then (rb : Int) else r)
  | 0, _, _, h => by simp [find] at h
  | f + 1, v, r, h => by
    have hb' : (p.set ra (rb : Int))[rb]? = some (-1) := by
      rw [List.getElem?_set_ne hne]; exact hb
    rw [find] at h
    by_cases hv : v < 0
    · simp [hv] at h
    · simp only [hv, if_false] at h
      cases hq : p[v.toNat]? with
      | none => simp [hq] at h
      | some q =>
        simp only [hq] at h
        have hvn : ((v.toNat : Nat) : Int) = v := Int.toNat_of_nonneg (by omega)
        by_cases hq1 : q = -1
        · simp only [hq1, if_true, Option.some.injEq] at h
          subst h
          by_cases hva : v.toNat = ra
          · have e : v = (ra : Int) := by rw [← hvn, hva]
            rw [if_pos e, find]
            have hlt : ra < p.length := by
              rcases List.getElem?_eq_some_iff.1 ha with ⟨h1, _⟩
              exact h1
            have hs : (p.set ra (rb : Int))[v.toNat]? = some (rb : Int) := by
              rw [hva, List.getElem?_set_self hlt]
            have hrb : ¬ ((rb : Int) = -1) := by omega
            simp only [hv, if_false, hs, hrb]
            exact find_root _ f rb hb'
          · have e : ¬ v = (ra : Int) := fun e => hva (by rw [e]; simp)
            rw [if_neg e, find]
            have hs : (p.set ra (rb : Int))[v.toNat]? = some (-1) := by
              rw [List.getElem?_set_ne (fun e => hva e.symm), hq, hq1]
            simp [hv, hs]
        · simp only [hq1, if_false] at h
          have hva : v.toNat ≠ ra := by
            intro e
            rw [e, ha] at hq
            exact hq1 (Option.some.inj hq).symm
          rw [find]
          have hs : (p.set ra (rb : Int))[v.toNat]? = some q := by
            rw [List.getElem?_set_ne (fun e => hva e.symm), hq]
          simp only [hv, if_false, hs, hq1]
          exact find_set p ra rb hne ha hb f q r h

theorem count_set_root : ∀ (p : List Int) (i : Nat) (x : Int), p[i]? = some (-1) → x ≠ -1 →
    (p.set i x).count (-1) + 1 = p.count (-1)
  | [], i, _, h, _ => by simp at h
  | y :: p, 0, x, h, hx => by
    simp only [List.getElem?_cons_zero, Option.some.injEq] at h
    subst h
    simp [List.count_cons, hx]
  | y :: p, i + 1, x, h, hx => by
    simp only [List.getElem?_cons_succ] at h
    have := count_set_root p i x h hx
    simp only [List.set_cons_succ, List.count_cons]
    omega

theorem forest_new (n : Nat) : Forest n 0 (new n) := by
  refine ⟨by simp [new], by simp [new], ?_⟩
  intro v hv
  have h : (new n)[v]? = some (-1) := by
    simp [new, List.getElem?_replicate, hv]
  exact ⟨v, hv, find_root _ 0 v h, h⟩

/-- One guarded `make_union` call keeps the invariant, with one more union, and
leaves both vertices with the representative the second one had. -/
theorem forest_union (n u fuel : Nat) (p p' : List Int) (a b : Nat) (p1 p2 : Int)
    (hF : Forest n u p) (ha : a < n) (hb : b < n)
    (h1 : find fuel p a = some p1) (h2 : find fuel p b = some p2) (hne : p1 ≠ p2)
    (hm : make_union fuel p a b = some p') :
    Forest n (u + 1) p' ∧ find (u + 2) p' a = some p2 ∧ find (u + 2) p' b = some p2 := by
  obtain ⟨hlen, hcnt, hfind⟩ := hF
  obtain ⟨ra, hra, fa, ga⟩ := hfind a ha
  obtain ⟨rb, hrb, fb, gb⟩ := hfind b hb
  have e1 : p1 = (ra : Int) := find_det p _ _ _ _ _ h1 fa
  have e2 : p2 = (rb : Int) := find_det p _ _ _ _ _ h2 fb
  subst e1 e2
  have hab : ra ≠ rb := fun e => hne (by rw [e])
  have hp' : p' = p.set ra (rb : Int) := by
    simp only [make_union, h1, h2, Option.some_bind, Int.toNat_ofNat] at hm
    rw [if_neg (by omega)] at hm
    exact (Option.some.inj hm).symm
  subst hp'
  have key := find_set p ra rb hab ga gb
  refine ⟨⟨by simp [hlen], ?_, ?_⟩, ?_, ?_⟩
  · have := count_set_root p ra (rb : Int) ga (by omega)
    omega
  · intro v hv
    obtain ⟨r, hr, fv, gv⟩ := hfind v hv
    have kv := key (u + 1) v r fv
    by_cases hra' : r = ra
    · subst hra'
      refine ⟨rb, hrb, ?_, ?_⟩
      · rw [kv, if_pos rfl]
      · rw [List.getElem?_set_ne hab]; exact gb
    · refine ⟨r, hr, ?_, ?_⟩
      · rw [kv, if_neg (by omega)]
      · rw [List.getElem?_set_ne (fun e => hra' e.symm)]; exact gv
  · have := key (u + 1) a ra fa
    rw [if_pos rfl] at this
    exact this
  · have := key (u + 1) b rb fb
    rw [if_neg (by omega)] at this
    exact this

theorem GuardedReachable.forest {n : Nat} {p : List Int} (h : GuardedReachable n p) :
    ∃ u, Forest n u p := by
  induction h with
  | init => exact ⟨0, forest_new n⟩
  | union fuel p p' a b p1 p2 _ ha hb h1 h2 hne hm ih =>
    obtain ⟨u, hF⟩ := ih
    exact ⟨u + 1, (forest_union n u fuel p p' a b p1 p2 hF ha hb h1 h2 hne hm).1⟩

/-- Claim C30, as amended. In every state reached from the constructor by
`make_union` calls on vertices with different representatives, and for all vertices
`a`, `b` with `find(a) != find(b)`: `make_union(a, b)` returns, after it `find(a)` and
`find(b)` return, both with the representative `b` had before the call, and the new
state is again such a state.  More calls of `find` than there are vertices are never
needed. -/
theorem C30_make_union_distinct_subsets (n : Nat) (m_parents : List Int)
    (hp : GuardedReachable n m_parents) (a b : Nat) (ha : a < n) (hb : b < n)
    (fuel : Nat) (hf : n < fuel) (hne : find fuel m_parents a ≠ find fuel m_parents b) :
    ∃ m_parents' r, make_union fuel m_parents a b = some m_parents' ∧
      find fuel m_parents' a = some r ∧ find fuel m_parents' b = some r ∧
      find fuel m_parents b = some r ∧ GuardedReachable n m_parents' := by
  obtain ⟨u, hF⟩ := hp.forest
  obtain ⟨hlen, hcnt, hfind⟩ := hF
  obtain ⟨ra, hra, fa, ga⟩ := hfind a ha
  obtain ⟨rb, hrb, fb, gb⟩ := hfind b hb
  have fa' := find_le m_parents _ fuel _ _ fa (by omega)
  have fb' := find_le m_parents _ fuel _ _ fb (by omega)
  have hab : (ra : Int) ≠ (rb : Int) := by
    intro e
    apply hne
    rw [fa', fb', e]
  have hm : make_union fuel m_parents a b = some (m_parents.set ra (rb : Int)) := by
    simp only [make_union, fa', fb', Option.some_bind, Int.toNat_ofNat]
    rw [if_neg (by omega)]
  obtain ⟨hF', g1, g2⟩ := forest_union n u fuel m_parents _ a b _ _ ⟨hlen, hcnt, hfind⟩
    ha hb fa' fb' hab hm
  have hu : u + 2 ≤ fuel := by
    have := hF'.2.1
    omega
  exact ⟨_, rb, hm, find_le _ _ fuel _ _ g1 hu, find_le _ _ fuel _ _ g2 hu, fb',
    GuardedReachable.union fuel m_parents _ a b _ _ hp ha hb fa' fb' hab hm⟩

/-- Claim C30, as amended, on two vertices after the constructor. -/
theorem C30_make_union_distinct_subsets_witness :
    GuardedReachable 2 (new 2) ∧ 0 < 2 ∧ 1 < 2 ∧ 2 < 3 ∧
      find 3 (new 2) ((0 : Nat) : Int) ≠ find 3 (new 2) ((1 : Nat) : Int) ∧
      ∃ m_parents' r, make_union 3 (new 2) ((0 : Nat) : Int) ((1 : Nat) : Int) = some m_parents' ∧
        find 3 m_parents' ((0 : Nat) : Int) = some r ∧
        find 3 m_parents' ((1 : Nat) : Int) = some r ∧
        find 3 (new 2) ((1 : Nat) : Int) = some r ∧ GuardedReachable 2 m_parents' :=
  ⟨GuardedReachable.init, by decide, by decide, by decide, by decide,
    C30_make_union_distinct_subsets 2 (new 2) GuardedReachable.init 0 1 (by decide)
      (by decide) 3 (by decide) (by decide)⟩

end UnionFind

/-! ### Heap sort -/

namespace HeapSort

variable {α : Type}

theorem permBelow_refl (m : Nat) (buf : Nat → α) : PermBelow m buf buf :=
  ⟨Equiv.refl _, fun _ _ => rfl, fun _ => rfl⟩

theorem permBelow_trans {m : Nat} {b1 b2 b3 : Nat → α} (h12 : PermBelow m b2 b1)
    (h23 : PermBelow m b3 b2) : PermBelow m b3 b1 := by
  obtain ⟨σ1, f1, e1⟩ := h12
  obtain ⟨σ2, f2, e2⟩ := h23
  refine ⟨σ2.trans σ1, fun k hk => ?_, fun k => ?_⟩
  · simp [f2 k hk, f1 k hk]
  · simp [e2 k, e1 (σ2 k)]

theorem permBelow_mono {m m' : Nat} {b b' : Nat → α} (h : PermBelow m b' b) (hm : m ≤ m') :
    PermBelow m' b' b := by
  obtain ⟨σ, f, e⟩ := h
  exact ⟨σ, fun k hk => f k (le_trans hm hk), e⟩

theorem permBelow_frame {m : Nat} {b b' : Nat → α} (h : PermBelow m b' b) (k : Nat)
    (hk : m ≤ k) : b' k = b k := by
  obtain ⟨σ, f, e⟩ := h
  rw [e k, f k hk]

theorem permBelow_lt_of_lt {m : Nat} {σ : Equiv.Perm Nat} (f : ∀ k, m ≤ k → σ k = k)
    (k : Nat) (hk : k < m) : σ k < m := by
  by_contra hge
  have h1 := f (σ k) (not_lt.mp hge)
  have h2 := σ.injective h1
  omega

theorem permBelow_exists_eq {m : Nat} {b b' : Nat → α} (h : PermBelow m b' b) (k : Nat)
    (hk : k < m) : ∃ k', k' < m ∧ b' k = b k' := by
  obtain ⟨σ, f, e⟩ := h
  exact ⟨σ k, permBelow_lt_of_lt f k hk, e k⟩

theorem permBelow_swap (b : Nat → α) {m i j : Nat} (hi : i < m) (hj : j < m) :
    PermBelow m (swap b i j) b := by
  refine ⟨Equiv.swap i j, fun k hk => ?_, fun k => ?_⟩
  · exact Equiv.swap_apply_of_ne_of_ne (by omega) (by omega)
  · unfold HeapSort.swap
    by_cases h1 : k = i
    · subst h1; simp
    · by_cases h2 : k = j
      · subst h2; simp [h1]
      · simp [h1, h2, Equiv.swap_apply_of_ne_of_ne h1 h2]

theorem permBelow_perm {m : Nat} {b b' : Nat → α} (h : PermBelow m b' b) :
    ((List.range m).map b').Perm ((List.range m).map b) := by
  obtain ⟨σ, f, e⟩ := h
  have e1 : (List.range m).map b' = ((List.range m).map σ).map b := by
    rw [List.map_map]
    exact List.map_congr_left fun k _ => e k
  rw [e1]
  apply List.Perm.map
  rw [List.perm_ext_iff_of_nodup ((List.nodup_range m).map σ.injective) (List.nodup_range m)]
  intro a
  simp only [List.mem_map, List.mem_range]
  constructor
  · rintro ⟨k, hk, rfl⟩
    exact permBelow_lt_of_lt f k hk
  · intro ha
    refine ⟨σ.symm a, ?_, by simp⟩
    have f' : ∀ k, m ≤ k → σ.symm k = k := fun k hk => by
      rw [Equiv.symm_apply_eq, f k hk]
    exact permBelow_lt_of_lt f' a ha

theorem swap_fst (b : Nat → α) (i j : Nat) : swap b i j i = b j := by
  simp [HeapSort.swap]

theorem swap_snd (b : Nat → α) (i j : Nat) : swap b i j j = b i := by
  unfold HeapSort.swap
  by_cases h : j = i
  · simp [h]
  · simp [h]

theorem swap_other (b : Nat → α) {i j k : Nat} (h1 : k ≠ i) (h2 : k ≠ j) :
    swap b i j k = b k := by
  simp [HeapSort.swap, h1, h2]

section Sift

variable [LinearOrder α]

theorem largestOf_spec (buf : Nat → α) (i n : Nat) :
    (largestOf buf i n = i ∨ (largestOf buf i n = 2 * i + 1 ∧ 2 * i + 1 < n) ∨
        (largestOf buf i n = 2 * i + 2 ∧ 2 * i + 2 < n)) ∧
      buf i ≤ buf (largestOf buf i n) ∧
      (2 * i + 1 < n → buf (2 * i + 1) ≤ buf (largestOf buf i n)) ∧
      (2 * i + 2 < n → buf (2 * i + 2) ≤ buf (largestOf buf i n)) := by
  by_cases h1 : 2 * i + 1 < n ∧ buf (2 * i + 1) > buf i
  · by_cases h2 : 2 * i + 2 < n ∧ buf (2 * i + 2) > buf (2 * i + 1)
    · have e : largestOf buf i n = 2 * i + 2 := by
        unfold largestOf; simp only [h1, h2, and_self, if_true]
      rw [e]
      refine ⟨Or.inr (Or.inr ⟨rfl, h2.1⟩), ?_, ?_, ?_⟩
      · exact le_of_lt (lt_trans h1.2 h2.2)
      · intro _; exact le_of_lt h2.2
      · intro _; exact le_refl _
    · have e : largestOf buf i n = 2 * i + 1 := by
        unfold largestOf; simp only [h1, h2, and_self, if_true, if_false]
      rw [e]
      refine ⟨Or.inr (Or.inl ⟨rfl, h1.1⟩), le_of_lt h1.2, fun _ => le_refl _, ?_⟩
      intro h3
      exact not_lt.mp fun h4 => h2 ⟨h3, h4⟩
  · by_cases h2 : 2 * i + 2 < n ∧ buf (2 * i + 2) > buf i
    · have e : largestOf buf i n = 2 * i + 2 := by
        unfold largestOf; simp only [h1, h2, and_self, if_true, if_false]
      rw [e]
      refine ⟨Or.inr (Or.inr ⟨rfl, h2.1⟩), le_of_lt h2.2, ?_, fun _ => le_refl _⟩
      intro h3
      exact le_trans (not_lt.mp fun h4 => h1 ⟨h3, h4⟩) (le_of_lt h2.2)
    · have e : largestOf buf i n = i := by
        unfold largestOf; simp only [h1, h2, if_false]
      rw [e]
      refine ⟨Or.inl rfl, le_refl _, ?_, ?_⟩
      · intro h3; exact not_lt.mp fun h4 => h1 ⟨h3, h4⟩
      · intro h3; exact not_lt.mp fun h4 => h2 ⟨h3, h4⟩

theorem maxHeapify_eq (buf : Nat → α) (i n : Nat) :
    maxHeapify buf i n =
      if largestOf buf i n ≠ i then
        maxHeapify (swap buf (largestOf buf i n) i) (largestOf buf i n) n
      else buf := by
  rw [maxHeapify]
  split_ifs <;> rfl

/-- Sifting down at `i` repairs a heap that is in order everywhere from `s` on except
at `i`, the children of `i` being at most the parent of `i`. -/
theorem maxHeapify_spec (n s : Nat) : ∀ (m : Nat) (buf : Nat → α) (i : Nat), n - i ≤ m →
    s ≤ i →
    (∀ j, s ≤ j → j < n → j ≠ i → MaxAt buf n j) →
    (∀ p, s ≤ p → (i = 2 * p + 1 ∨ i = 2 * p + 2) →
      (2 * i + 1 < n → buf (2 * i + 1) ≤ buf p) ∧ (2 * i + 2 < n → buf (2 * i + 2) ≤ buf p)) →
    (∀ j, s ≤ j → j < n → MaxAt (maxHeapify buf i n) n j) ∧
      PermBelow n (maxHeapify buf i n) buf := by
  intro m
  induction m with
  | zero =>
    intro buf i hm hs hheap hpar
    obtain ⟨hc, h0, h1, h2⟩ := largestOf_spec buf i n
    have hci : largestOf buf i n = i := by
      rcases hc with hc | ⟨_, hc⟩ | ⟨_, hc⟩
      · exact hc
      · omega
      · omega
    rw [maxHeapify_eq, if_neg (not_not.mpr hci)]
    refine ⟨fun j hj1 hj2 => ?_, permBelow_refl _ _⟩
    exact hheap j hj1 hj2 (by omega)
  | succ m ih =>
    intro buf i hm hs hheap hpar
    obtain ⟨hc, h0, h1, h2⟩ := largestOf_spec buf i n
    by_cases hci : largestOf buf i n = i
    · rw [maxHeapify_eq, if_neg (not_not.mpr hci)]
      refine ⟨fun j hj1 hj2 => ?_, permBelow_refl _ _⟩
      by_cases hji : j = i
      · subst hji
        rw [hci] at h1 h2
        exact ⟨h1, h2⟩
      · exact hheap j hj1 hj2 hji
    · rw [maxHeapify_eq, if_pos hci]
      generalize hcdef : largestOf buf i n = c at hc h0 h1 h2 hci
      have hcn : c < n := by
        rcases hc with hc | ⟨_, hc⟩ | ⟨_, hc⟩
        · exact absurd hc hci
        · omega
        · omega
      have hcc : c = 2 * i + 1 ∨ c = 2 * i + 2 := by
        rcases hc with hc | ⟨hc, _⟩ | ⟨hc, _⟩
        · exact absurd hc hci
        · exact Or.inl hc
        · exact Or.inr hc
      have hin : i < n := by omega
      have hP1 : ∀ j, s ≤ j → j < n → j ≠ c → MaxAt (swap buf c i) n j := by
        intro j hj1 hj2 hjc
        by_cases hji : j = i
        · subst hji
          rw [MaxAt, swap_snd]
          constructor
          · intro hl
            by_cases e : 2 * j + 1 = c
            · rw [e, swap_fst]; exact h0
            · rw [swap_other _ e (by omega)]; exact h1 hl
          · intro hr
            by_cases e : 2 * j + 2 = c
            · rw [e, swap_fst]; exact h0
            · rw [swap_other _ e (by omega)]; exact h2 hr
        · have hj := hheap j hj1 hj2 hji
          rw [MaxAt, swap_other _ hjc hji]
          constructor
          · intro hl
            by_cases e : 2 * j + 1 = i
            · rw [e, swap_snd]
              have := hpar j hj1 (Or.inl e.symm)
              rcases hcc with hcc | hcc
              · rw [hcc]; exact this.1 (by omega)
              · rw [hcc]; exact this.2 (by omega)
            · rw [swap_other _ (by omega) e]; exact hj.1 hl
          · intro hr
            by_cases e : 2 * j + 2 = i
            · rw [e, swap_snd]
              have := hpar j hj1 (Or.inr e.symm)
              rcases hcc with hcc | hcc
              · rw [hcc]; exact this.1 (by omega)
              · rw [hcc]; exact this.2 (by omega)
            · rw [swap_other _ (by omega) e]; exact hj.2 hr
      have hP2 : ∀ p, s ≤ p → (c = 2 * p + 1 ∨ c = 2 * p + 2) →
          (2 * c + 1 < n → swap buf c i (2 * c + 1) ≤ swap buf c i p) ∧
          (2 * c + 2 < n → swap buf c i (2 * c + 2) ≤ swap buf c i p) := by
        intro p _ hp
        have hpi : p = i := by omega
        subst hpi
        have hcm := hheap c (by omega) hcn hci
        rw [swap_snd, swap_other _ (by omega) (by omega), swap_other _ (by omega) (by omega)]
        exact hcm
      obtain ⟨r1, r2⟩ := ih (swap buf c i) c (by omega) (by omega) hP1 hP2
      exact ⟨r1, permBelow_trans (permBelow_swap buf hcn hin) r2⟩

theorem buildHeapFrom_spec (n : Nat) : ∀ (pos : Nat) (buf : Nat → α),
    (∀ j, pos < j → j < n → MaxAt buf n j) →
    (∀ j, j < n → MaxAt (buildHeapFrom n pos buf) n j) ∧
      PermBelow n (buildHeapFrom n pos buf) buf
  | 0, buf, h => by
    obtain ⟨r1, r2⟩ := maxHeapify_spec n 0 n buf 0 (by omega) (le_refl _)
      (fun j _ hj hj0 => h j (by omega) hj) (fun p _ hp => by omega)
    exact ⟨fun j hj => r1 j (Nat.zero_le _) hj, r2⟩
  | pos + 1, buf, h => by
    obtain ⟨r1, r2⟩ := maxHeapify_spec n (pos + 1) n buf (pos + 1) (by omega) (le_refl _)
      (fun j hj1 hj hjne => h j (by omega) hj) (fun p hp1 hp => by omega)
    obtain ⟨q1, q2⟩ := buildHeapFrom_spec n pos (maxHeapify buf (pos + 1) n)
      (fun j hj1 hj => r1 j (by omega) hj)
    exact ⟨q1, permBelow_trans r2 q2⟩

theorem buildHeap_spec (buf : Nat → α) (n : Nat) :
    (∀ j, j < n → MaxAt (buildHeap buf n) n j) ∧ PermBelow n (buildHeap buf n) buf := by
  apply buildHeapFrom_spec
  intro j hj1 hj2
  constructor <;> intro h <;> omega

/-- In a max-heap the root is a largest element. -/
theorem root_max (buf : Nat → α) (n : Nat) (h : ∀ j, j < n → MaxAt buf n j) :
    ∀ k, k < n → buf k ≤ buf 0 := by
  intro k
  induction k using Nat.strong_induction_on with
  | _ k ih =>
    intro hk
    rcases Nat.eq_zero_or_pos k with rfl | hpos
    · exact le_refl _
    · have hp : (k - 1) / 2 < k := by omega
      have ihp := ih ((k - 1) / 2) hp (by omega)
      have hm := h ((k - 1) / 2) (by omega)
      rcases Nat.even_or_odd (k - 1) with ⟨q, hq⟩ | ⟨q, hq⟩
      · have e : 2 * ((k - 1) / 2) + 1 = k := by omega
        have := hm.1 (by omega)
        rw [e] at this
        exact le_trans this ihp
      · have e : 2 * ((k - 1) / 2) + 2 = k := by omega
        have := hm.2 (by omega)
        rw [e] at this
        exact le_trans this ihp

/-- The loop of `heapSort`: from a heap on the first `m` places, with the places from
`m` on sorted and at least the first `m`, to a sorted array. -/
theorem sortLoop_spec (n : Nat) : ∀ (m : Nat) (buf : Nat → α), m ≤ n →
    (∀ j, j < m → MaxAt buf m j) →
    (∀ i j, m ≤ i → i ≤ j → j < n → buf i ≤ buf j) →
    (∀ i j, i < m → m ≤ j → j < n → buf i ≤ buf j) →
    (∀ i j, i ≤ j → j < n → sortLoop m buf i ≤ sortLoop m buf j) ∧
      PermBelow n (sortLoop m buf) buf
  | 0, buf, _, _, hs, _ => ⟨fun i j hij hj => hs i j (Nat.zero_le _) hij hj, permBelow_refl _ _⟩
  | 1, buf, _, _, hs, hc => by
    refine ⟨fun i j hij hj => ?_, permBelow_refl _ _⟩
    show buf i ≤ buf j
    by_cases hi : 1 ≤ i
    · exact hs i j hi hij hj
    · by_cases hj1 : 1 ≤ j
      · exact hc i j (by omega) hj1 hj
      · have : i = j := by omega
        rw [this]
  | m + 2, buf, hmn, hh, hs, hc => by
    have hroot := root_max buf (m + 2) hh
    have hsw : PermBelow (m + 2) (swap buf 0 (m + 1)) buf :=
      permBelow_swap buf (by omega) (by omega)
    obtain ⟨r1, r2⟩ := maxHeapify_spec (m + 1) 0 (m + 1) (swap buf 0 (m + 1)) 0 (by omega)
      (le_refl _)
      (fun j _ hj hj0 => by
        have hm := hh j (by omega)
        rw [MaxAt, swap_other _ hj0 (by omega)]
        constructor
        · intro hl
          rw [swap_other _ (by omega) (by omega)]
          exact hm.1 (by omega)
        · intro hr
          rw [swap_other _ (by omega) (by omega)]
          exact hm.2 (by omega))
      (fun p _ hp => by omega)
    have hval : ∀ i, i < m + 1 → maxHeapify (swap buf 0 (m + 1)) 0 (m + 1) i ≤ buf 0 := by
      intro i hi
      obtain ⟨k, hk, e⟩ := permBelow_exists_eq r2 i hi
      rw [e]
      obtain ⟨k', hk', e'⟩ := permBelow_exists_eq hsw k (by omega)
      rw [e']
      exact hroot k' hk'
    have hlast : maxHeapify (swap buf 0 (m + 1)) 0 (m + 1) (m + 1) = buf 0 := by
      rw [permBelow_frame r2 (m + 1) (le_refl _), swap_snd]
    have hrest : ∀ j, m + 2 ≤ j → maxHeapify (swap buf 0 (m + 1)) 0 (m + 1) j = buf j := by
      intro j hj
      rw [permBelow_frame r2 j (by omega), swap_other _ (by omega) (by omega)]
    obtain ⟨q1, q2⟩ := sortLoop_spec n (m + 1) (maxHeapify (swap buf 0 (m + 1)) 0 (m + 1))
      (by omega) (fun j hj => r1 j (Nat.zero_le _) hj)
      (fun i j hi hij hj => by
        by_cases hi' : i = m + 1
        · by_cases hj' : j = m + 1
          · rw [hi', hj']
          · rw [hi', hlast, hrest j (by omega)]
            exact hc 0 j (by omega) (by omega) hj
        · rw [hrest i (by omega), hrest j (by omega)]
          exact hs i j (by omega) hij hj)
      (fun i j hi hj1 hj => by
        by_cases hj' : j = m + 1
        · rw [hj', hlast]; exact hval i hi
        · rw [hrest j (by omega)]
          obtain ⟨k, hk, e⟩ := permBelow_exists_eq r2 i hi
          rw [e]
          obtain ⟨k', hk', e'⟩ := permBelow_exists_eq hsw k (by omega)
          rw [e']
          exact hc k' j hk' (by omega) hj)
    refine ⟨q1, ?_⟩
    exact permBelow_trans (permBelow_trans (permBelow_mono hsw hmn) (permBelow_mono r2 (by omega))) q2

/-- `heapSort(v, v.size())` sorts and permutes. -/
theorem heapSort_spec (buf : Nat → α) (n : Nat) :
    (∀ i j, i ≤ j → j < n → heapSort buf n n i ≤ heapSort buf n n j) ∧
      PermBelow n (heapSort buf n n) buf := by
  obtain ⟨b1, b2⟩ := buildHeap_spec buf n
  obtain ⟨s1, s2⟩ := sortLoop_spec n n (buildHeap buf n) (le_refl _) b1
    (fun i j hi hij hj => by omega) (fun i j hi hj1 hj => by omega)
  exact ⟨s1, permBelow_trans b2 s2⟩

end Sift

theorem toList_ofList [Inhabited α] (v : List α) : toList v.length (ofList v) = v := by
  apply List.ext_getElem
  · simp [toList]
  · intro i h1 h2
    simp [toList, ofList, List.getElem?_eq_getElem h2]

/-- Claim C23. For every vector `v`, after `heapSort(v, v.size())` the vector is sorted
in non-decreasing order and is a permutation of its contents before the call; the
empty and the one-element vector are included. -/
theorem C23_heap_sort_sorts [Inhabited α] [LinearOrder α] (v : List α) :
    List.Sorted (· ≤ ·) (heapSortVector v) ∧ (heapSortVector v).Perm v := by
  obtain ⟨h1, h2⟩ := heapSort_spec (ofList v) v.length
  constructor
  · unfold heapSortVector toList
    rw [List.Sorted, List.pairwise_map]
    exact (List.pairwise_lt_range v.length).imp_of_mem fun {a b} _ hb hab =>
      h1 a b (le_of_lt hab) (List.mem_range.mp hb)
  · have hp := permBelow_perm h2
    have e := toList_ofList v
    unfold toList at e
    rw [e] at hp
    exact hp

end HeapSort

/-! ### Binary min-heap -/

namespace MinHeap

open HeapSort (swap swap_fst swap_snd swap_other PermBelow permBelow_refl permBelow_trans permBelow_swap permBelow_frame permBelow_exists_eq permBelow_perm permBelow_mono)

variable {α : Type}

section SiftMin

variable [LinearOrder α]

theorem smallestOf_spec (buf : Nat → α) (n i : Nat) :
    (smallestOf buf n i = i ∨ (smallestOf buf n i = 2 * i + 1 ∧ 2 * i + 1 < n) ∨
        (smallestOf buf n i = 2 * i + 2 ∧ 2 * i + 2 < n)) ∧
      buf (smallestOf buf n i) ≤ buf i ∧
      (2 * i + 1 < n → buf (smallestOf buf n i) ≤ buf (2 * i + 1)) ∧
      (2 * i + 2 < n → buf (smallestOf buf n i) ≤ buf (2 * i + 2)) := by
  by_cases h1 : 2 * i + 1 < n ∧ buf (2 * i + 1) < buf i
  · by_cases h2 : 2 * i + 2 < n ∧ buf (2 * i + 2) < buf (2 * i + 1)
    · have e : smallestOf buf n i = 2 * i + 2 := by
        unfold smallestOf left right; simp only [h1, h2, and_self, if_true]
      rw [e]
      refine ⟨Or.inr (Or.inr ⟨rfl, h2.1⟩), ?_, ?_, ?_⟩
      · exact le_of_lt (lt_trans h2.2 h1.2)
      · intro _; exact le_of_lt h2.2
      · intro _; exact le_refl _
    · have e : smallestOf buf n i = 2 * i + 1 := by
        unfold smallestOf left right; simp only [h1, h2, and_self, if_true, if_false]
      rw [e]
      refine ⟨Or.inr (Or.inl ⟨rfl, h1.1⟩), le_of_lt h1.2, fun _ => le_refl _, ?_⟩
      intro h3
      exact not_lt.mp fun h4 => h2 ⟨h3, h4⟩
  · by_cases h2 : 2 * i + 2 < n ∧ buf (2 * i + 2) < buf i
    · have e : smallestOf buf n i = 2 * i + 2 := by
        unfold smallestOf left right; simp only [h1, h2, and_self, if_true, if_false]
      rw [e]
      refine ⟨Or.inr (Or.inr ⟨rfl, h2.1⟩), le_of_lt h2.2, ?_, fun _ => le_refl _⟩
      intro h3
      exact le_trans (le_of_lt h2.2) (not_lt.mp fun h4 => h1 ⟨h3, h4⟩)
    · have e : smallestOf buf n i = i := by
        unfold smallestOf left right; simp only [h1, h2, if_false]
      rw [e]
      refine ⟨Or.inl rfl, le_refl _, ?_, ?_⟩
      · intro h3; exact not_lt.mp fun h4 => h1 ⟨h3, h4⟩
      · intro h3; exact not_lt.mp fun h4 => h2 ⟨h3, h4⟩

theorem heapifyArray_eq (buf : Nat → α) (n i : Nat) :
    heapifyArray buf n i =
      if smallestOf buf n i ≠ i then
        heapifyArray (swap buf i (smallestOf buf n i)) n (smallestOf buf n i)
      else buf := by
  rw [heapifyArray]
  split_ifs <;> rfl

/-- Sifting down at `i` repairs a min-heap that is in order everywhere from `s` on
except at `i`, the children of `i` being at least the parent of `i`. -/
theorem heapifyArray_spec (n s : Nat) : ∀ (m : Nat) (buf : Nat → α) (i : Nat), n - i ≤ m →
    s ≤ i →
    (∀ j, s ≤ j → j < n → j ≠ i → MinAt buf n j) →
    (∀ p, s ≤ p → (i = 2 * p + 1 ∨ i = 2 * p + 2) →
      (2 * i + 1 < n → buf p ≤ buf (2 * i + 1)) ∧ (2 * i + 2 < n → buf p ≤ buf (2 * i + 2))) →
    (∀ j, s ≤ j → j < n → MinAt (heapifyArray buf n i) n j) ∧
      PermBelow n (heapifyArray buf n i) buf := by
  intro m
  induction m with
  | zero =>
    intro buf i hm hs hheap hpar
    obtain ⟨hc, h0, h1, h2⟩ := smallestOf_spec buf n i
    have hci : smallestOf buf n i = i := by
      rcases hc with hc | ⟨_, hc⟩ | ⟨_, hc⟩
      · exact hc
      · omega
      · omega
    rw [heapifyArray_eq, if_neg (not_not.mpr hci)]
    refine ⟨fun j hj1 hj2 => ?_, permBelow_refl _ _⟩
    exact hheap j hj1 hj2 (by omega)
  | succ m ih =>
    intro buf i hm hs hheap hpar
    obtain ⟨hc, h0, h1, h2⟩ := smallestOf_spec buf n i
    by_cases hci : smallestOf buf n i = i
    · rw [heapifyArray_eq, if_neg (not_not.mpr hci)]
      refine ⟨fun j hj1 hj2 => ?_, permBelow_refl _ _⟩
      by_cases hji : j = i
      · subst hji
        rw [hci] at h1 h2
        exact ⟨h1, h2⟩
      · exact hheap j hj1 hj2 hji
    · rw [heapifyArray_eq, if_pos hci]
      generalize hcdef : smallestOf buf n i = c at hc h0 h1 h2 hci
      have hcn : c < n := by
        rcases hc with hc | ⟨_, hc⟩ | ⟨_, hc⟩
        · exact absurd hc hci
        · omega
        · omega
      have hcc : c = 2 * i + 1 ∨ c = 2 * i + 2 := by
        rcases hc with hc | ⟨hc, _⟩ | ⟨hc, _⟩
        · exact absurd hc hci
        · exact Or.inl hc
        · exact Or.inr hc
      have hin : i < n := by omega
      have hP1 : ∀ j, s ≤ j → j < n → j ≠ c → MinAt (swap buf i c) n j := by
        intro j hj1 hj2 hjc
        by_cases hji : j = i
        · subst hji
          rw [MinAt, swap_fst]
          constructor
          · intro hl
            by_cases e : 2 * j + 1 = c
            · rw [e, swap_snd]; exact h0
            · rw [swap_other _ (by omega) e]; exact h1 hl
          · intro hr
            by_cases e : 2 * j + 2 = c
            · rw [e, swap_snd]; exact h0
            · rw [swap_other _ (by omega) e]; exact h2 hr
        · have hj := hheap j hj1 hj2 hji
          rw [MinAt, swap_other _ hji hjc]
          constructor
          · intro hl
            by_cases e : 2 * j + 1 = i
            · rw [e, swap_fst]
              have := hpar j hj1 (Or.inl e.symm)
              rcases hcc with hcc | hcc
              · rw [hcc]; exact this.1 (by omega)
              · rw [hcc]; exact this.2 (by omega)
            · rw [swap_other _ e (by omega)]; exact hj.1 hl
          · intro hr
            by_cases e : 2 * j + 2 = i
            · rw [e, swap_fst]
              have := hpar j hj1 (Or.inr e.symm)
              rcases hcc with hcc | hcc
              · rw [hcc]; exact this.1 (by omega)
              · rw [hcc]; exact this.2 (by omega)
            · rw [swap_other _ e (by omega)]; exact hj.2 hr
      have hP2 : ∀ p, s ≤ p → (c = 2 * p + 1 ∨ c = 2 * p + 2) →
          (2 * c + 1 < n → swap buf i c p ≤ swap buf i c (2 * c + 1)) ∧
          (2 * c + 2 < n → swap buf i c p ≤ swap buf i c (2 * c + 2)) := by
        intro p _ hp
        have hpi : p = i := by omega
        subst hpi
        have hcm := hheap c (by omega) hcn hci
        rw [swap_fst, swap_other _ (by omega) (by omega), swap_other _ (by omega) (by omega)]
        exact hcm
      obtain ⟨r1, r2⟩ := ih (swap buf i c) c (by omega) (by omega) hP1 hP2
      exact ⟨r1, permBelow_trans (permBelow_swap buf hin hcn) r2⟩

theorem parent_of_pos {c : Nat} (h : 0 < c) : parent c = (c - 1) / 2 := by
  simp [parent, h]

theorem parent_lt {c : Nat} (h : 0 < c) : parent c < c := by
  rw [parent_of_pos h]; omega

theorem siftUp_eq (buf : Nat → α) (idx : Nat) :
    siftUp buf idx =
      if idx > 0 ∧ buf (parent idx) > buf idx then
        siftUp (swap buf idx (parent idx)) (parent idx)
      else buf := by
  rw [siftUp]
  split_ifs <;> rfl

/-- Sifting up from `idx` repairs a min-heap in which every key but the one at `idx`
is at least its parent and the children of `idx` are at least the parent of `idx`. -/
theorem siftUp_spec (n : Nat) : ∀ (idx : Nat) (buf : Nat → α), idx < n →
    (∀ c, 0 < c → c < n → c ≠ idx → buf (parent c) ≤ buf c) →
    (∀ c, 0 < c → c < n → parent c = idx → 0 < idx → buf (parent idx) ≤ buf c) →
    (∀ c, 0 < c → c < n → siftUp buf idx (parent c) ≤ siftUp buf idx c) ∧
      PermBelow n (siftUp buf idx) buf := by
  intro idx
  induction idx using Nat.strong_induction_on with
  | _ idx ih =>
    intro buf hidx h1 h2
    by_cases hcond : idx > 0 ∧ buf (parent idx) > buf idx
    · rw [siftUp_eq, if_pos hcond]
      obtain ⟨hpos, hgt⟩ := hcond
      have hp := parent_lt hpos
      have hA : ∀ c, 0 < c → c < n → c ≠ parent idx →
          swap buf idx (parent idx) (parent c) ≤ swap buf idx (parent idx) c := by
        intro c hc0 hcn hcp
        have hpc := parent_lt hc0
        by_cases hci : c = idx
        · subst hci
          rw [swap_snd, swap_fst]
          exact le_of_lt hgt
        · rw [swap_other _ hci hcp]
          by_cases hq1 : parent c = idx
          · rw [hq1, swap_fst]
            exact h2 c hc0 hcn hq1 hpos
          · by_cases hq2 : parent c = parent idx
            · rw [hq2, swap_snd]
              have := h1 c hc0 hcn hci
              rw [hq2] at this
              exact le_trans (le_of_lt hgt) this
            · rw [swap_other _ hq1 hq2]
              exact h1 c hc0 hcn hci
      have hB : ∀ c, 0 < c → c < n → parent c = parent idx → 0 < parent idx →
          swap buf idx (parent idx) (parent (parent idx)) ≤ swap buf idx (parent idx) c := by
        intro c hc0 hcn hcp hpp
        have hpp' := parent_lt hpp
        have hpc := parent_lt hc0
        have hgp := h1 (parent idx) hpp (by omega) (by omega)
        rw [swap_other _ (by omega) (by omega)]
        by_cases hci : c = idx
        · subst hci
          rw [swap_fst]
          exact hgp
        · rw [swap_other _ hci (by omega)]
          have := h1 c hc0 hcn hci
          rw [hcp] at this
          exact le_trans hgp this
      obtain ⟨r1, r2⟩ := ih (parent idx) hp (swap buf idx (parent idx)) (by omega) hA hB
      exact ⟨r1, permBelow_trans (permBelow_swap buf hidx (by omega)) r2⟩
    · rw [siftUp_eq, if_neg hcond]
      refine ⟨fun c hc0 hcn => ?_, permBelow_refl _ _⟩
      by_cases hci : c = idx
      · subst hci
        exact not_lt.mp fun hlt => hcond ⟨hc0, hlt⟩
      · exact h1 c hc0 hcn hci

theorem minAt_of_children (buf : Nat → α) (n : Nat)
    (h : ∀ c, 0 < c → c < n → buf (parent c) ≤ buf c) (j : Nat) : MinAt buf n j := by
  constructor
  · intro hl
    have := h (2 * j + 1) (by omega) hl
    rw [parent_of_pos (by omega)] at this
    have e : (2 * j + 1 - 1) / 2 = j := by omega
    rwa [e] at this
  · intro hr
    have := h (2 * j + 2) (by omega) hr
    rw [parent_of_pos (by omega)] at this
    have e : (2 * j + 2 - 1) / 2 = j := by omega
    rwa [e] at this

theorem children_of_minAt (buf : Nat → α) (n : Nat) (h : ∀ j, j < n → MinAt buf n j) :
    ∀ c, 0 < c → c < n → buf (parent c) ≤ buf c := by
  intro c hc0 hcn
  rw [parent_of_pos hc0]
  have hm := h ((c - 1) / 2) (by omega)
  rcases Nat.even_or_odd (c - 1) with ⟨q, hq⟩ | ⟨q, hq⟩
  · have e : 2 * ((c - 1) / 2) + 1 = c := by omega
    have := hm.1 (by omega)
    rwa [e] at this
  · have e : 2 * ((c - 1) / 2) + 2 = c := by omega
    have := hm.2 (by omega)
    rwa [e] at this

/-- In a min-heap the root is a smallest key. -/
theorem root_min (buf : Nat → α) (n : Nat)
    (h : ∀ c, 0 < c → c < n → buf (parent c) ≤ buf c) : ∀ k, k < n → buf 0 ≤ buf k := by
  intro k
  induction k using Nat.strong_induction_on with
  | _ k ih =>
    intro hk
    rcases Nat.eq_zero_or_pos k with rfl | hpos
    · exact le_refl _
    · have hp := parent_lt hpos
      exact le_trans (ih (parent k) hp (by omega)) (h k hpos hk)

theorem insert_key_isHeap (h : MinHeap α) (i_key : α) (hh : IsHeap h) :
    IsHeap (insert_key h i_key) := by
  unfold insert_key
  by_cases hc : h.m_size < h.m_capacity
  · rw [if_pos hc]
    obtain ⟨r1, _⟩ := siftUp_spec (h.m_size + 1) h.m_size (assign h.m_heap h.m_size i_key)
      (by omega)
      (fun c hc0 hcn hne => by
        have hp := parent_lt hc0
        have e1 : assign h.m_heap h.m_size i_key c = h.m_heap c := by simp [assign, hne]
        have e2 : assign h.m_heap h.m_size i_key (parent c) = h.m_heap (parent c) := by
          have : parent c ≠ h.m_size := by omega
          simp [assign, this]
        rw [e1, e2]
        exact hh c hc0 (by omega))
      (fun c hc0 hcn hpc _ => by
        have hp := parent_lt hc0
        omega)
    exact r1
  · rw [if_neg hc]; exact hh

omit [LinearOrder α] in
theorem contents_congr {m : Nat} {f g : Nat → α} (h : ∀ k, k < m → f k = g k) :
    (List.range m).map f = (List.range m).map g :=
  List.map_congr_left fun k hk => h k (List.mem_range.mp hk)

/-- What `extract_min` does on a non-empty min-heap. -/
theorem extract_min_spec (h : MinHeap α) (hh : IsHeap h) (hpos : 0 < h.m_size) :
    ∃ res h', extract_min h = some (res, h') ∧ res = h.m_heap 0 ∧
      (∀ x ∈ contents h, res ≤ x) ∧ (contents h).Perm (res :: contents h') ∧
      h'.m_size + 1 = h.m_size ∧ IsHeap h' := by
  have hmin : ∀ x ∈ contents h, h.m_heap 0 ≤ x := by
    intro x hx
    obtain ⟨k, hk, rfl⟩ := List.mem_map.mp hx
    exact root_min h.m_heap h.m_size hh k (List.mem_range.mp hk)
  have h0 : ¬ h.m_size = 0 := by omega
  by_cases h1 : h.m_size = 1
  · refine ⟨h.m_heap 0, { h with m_size := 0 }, ?_, rfl, hmin, ?_, ?_, ?_⟩
    · simp [extract_min, h1]
    · rw [contents, h1]; rfl
    · simp [h1]
    · intro c hc0 hcn
      exact absurd hcn (Nat.not_lt_zero _)
  · obtain ⟨n, hn⟩ : ∃ n, h.m_size = n + 2 := ⟨h.m_size - 2, by omega⟩
    have hat := minAt_of_children h.m_heap h.m_size hh
    obtain ⟨r1, r2⟩ := heapifyArray_spec (n + 1) 0 (n + 1)
      (assign h.m_heap 0 (h.m_heap (n + 1))) 0 (by omega) (le_refl _)
      (fun j _ hj hj0 => by
        have hm := hat j
        rw [hn] at hm
        have e0 : assign h.m_heap 0 (h.m_heap (n + 1)) j = h.m_heap j := by simp [assign, hj0]
        have e1 : assign h.m_heap 0 (h.m_heap (n + 1)) (2 * j + 1) = h.m_heap (2 * j + 1) := by
          simp [assign]
        have e2 : assign h.m_heap 0 (h.m_heap (n + 1)) (2 * j + 2) = h.m_heap (2 * j + 2) := by
          simp [assign]
        rw [MinAt, e0, e1, e2]
        exact ⟨fun hl => hm.1 (by omega), fun hr => hm.2 (by omega)⟩)
      (fun p _ hp => by omega)
    have key : extract_min h = some (h.m_heap 0,
        heapify ⟨assign h.m_heap 0 (h.m_heap (h.m_size - 1)), h.m_capacity, h.m_size - 1⟩ 0) := by
      simp only [extract_min, h0, h1, if_false]
    refine ⟨_, _, key, rfl, hmin, ?_, ?_, ?_⟩
    · have e : h.m_size - 1 = n + 1 := by omega
      simp only [contents, heapify, e]
      rw [hn]
      have hsw : PermBelow (n + 2) (swap h.m_heap 0 (n + 1)) h.m_heap :=
        permBelow_swap h.m_heap (by omega) (by omega)
      have p1 := permBelow_perm hsw
      have p2 := permBelow_perm r2
      have e1 : (List.range (n + 2)).map (swap h.m_heap 0 (n + 1)) =
          (List.range (n + 1)).map (assign h.m_heap 0 (h.m_heap (n + 1))) ++ [h.m_heap 0] := by
        rw [List.range_succ, List.map_append, List.map_singleton, swap_snd]
        congr 1
        apply contents_congr
        intro k hk
        by_cases hk0 : k = 0
        · subst hk0; rw [swap_fst]; simp [assign]
        · rw [swap_other _ hk0 (by omega)]; simp [assign, hk0]
      rw [e1] at p1
      refine p1.symm.trans ?_
      refine (List.perm_append_singleton _ _).trans ?_
      exact List.Perm.cons _ p2.symm
    · simp only [heapify]; omega
    · have e : h.m_size - 1 = n + 1 := by omega
      intro c hc0 hcn
      simp only [heapify, e] at hcn ⊢
      exact children_of_minAt _ (n + 1) (fun j hj => r1 j (Nat.zero_le _) hj) c hc0 hcn

/-- Every heap reached from the empty heap is a min-heap. -/
theorem run_isHeap : ∀ (cs : List (Call α)) (h h' : MinHeap α), IsHeap h →
    run h cs = some h' → IsHeap h'
  | [], h, h', hh, e => by
    simp only [run, Option.some.injEq] at e
    subst e; exact hh
  | Call.insert k :: cs, h, h', hh, e => by
    simp only [run] at e
    exact run_isHeap cs _ h' (insert_key_isHeap h k hh) e
  | Call.extract :: cs, h, h', hh, e => by
    simp only [run] at e
    obtain ⟨out, ho, e'⟩ := Option.bind_eq_some.mp e
    by_cases hpos : 0 < h.m_size
    · obtain ⟨res, h1, he, _, _, _, _, hh1⟩ := extract_min_spec h hh hpos
      rw [he, Option.some.injEq] at ho
      subst ho
      exact run_isHeap cs _ h' hh1 e'
    · have : h.m_size = 0 := by omega
      simp [extract_min, this] at ho

end SiftMin

section Extract

variable [LinearOrder α]

/-- Claim C24. For every heap reached from the empty heap by `insert_key` and
`extract_min` calls, none of the latter on an empty heap, and holding at least one
key: `extract_min` returns a stored key that is at most every stored key, the keys
stored before the call are the returned key together with the keys stored after it
(as multisets), and after the call every stored key other than the root is at least
the key of its parent. -/
theorem C24_extract_min_correct (init : Nat → α) (cap : Nat) (cs : List (Call α))
    (h : MinHeap α) (hr : run (new init cap) cs = some h) (hpos : 0 < h.m_size) :
    ∃ res h', extract_min h = some (res, h') ∧ res ∈ contents h ∧
      (∀ x ∈ contents h, res ≤ x) ∧ (contents h).Perm (res :: contents h') ∧
      h'.m_size + 1 = h.m_size ∧ IsHeap h' := by
  have hh : IsHeap h :=
    run_isHeap cs (new init cap) h (fun c _ hc => absurd hc (Nat.not_lt_zero _)) hr
  obtain ⟨res, h', he, _, hmin, hperm, hsz, hh'⟩ := extract_min_spec h hh hpos
  exact ⟨res, h', he, hperm.symm.subset (List.mem_cons_self _ _), hmin, hperm, hsz, hh'⟩

end Extract

theorem C24_extract_min_correct_witness :
    run (new (fun _ => 0) 4) [Call.insert 3, Call.insert 1] = some heap31 ∧
    0 < heap31.m_size ∧
    ∃ res h', extract_min heap31 = some (res, h') ∧ res ∈ contents heap31 ∧
      (∀ x ∈ contents heap31, res ≤ x) ∧ (contents heap31).Perm (res :: contents h') ∧
      h'.m_size + 1 = heap31.m_size ∧ IsHeap h' :=
  ⟨rfl, by decide,
    C24_extract_min_correct (fun _ => 0) 4 [Call.insert 3, Call.insert 1] heap31 rfl
      (by decide)⟩

end MinHeap

/-! ### Binary indexed tree -/

namespace BIT

theorem int32_add_left (x y : Int) : int32 (int32 x + y) = int32 (x + y) := by
  unfold int32
  omega

end BIT
